import Mathlib

/-!
# gittuf: policy state engine and trust verification

A shallow embedding of `internal/gittuf-metadata` (policy-state.go, helpers.go)
and `gittuf/verify.go`.

Conventions of the embedding.

* A Go `map[string]V` is an association list `GoMap V`; `range` over the map
  visits the list in order (Go leaves the order unspecified), `m[k] = v`
  is `GoMap.set`, `delete(m, k)` is `GoMap.delete`.
* `plumbing.Hash` is a natural number, `plumbing.ZeroHash` is `0`.
* Methods with a pointer receiver that touch the object store take the
  `Repository` and the `PolicyState` and give both back, together with the Go
  `error` (`none` is `nil`), so that what a failing call leaves behind is part
  of the model.
* Everything the functions call that lives outside the embedded files (the
  go-git storer, go-tuf, the role loaders of package gittuf) is a field of
  `Env` or documented where it is defined.
-/

set_option linter.dupNamespace false

namespace Gittuf

/-! ## Basic types -/

/-- Go `error` values are represented by their message. -/
abbrev Error := String

deriving instance DecidableEq for Except

/-- Contents of a blob, `[]byte`. -/
abbrev Bytes := List Nat

/-- Object identifier, `plumbing.Hash`. -/
abbrev Hash := Nat

/-- The identifier `plumbing.ZeroHash`. -/
def ZeroHash : Hash := 0

/-- Go map with string keys, as an association list. -/
abbrev GoMap (V : Type) := List (String × V)

namespace GoMap

/-- Lookup `m[k]` with the comma-ok flag folded into the option. -/
def get? {V : Type} : GoMap V → String → Option V
  | [], _ => none
  | (k', v) :: rest, k => if k' = k then some v else get? rest k

/-- The test `_, ok := m[k]`. -/
def has {V : Type} (m : GoMap V) (k : String) : Bool := (get? m k).isSome

/-- Assignment `m[k] = v`: replaces the binding of `k` or adds one. -/
def set {V : Type} : GoMap V → String → V → GoMap V
  | [], k, v => [(k, v)]
  | (k', v') :: rest, k, v => if k' = k then (k, v) :: rest else (k', v') :: set rest k v

/-- Removal `delete(m, k)`. -/
def delete {V : Type} (m : GoMap V) (k : String) : GoMap V :=
  m.filter (fun p => decide (p.1 ≠ k))

/-- The keys in iteration order. -/
def keys {V : Type} (m : GoMap V) : List String := m.map Prod.fst

end GoMap

/-! ## Object store (go-git) -/

/-- File modes used by Commit, package `filemode`. -/
inductive FileMode where
  | Regular
  | Dir
deriving DecidableEq, Repr

/-- Entry of a tree, `object.TreeEntry`. -/
structure TreeEntry where
  Name : String
  Mode : FileMode
  Hash : Hash
deriving DecidableEq, Repr

/-- Author and committer record, `object.Signature`. -/
structure Signature where
  Name : String
  Email : String
  When : Nat
deriving DecidableEq, Repr

/-- Commit record, `object.Commit` (the fields commit() fills). -/
structure CommitObject where
  Author : Signature
  Committer : Signature
  TreeHash : Hash
  Message : String
  ParentHashes : List Hash
deriving DecidableEq, Repr

/-- What is handed to `Storer.SetEncodedObject`. -/
inductive EncodedObject where
  | blob (contents : Bytes)
  | tree (entries : List TreeEntry)
  | commit (c : CommitObject)
deriving DecidableEq, Repr

/-- The repository: object database and reference storage.  A written object
is put in front of `objects`; reading an identifier returns the first object
stored under it. -/
structure Repository where
  objects : List (Hash × EncodedObject)
  refs : GoMap Hash
deriving DecidableEq, Repr

/-- The user section of the git configuration. -/
structure Config where
  UserName : String
  UserEmail : String
deriving DecidableEq, Repr

/-! ## Policy state (policy-state.go) -/

def PolicyStateRef : String := "refs/gittuf/policy-state"
def MetadataDir : String := "metadata"
def KeysDir : String := "keys"

/-- The struct `PolicyState` without its repository pointer, which is passed
alongside. -/
structure PolicyState where
  metadataStaging : GoMap Bytes
  keysStaging : GoMap Bytes
  tip : Hash
  tree : Hash
  rootKeys : GoMap TreeEntry
  metadataIdentifiers : GoMap TreeEntry
  written : Bool
deriving DecidableEq, Repr

/-! ## TUF data (go-tuf `data`, the fields the embedded code reads) -/

/-- Public key, `tufdata.PublicKey`. -/
structure PublicKey where
  KeyType : String
  Scheme : String
  Value : Bytes
deriving DecidableEq, Repr

/-- Role binding, `tufdata.Role`. -/
structure Role where
  KeyIDs : List String
  Threshold : Int
deriving DecidableEq, Repr

/-- Rule of a delegation, `tufdata.DelegatedRole`. -/
structure DelegatedRole where
  Name : String
  KeyIDs : List String
  Threshold : Int
  Terminating : Bool
  PathHashPrefixes : List String
  Paths : List String
deriving DecidableEq, Repr

/-- Delegations of a targets role, `tufdata.Delegations`. -/
structure Delegations where
  Keys : GoMap PublicKey
  Roles : List DelegatedRole
deriving DecidableEq, Repr

/-- Targets role, `tufdata.Targets`: each target with its `Hashes["sha1"]`,
and the optional delegations (`nil` is `none`). -/
structure Targets where
  Targets : GoMap Hash
  Delegations : Option Delegations
deriving DecidableEq, Repr

/-- Root role, `tufdata.Root`. -/
structure Root where
  Keys : GoMap PublicKey
  Roles : GoMap Role
deriving DecidableEq, Repr

/-- Verification database, `tufverify.DB`. -/
structure DB where
  roles : GoMap Role
  keys : GoMap PublicKey
deriving DecidableEq, Repr

/-- The lookup `db.GetRole(name)`; `nil` is `none`. -/
def DB.GetRole (db : DB) (name : String) : Option Role := GoMap.get? db.roles name

/-- The constructor `tufverify.NewDB()`. -/
def NewDB : DB := { roles := [], keys := [] }

/-! ## Environment -/

/-- What the embedded functions call outside the embedded files. -/
structure Env where
  /-- Identifier the storer computes for an object. -/
  hashObject : EncodedObject → Hash
  /-- Failure of an object write (encoding or `SetEncodedObject`); `none` when
  the write succeeds. -/
  writeFault : Repository → EncodedObject → Option Error
  /-- The call `repo.ConfigScoped(config.GlobalScope)`. -/
  configScoped : Repository → Except Error Config
  /-- The clock, `time.Now()`. -/
  now : Nat
  /-- The method `DelegatedRole.MatchesPath` of go-tuf. -/
  MatchesPath : DelegatedRole → String → Except Error Bool
  /-- The method `DB.AddKey` of go-tuf. -/
  AddKey : DB → String → PublicKey → Except Error DB
  /-- The method `DB.AddRole` of go-tuf. -/
  AddRole : DB → String → Role → Except Error DB
  /-- The function `tufverify.NewDBFromDelegations` of go-tuf. -/
  NewDBFromDelegations : Delegations → Except Error DB
  /-- The loader `loadRoot` of package gittuf: the root role of a state. -/
  loadRoot : Repository → PolicyState → Except Error Root
  /-- The loader `loadTargets` of package gittuf: role `roleName` of a state,
  checked against `db`. -/
  loadTargets : Repository → PolicyState → String → DB → Except Error Targets
  /-- The call `json.Marshal(key)` of StageKey. -/
  marshalKey : PublicKey → Except Error Bytes
  /-- The method `PublicKey.IDs` of go-tuf: the identifiers of a key. -/
  keyIDs : PublicKey → List String

/-! ## Delegation iterator (go-tuf `pkg/targets`) -/

/-- One step of the traversal, `targets.Delegation`. -/
structure Delegation where
  Delegator : String
  Delegatee : DelegatedRole
  DB : DB
deriving DecidableEq, Repr

/-- Modelled from the spec: the delegations iterator of go-tuf, which is not
part of the embedded files.  It keeps the rules still to visit, the head of
`stack` being the next one, and the role names already visited.  The rules
of one `Add` are visited in declared order; getDelegationForTarget calls
`Add` at most once, on an iterator with nothing left to visit, so the order
between rules queued by different calls plays no part in it. -/
structure delegationsIterator where
  stack : List Delegation
  target : String
  visitedRoles : List String
deriving DecidableEq, Repr

/-- The delegation the iterator starts from: the top-level targets role with
the binding the database has for it, and no path pattern. -/
def topLevelTargets (db : DB) (targetsRole : Role) : Delegation :=
  { Delegator := ""
    Delegatee := { Name := "targets", KeyIDs := targetsRole.KeyIDs,
                   Threshold := targetsRole.Threshold, Terminating := false,
                   PathHashPrefixes := [], Paths := [] }
    DB := db }

/-- Modelled from the spec: `NewDelegationsIterator(target, db)` starts at the
top-level targets role and fails when the database has no such role. -/
def NewDelegationsIterator (target : String) (topLevelKeysDB : DB) :
    Except Error delegationsIterator :=
  match topLevelKeysDB.GetRole "targets" with
  | none => .error "tuf: top level targets role missing from top level keys DB"
  | some targetsRole =>
    .ok { stack := [topLevelTargets topLevelKeysDB targetsRole]
          target := target
          visitedRoles := [] }

/-- Pops rules until one names a role not visited before; a terminating rule
empties what is left. -/
def nextOnStack (visited : List String) :
    List Delegation → Option Delegation × List Delegation
  | [] => (none, [])
  | delegation :: rest =>
    if delegation.Delegatee.Name ∈ visited then nextOnStack visited rest
    else if delegation.Delegatee.Terminating then (some delegation, [])
    else (some delegation, rest)

/-- Modelled from the spec: `iterator.Next()` gives the next rule to visit, if
any, and marks its role visited. -/
def delegationsIterator.Next (d : delegationsIterator) :
    Option Delegation × delegationsIterator :=
  match nextOnStack d.visitedRoles d.stack with
  | (none, stack) => (none, { d with stack := stack })
  | (some delegation, stack) =>
    (some delegation,
      { d with stack := stack, visitedRoles := delegation.Delegatee.Name :: d.visitedRoles })

/-- The loop of `Add`: walks `roles` from the last to the first and pushes the
rules matching the target, so that the first declared match ends on top. -/
def addMatching (env : Env) (target delegator : String) (db : DB) :
    List DelegatedRole → List Delegation → Except Error (List Delegation)
  | [], stack => .ok stack
  | r :: roles, stack =>
    match addMatching env target delegator db roles stack with
    | .error e => .error e
    | .ok stack1 =>
      match env.MatchesPath r target with
      | .error e => .error e
      | .ok true => .ok ({ Delegator := delegator, Delegatee := r, DB := db } :: stack1)
      | .ok false => .ok stack1

/-- Modelled from the spec: `iterator.Add(roles, delegator, db)` queues the
rules of `roles` whose path patterns match the target, in declared order. -/
def delegationsIterator.Add (env : Env) (d : delegationsIterator)
    (roles : List DelegatedRole) (delegator : String) (db : DB) :
    Except Error delegationsIterator :=
  match addMatching env d.target delegator db roles d.stack with
  | .error e => .error e
  | .ok stack => .ok { d with stack := stack }

/-! ## Verification (verify.go) -/

def AllowRule : String := "allow-*"

/-- The first loop of InitializeTopLevelDB. -/
def addKeys (env : Env) : List (String × PublicKey) → DB → Except Error DB
  | [], db => .ok db
  | (id, key) :: rest, db =>
    match env.AddKey db id key with
    | .error e => .error e
    | .ok db1 => addKeys env rest db1

/-- The second loop of InitializeTopLevelDB. -/
def addRoles (env : Env) : List (String × Role) → DB → Except Error DB
  | [], db => .ok db
  | (name, role) :: rest, db =>
    match env.AddRole db name role with
    | .error e => .error e
    | .ok db1 => addRoles env rest db1

def InitializeTopLevelDB (env : Env) (repo : Repository) (state : PolicyState) :
    Except Error DB :=
  match env.loadRoot repo state with
  | .error e => .error e
  | .ok rootRole =>
    match addKeys env rootRole.Keys NewDB with
    | .error e => .error e
    | .ok db => addRoles env rootRole.Roles db

/-- The `for` loop of getDelegationForTarget; `none` when `fuel` iterations
did not reach a `return`. -/
def getDelegationLoop (env : Env) (repo : Repository) (state : PolicyState) (target : String) :
    Nat → delegationsIterator → Option (Except Error DelegatedRole)
  | 0, _ => none
  | fuel + 1, iterator =>
    match iterator.Next with
    | (none, _) => some (.error ("delegation not found for target " ++ target))
    | (some d, iterator1) =>
      match env.MatchesPath d.Delegatee target with
      | .error e => some (.error e)
      | .ok true => some (.ok d.Delegatee)
      | .ok false =>
        match env.loadTargets repo state d.Delegatee.Name d.DB with
        | .error e => some (.error e)
        | .ok delegatedRole =>
          match delegatedRole.Delegations with
          | none => getDelegationLoop env repo state target fuel iterator1
          | some delegations =>
            match env.NewDBFromDelegations delegations with
            | .error e => some (.error e)
            | .ok newDB =>
              match iterator1.Add env delegations.Roles d.Delegatee.Name newDB with
              | .error e => some (.error e)
              | .ok iterator2 => getDelegationLoop env repo state target fuel iterator2

def getDelegationForTarget (env : Env) (repo : Repository) (state : PolicyState)
    (fuel : Nat) (target : String) : Option (Except Error DelegatedRole) :=
  match InitializeTopLevelDB env repo state with
  | .error e => some (.error e)
  | .ok db =>
    match NewDelegationsIterator target db with
    | .error e => some (.error e)
    | .ok iterator => getDelegationLoop env repo state target fuel iterator

/-- The second loop of validateUsedKeyIDs. -/
def allInSet (set : GoMap Bool) : List String → Bool
  | [] => true
  | k :: rest => if GoMap.has set k then allInSet set rest else false

def validateUsedKeyIDs (authorizedKeyIDs usedKeyIDs : List String) : Bool :=
  let set : GoMap Bool := authorizedKeyIDs.foldl (fun set k => GoMap.set set k true) []
  allInSet set usedKeyIDs

def validateRule (env : Env) (repo : Repository) (ruleState : PolicyState) (fuel : Nat)
    (path : String) (usedKeyIDs : List String) : Option (Except Error Unit) :=
  match getDelegationForTarget env repo ruleState fuel path with
  | none => none
  | some (.error e) => some (.error e)
  | some (.ok ruleInA) =>
    if ruleInA.Name = AllowRule then some (.ok ())
    else if !validateUsedKeyIDs ruleInA.KeyIDs usedKeyIDs then
      some (.error ("unauthorized change to file " ++ path))
    else some (.ok ())

/-- One side of a change, `object.ChangeEntry`. -/
structure ChangeEntry where
  Name : String
  TreeEntry : TreeEntry
deriving DecidableEq, Repr

/-- One entry of a diff, `object.Change`. -/
structure Change where
  From : ChangeEntry
  To : ChangeEntry
deriving DecidableEq, Repr

def validateChanges (env : Env) (repo : Repository) (ruleState : PolicyState) (fuel : Nat) :
    List Change → List String → Option (Except Error Unit)
  | [], _ => some (.ok ())
  | c :: changes, usedKeyIDs =>
    let fromResult : Option (Except Error Unit) :=
      if 0 < c.From.Name.utf8ByteSize then
        validateRule env repo ruleState fuel c.From.Name usedKeyIDs
      else some (.ok ())
    match fromResult with
    | none => none
    | some (.error e) => some (.error e)
    | some (.ok ()) =>
      let toResult : Option (Except Error Unit) :=
        if c.From.Name ≠ c.To.Name ∧ 0 < c.To.Name.utf8ByteSize then
          validateRule env repo ruleState fuel c.To.Name usedKeyIDs
        else some (.ok ())
      match toResult with
      | none => none
      | some (.error e) => some (.error e)
      | some (.ok ()) => validateChanges env repo ruleState fuel changes usedKeyIDs

/-! ## Store operations (go-git, as used by helpers.go) -/

/-- The read `repo.Reference(name, true)`. -/
def Repository.Reference (repo : Repository) (name : String) : Except Error Hash :=
  match GoMap.get? repo.refs name with
  | some h => .ok h
  | none => .error "reference not found"

/-- The first object stored under an identifier. -/
def Repository.object? (repo : Repository) (h : Hash) : Option EncodedObject :=
  match repo.objects.find? (fun p => p.1 == h) with
  | some p => some p.2
  | none => none

/-- The read `repo.CommitObject(h)`. -/
def Repository.CommitObject (repo : Repository) (h : Hash) : Except Error CommitObject :=
  match repo.object? h with
  | some (.commit c) => .ok c
  | _ => .error "object not found"

/-- The read `repo.TreeObject(h)`, giving the entries of the tree. -/
def Repository.TreeObject (repo : Repository) (h : Hash) : Except Error (List TreeEntry) :=
  match repo.object? h with
  | some (.tree entries) => .ok entries
  | _ => .error "object not found"

/-- The write `repo.Storer.SetEncodedObject(obj)`, the encoding included: it
fails as `env.writeFault` says and otherwise stores the object under its
identifier. -/
def SetEncodedObject (env : Env) (repo : Repository) (obj : EncodedObject) :
    Except Error (Hash × Repository) :=
  match env.writeFault repo obj with
  | some e => .error e
  | none =>
    .ok (env.hashObject obj, { repo with objects := (env.hashObject obj, obj) :: repo.objects })

/-- The update `repo.Storer.CheckAndSetReference(newRef, oldRef)`: the
reference is set to `newHash` unless its stored value differs from that of
`oldRef`. -/
def Repository.CheckAndSetReference (repo : Repository) (name : String) (newHash oldHash : Hash) :
    Except Error Repository :=
  match GoMap.get? repo.refs name with
  | some current =>
    if current ≠ oldHash then .error "reference has changed concurrently"
    else .ok { repo with refs := GoMap.set repo.refs name newHash }
  | none => .ok { repo with refs := GoMap.set repo.refs name newHash }

/-- The text `h.String()`: forty hexadecimal digits. -/
def hashString (h : Hash) : String :=
  let digits := Nat.toDigits 16 h
  String.mk (List.replicate (40 - digits.length) '0' ++ digits)

/-! ## helpers.go -/

def writeBlob (env : Env) (repo : Repository) (contents : Bytes) :
    Except Error (Hash × Repository) :=
  SetEncodedObject env repo (.blob contents)

/-- The order `sort.Slice` is asked to establish in writeTree: no entry is
followed by one whose name is less. -/
def nameLE (a b : TreeEntry) : Prop := a.Name ≤ b.Name

instance nameLE_decidable : DecidableRel nameLE := fun a b =>
  inferInstanceAs (Decidable (a.Name ≤ b.Name))

/-- The call `sort.Slice(entries, less)` with `less` comparing names. -/
def sortSlice (entries : List TreeEntry) : List TreeEntry :=
  entries.insertionSort nameLE

def writeTree (env : Env) (repo : Repository) (entries : List TreeEntry) :
    Except Error (Hash × Repository) :=
  SetEncodedObject env repo (.tree (sortSlice entries))

/-- The function commit of helpers.go.  It gives the hash and the error it
returns, and the repository it leaves. -/
def commit (env : Env) (repo : Repository) (parent treeHash : Hash) (targetRef : String) :
    Hash × Option Error × Repository :=
  match env.configScoped repo with
  | .error e => (ZeroHash, some e, repo)
  | .ok gitConfig =>
    match repo.Reference targetRef with
    | .error e => (ZeroHash, some e, repo)
    | .ok curRef =>
      let author : Signature :=
        { Name := gitConfig.UserName, Email := gitConfig.UserEmail, When := env.now }
      let commit : CommitObject :=
        { Author := author
          Committer := author
          TreeHash := treeHash
          Message := "gittuf: Writing state tree " ++ hashString treeHash
          ParentHashes := if parent ≠ ZeroHash then [parent] else [] }
      match SetEncodedObject env repo (.commit commit) with
      | .error e => (ZeroHash, some e, repo)
      | .ok (commitHash, repo1) =>
        match repo1.CheckAndSetReference targetRef commitHash curRef with
        | .error e => (commitHash, some e, repo1)
        | .ok repo2 => (commitHash, none, repo2)

/-! ## policy-state.go -/

def PolicyState.Written (s : PolicyState) : Bool := s.written

def PolicyState.StageMetadata (s : PolicyState) (roleName : String) (contents : Bytes) :
    PolicyState :=
  { s with metadataStaging := GoMap.set s.metadataStaging roleName contents, written := false }

/-- The method StageKey: the state is marked dirty before the key is
serialized; the serialized key is staged under each of its identifiers.  It
gives the error it returns and the state it leaves. -/
def PolicyState.StageKey (env : Env) (s : PolicyState) (key : PublicKey) :
    Option Error × PolicyState :=
  match env.marshalKey key with
  | .error e => (some e, { s with written := false })
  | .ok contents =>
    (none,
      { s with written := false
               keysStaging :=
                 (env.keyIDs key).foldl (fun m keyID => GoMap.set m keyID contents)
                   s.keysStaging })

/-- The first loop of each half of Commit: the entries of `identifiers` whose
name is not staged, in iteration order. -/
def unstagedEntries (identifiers : GoMap TreeEntry) (staging : GoMap Bytes) : List TreeEntry :=
  (identifiers.filter (fun p => !GoMap.has staging p.1)).map Prod.snd

/-- The entry Commit makes for a staged name: `ext` is `.json` for metadata
and `.pub` for keys. -/
def stagedEntry (ext : String) (name : String) (identifier : Hash) : TreeEntry :=
  { Name := name ++ ext, Mode := .Regular, Hash := identifier }

/-- The second loop of each half of Commit: writes a blob for every staged
entry, records its tree entry in `identifiers` and appends it to `entries`;
stops at the first failing write. -/
def writeStaged (env : Env) (ext : String) :
    List (String × Bytes) → Repository → GoMap TreeEntry → List TreeEntry →
      Option Error × Repository × GoMap TreeEntry × List TreeEntry
  | [], repo, identifiers, entries => (none, repo, identifiers, entries)
  | (name, contents) :: rest, repo, identifiers, entries =>
    match writeBlob env repo contents with
    | .error e => (some e, repo, identifiers, entries)
    | .ok (identifier, repo1) =>
      let treeEntry := stagedEntry ext name identifier
      writeStaged env ext rest repo1 (GoMap.set identifiers name treeEntry)
        (entries ++ [treeEntry])

/-- The method Commit.  It gives the error it returns, the repository and the
state it leaves. -/
def PolicyState.Commit (env : Env) (repo : Repository) (s : PolicyState) :
    Option Error × Repository × PolicyState :=
  if s.Written then (none, repo, s)
  else
    match writeStaged env ".json" s.metadataStaging repo s.metadataIdentifiers
        (unstagedEntries s.metadataIdentifiers s.metadataStaging) with
    | (some e, repo1, identifiers, _) =>
      (some e, repo1, { s with metadataIdentifiers := identifiers })
    | (none, repo1, identifiers, metadataEntries) =>
      match writeTree env repo1 metadataEntries with
      | .error e => (some e, repo1, { s with metadataIdentifiers := identifiers })
      | .ok (metadataTreeHash, repo2) =>
        match writeStaged env ".pub" s.keysStaging repo2 s.rootKeys
            (unstagedEntries s.rootKeys s.keysStaging) with
        | (some e, repo3, keys, _) =>
          (some e, repo3, { s with metadataIdentifiers := identifiers, rootKeys := keys })
        | (none, repo3, keys, rootKeyEntries) =>
          match writeTree env repo3 rootKeyEntries with
          | .error e =>
            (some e, repo3, { s with metadataIdentifiers := identifiers, rootKeys := keys })
          | .ok (keysTreeHash, repo4) =>
            let topLevelEntries : List TreeEntry :=
              [{ Name := MetadataDir, Mode := .Dir, Hash := metadataTreeHash },
               { Name := KeysDir, Mode := .Dir, Hash := keysTreeHash }]
            match writeTree env repo4 topLevelEntries with
            | .error e =>
              (some e, repo4, { s with metadataIdentifiers := identifiers, rootKeys := keys })
            | .ok (treeHash, repo5) =>
              match commit env repo5 s.tip treeHash PolicyStateRef with
              | (_, some e, repo6) =>
                (some e, repo6,
                  { s with metadataIdentifiers := identifiers, rootKeys := keys,
                           tree := treeHash })
              | (commitHash, none, repo6) =>
                (none, repo6,
                  { s with metadataIdentifiers := identifiers, rootKeys := keys,
                           tree := treeHash, tip := commitHash, written := true })

/-- The loop of RemoveMetadata and of RemoveKeys: deletes each name from the
staging map and from the map of tree entries. -/
def deleteAll {V : Type} (m : GoMap V) (names : List String) : GoMap V :=
  names.foldl (fun m name => GoMap.delete m name) m

def PolicyState.RemoveMetadata (env : Env) (repo : Repository) (s : PolicyState)
    (roleNames : List String) : Option Error × Repository × PolicyState :=
  PolicyState.Commit env repo
    { s with written := false
             metadataStaging := deleteAll s.metadataStaging roleNames
             metadataIdentifiers := deleteAll s.metadataIdentifiers roleNames }

def PolicyState.RemoveKeys (env : Env) (repo : Repository) (s : PolicyState)
    (keyIDs : List String) : Option Error × Repository × PolicyState :=
  PolicyState.Commit env repo
    { s with written := false
             keysStaging := deleteAll s.keysStaging keyIDs
             rootKeys := deleteAll s.rootKeys keyIDs }

/-- Outcome of a call that may also end in a run-time panic. -/
inductive Result (α : Type) where
  | ok (a : α)
  | error (e : Error)
  | panic (msg : String)
deriving DecidableEq, Repr

/-- The test `strings.HasSuffix(s, suffix)`. -/
def hasSuffix (s suffix : String) : Bool := suffix.toList.isSuffixOf s.toList

/-- The call `strings.TrimSuffix(s, suffix)`. -/
def trimSuffix (s suffix : String) : String :=
  if hasSuffix s suffix then String.mk (s.toList.take (s.toList.length - suffix.toList.length))
  else s

def getNameWithoutExtension (fileName : String) : String :=
  if hasSuffix fileName ".json" then trimSuffix fileName ".json"
  else if hasSuffix fileName ".pub" then trimSuffix fileName ".pub"
  else fileName

/-- The loop of loadState over the entries of the root tree: the entries of
the subtree named `metadata` and of the one named `keys`, each `none` (a nil
pointer) when no entry has the name. -/
def loadSubtrees (repo : Repository) :
    List TreeEntry → Option (List TreeEntry) → Option (List TreeEntry) →
      Except Error (Option (List TreeEntry) × Option (List TreeEntry))
  | [], metadataTree, keysTree => .ok (metadataTree, keysTree)
  | entry :: rest, metadataTree, keysTree =>
    if entry.Name = MetadataDir then
      match repo.TreeObject entry.Hash with
      | .error e => .error e
      | .ok tree => loadSubtrees repo rest (some tree) keysTree
    else if entry.Name = KeysDir then
      match repo.TreeObject entry.Hash with
      | .error e => .error e
      | .ok tree => loadSubtrees repo rest metadataTree (some tree)
    else loadSubtrees repo rest metadataTree keysTree

/-- The map loadState builds from the entries of a subtree. -/
def identifiersOf (entries : List TreeEntry) : GoMap TreeEntry :=
  entries.foldl (fun m entry => GoMap.set m (getNameWithoutExtension entry.Name) entry) []

def loadState (repo : Repository) (commitID : Hash) : Result PolicyState :=
  match repo.CommitObject commitID with
  | .error e => .error e
  | .ok commitObj =>
    match repo.TreeObject commitObj.TreeHash with
    | .error e => .error e
    | .ok entries =>
      match loadSubtrees repo entries none none with
      | .error e => .error e
      | .ok (none, _) => .panic "invalid memory address or nil pointer dereference"
      | .ok (some _, none) => .panic "invalid memory address or nil pointer dereference"
      | .ok (some metadataTree, some keysTree) =>
        .ok { metadataStaging := [], keysStaging := [], tip := commitID,
              tree := commitObj.TreeHash,
              metadataIdentifiers := identifiersOf metadataTree,
              rootKeys := identifiersOf keysTree, written := true }

/-- The function LoadState, for a repository already opened. -/
def LoadState (repo : Repository) : Result PolicyState :=
  match repo.Reference PolicyStateRef with
  | .error e => .error e
  | .ok ref =>
    if ref = ZeroHash then
      .ok { metadataStaging := [], keysStaging := [], tip := ZeroHash, tree := ZeroHash,
            metadataIdentifiers := [], rootKeys := [], written := true }
    else loadState repo ref

/-! ## Host

What the functions of the later sections call outside the embedded files, in
addition to `Env`: the opening of repositories, the helpers of package gittuf
that are not among the embedded files, JSON decoding, canonical encoding,
signature verification and the tree diff of go-git. -/

/-- Signature of an envelope, `tufdata.Signature`. -/
structure TufSignature where
  KeyID : String
  Signature : Bytes
deriving DecidableEq, Repr

/-- Signed envelope, `tufdata.Signed`: the raw payload and the signatures. -/
structure Signed where
  Signed : Bytes
  Signatures : List TufSignature
deriving DecidableEq, Repr

/-- The struct `ReferenceState` of reference-state.go. -/
structure ReferenceState where
  LastEntry : Hash
  Tip : Hash
deriving DecidableEq, Repr

/-- The calls that leave the embedded files, see the section header. -/
structure Host where
  /-- The call `git.PlainOpen(repoRoot)`. -/
  PlainOpen : String → Except Error Repository
  /-- The conversion `plumbing.NewHash(s)`. -/
  NewHash : String → Hash
  /-- The helper `GetRepoRootDir` of package gittuf. -/
  GetRepoRootDir : Except Error String
  /-- The helper `GetRepoHandler` of package gittuf: the protected repository. -/
  GetRepoHandler : Except Error Repository
  /-- The helper `IsValidGitTarget` of package gittuf. -/
  IsValidGitTarget : String → Bool
  /-- The helper `ParseGitTarget` of package gittuf: reference name and type. -/
  ParseGitTarget : String → Except Error (String × String)
  /-- The helper `GetTipCommitIDForRef` of package gittuf. -/
  GetTipCommitIDForRef : String → String → Except Error Hash
  /-- The call `json.Unmarshal` into a `tufdata.Signed`. -/
  unmarshalSigned : Bytes → Except Error Signed
  /-- The call `json.Unmarshal` into a `ReferenceState`. -/
  unmarshalReferenceState : Bytes → Except Error ReferenceState
  /-- The call `json.Unmarshal` into a `map[string]string`. -/
  unmarshalLastTrusted : Bytes → Except Error (GoMap String)
  /-- The call `cjson.EncodeCanonical` on a `ReferenceState`. -/
  EncodeCanonical : ReferenceState → Except Error Bytes
  /-- The call `tufkeys.GetVerifier(&k)`; the verifier is given as the test
  that `verifier.Verify(msg, sig)` returns nil. -/
  GetVerifier : PublicKey → Except Error (Bytes → Bytes → Bool)
  /-- The method `Diff` of `object.Tree`, on the entries of the two trees. -/
  Diff : List TreeEntry → List TreeEntry → Except Error (List Change)

/-! ## helpers.go, continued -/

def readBlob (repo : Repository) (blobHash : Hash) : Except Error (Nat × Bytes) :=
  match repo.object? blobHash with
  | some (.blob contents) => .ok (contents.length, contents)
  | _ => .error "object not found"

/-! ## policy-state.go, continued -/

/-- The value `&PolicyState{}`: every field has the zero value of its type. -/
def zeroValueState : PolicyState :=
  { metadataStaging := [], keysStaging := [], tip := ZeroHash, tree := ZeroHash,
    rootKeys := [], metadataIdentifiers := [], written := false }

/-- The repository a `PolicyState` built without one points at (a nil
pointer): it holds nothing. -/
def nilRepository : Repository := { objects := [], refs := [] }

/-- A loaded state together with the repository it points at. -/
def withRepository (repo : Repository) : Result PolicyState → Result (Repository × PolicyState)
  | .ok s => .ok (repo, s)
  | .error e => .error e
  | .panic msg => .panic msg

/-- The function LoadState, the opening of the repository included.  It gives
the state together with the repository it points at. -/
def LoadStateIn (host : Host) (repoRoot : String) : Result (Repository × PolicyState) :=
  match host.PlainOpen repoRoot with
  | .error e => .error e
  | .ok repo => withRepository repo (LoadState repo)

/-- The `for` loop of LoadAtState, which traces back from the current tip;
`none` when `fuel` iterations did not leave the loop. -/
def traceBack (repo : Repository) (stateID : String) (stateHash : Hash) :
    Nat → Hash → Option (Except Error Unit)
  | 0, _ => none
  | fuel + 1, iteratorHash =>
    if iteratorHash = stateHash then some (.ok ())
    else
      match repo.CommitObject iteratorHash with
      | .error e => some (.error e)
      | .ok commitObj =>
        match commitObj.ParentHashes with
        | [] => some (.error ("state " ++ stateID ++ " not found in gittuf namespace"))
        | [parent] => traceBack repo stateID stateHash fuel parent
        | _ :: _ :: _ =>
          some (.error ("state " ++ hashString iteratorHash ++ " has multiple parents"))

/-- The function LoadAtState.  It gives the state together with the
repository it points at; `none` when the loop ran out of fuel. -/
def LoadAtState (host : Host) (fuel : Nat) (repoRoot stateID : String) :
    Option (Result (Repository × PolicyState)) :=
  match host.PlainOpen repoRoot with
  | .error _ => some (.ok (nilRepository, zeroValueState))
  | .ok repo =>
    match repo.Reference PolicyStateRef with
    | .error e => some (.error e)
    | .ok currentHash =>
      if host.NewHash stateID = ZeroHash ∨ currentHash = ZeroHash then
        some (.error "can't load gittuf repository at state zero")
      else if currentHash = host.NewHash stateID then some (LoadStateIn host repoRoot)
      else
        match traceBack repo stateID (host.NewHash stateID) fuel currentHash with
        | none => none
        | some (.error e) => some (.error e)
        | some (.ok ()) => some (withRepository repo (loadState repo (host.NewHash stateID)))

def PolicyState.GetCurrentMetadataBytes (repo : Repository) (s : PolicyState)
    (roleName : String) : Except Error Bytes :=
  let entryHash : Hash :=
    match GoMap.get? s.metadataIdentifiers roleName with
    | some entry => entry.Hash
    | none => ZeroHash
  match readBlob repo entryHash with
  | .error e => .error e
  | .ok (_, contents) => .ok contents

/-! ## reference-state.go -/

def ReferenceStateRef : String := "refs/gittuf/reference-state"

/-- The loop of LoadReferenceStateForRef over the trusted keys.  Indexing
`e.Signatures[0]` panics when the envelope has no signature. -/
def tryTrustedKeys (host : Host) (msg : Bytes) (e : Signed) (r : ReferenceState) :
    List PublicKey → Result ReferenceState
  | [] => .error "no entry found with signature from trusted key"
  | k :: rest =>
    match host.GetVerifier k with
    | .error err => .error err
    | .ok verifier =>
      match e.Signatures with
      | [] => .panic "index out of range [0] with length 0"
      | sig :: _ =>
        if verifier msg sig.Signature then .ok r
        else tryTrustedKeys host msg e r rest

def LoadReferenceStateForRef (host : Host) (repository : Repository) (refName : String)
    (trustedKeys : List PublicKey) : Result ReferenceState :=
  match repository.Reference (ReferenceStateRef ++ "/" ++ refName) with
  | .error err => .error err
  | .ok ref =>
    if ref = ZeroHash then .ok { LastEntry := ZeroHash, Tip := ZeroHash }
    else
      match readBlob repository ref with
      | .error err => .error err
      | .ok (_, contents) =>
        match host.unmarshalSigned contents with
        | .error err => .error err
        | .ok e =>
          match host.unmarshalReferenceState e.Signed with
          | .error err => .error err
          | .ok r =>
            match host.EncodeCanonical r with
            | .error err => .error err
            | .ok msg => tryTrustedKeys host msg e r trustedKeys

/-! ## metadata.go -/

/-- The struct `GitTUFMetadata`; the repository pointer is the repository. -/
structure GitTUFMetadata where
  repository : Repository
  policyState : PolicyState
  lastTrusted : Hash
deriving DecidableEq, Repr

def GitTUFMetadata.State (g : GitTUFMetadata) : PolicyState := g.policyState

def GitTUFMetadata.GetLastTrusted (host : Host) (g : GitTUFMetadata) :
    Except Error (GoMap String) :=
  if g.lastTrusted = ZeroHash then .ok []
  else
    match readBlob g.repository g.lastTrusted with
    | .error err => .error err
    | .ok (_, contents) => host.unmarshalLastTrusted contents

def GitTUFMetadata.LastTrusted (host : Host) (g : GitTUFMetadata) (target : String) :
    Except Error String :=
  match g.GetLastTrusted host with
  | .error err => .error err
  | .ok lastTrusted =>
    match GoMap.get? lastTrusted target with
    | none => .error ("no trusted state found for " ++ target)
    | some stateID => .ok stateID

def GitTUFMetadata.SpecificState (host : Host) (g : GitTUFMetadata) (stateID : String) :
    Result PolicyState :=
  loadState g.repository (host.NewHash stateID)

/-! ## verify.go, continued -/

/-- The hash a targets role records for a target,
`role.Targets[target].Hashes["sha1"]`; the zero value when there is none. -/
def recordedHash (role : Targets) (target : String) : Hash :=
  match GoMap.get? role.Targets target with
  | some h => h
  | none => ZeroHash

/-- The `for` loop of getTargetsRoleForTarget; `none` when `fuel` iterations
did not reach a `return`. -/
def getTargetsRoleLoop (env : Env) (repo : Repository) (state : PolicyState) (target : String) :
    Nat → delegationsIterator → Option (Except Error (Targets × String))
  | 0, _ => none
  | fuel + 1, iterator =>
    match iterator.Next with
    | (none, _) => some (.error ("delegation not found for target " ++ target))
    | (some d, iterator1) =>
      match env.loadTargets repo state d.Delegatee.Name d.DB with
      | .error e => some (.error e)
      | .ok delegatedRole =>
        if GoMap.has delegatedRole.Targets target then
          some (.ok (delegatedRole, d.Delegatee.Name))
        else
          match delegatedRole.Delegations with
          | none => getTargetsRoleLoop env repo state target fuel iterator1
          | some delegations =>
            match env.NewDBFromDelegations delegations with
            | .error e => some (.error e)
            | .ok newDB =>
              match iterator1.Add env delegations.Roles d.Delegatee.Name newDB with
              | .error e => some (.error e)
              | .ok iterator2 => getTargetsRoleLoop env repo state target fuel iterator2

def getTargetsRoleForTarget (env : Env) (repo : Repository) (state : PolicyState)
    (fuel : Nat) (target : String) : Option (Except Error (Targets × String)) :=
  match InitializeTopLevelDB env repo state with
  | .error e => some (.error e)
  | .ok db =>
    match env.loadTargets repo state "targets" db with
    | .error e => some (.error e)
    | .ok topLevelTargets =>
      if GoMap.has topLevelTargets.Targets target then some (.ok (topLevelTargets, "targets"))
      else
        match NewDelegationsIterator target db with
        | .error e => some (.error e)
        | .ok iterator => getTargetsRoleLoop env repo state target fuel iterator

def getCurrentCommitID (host : Host) (target : String) : Except Error Hash :=
  if !host.IsValidGitTarget target then .error (target ++ " is not a Git object")
  else
    match host.ParseGitTarget target with
    | .error e => .error e
    | .ok (refName, refType) => host.GetTipCommitIDForRef refName refType

/-- The function getStateTree; the tree is given by its entries. -/
def getStateTree (env : Env) (host : Host) (fuel : Nat)
    (metadataRepo : Repository × PolicyState) (target : String) :
    Option (Except Error (List TreeEntry)) :=
  match host.GetRepoHandler with
  | .error e => some (.error e)
  | .ok mainRepo =>
    match getTargetsRoleForTarget env metadataRepo.1 metadataRepo.2 fuel target with
    | none => none
    | some (.error e) => some (.error e)
    | some (.ok (stateTargets, _)) =>
      match mainRepo.CommitObject (host.NewHash (hashString (recordedHash stateTargets target))) with
      | .error e => some (.error e)
      | .ok stateRefCommit => some (mainRepo.TreeObject stateRefCommit.TreeHash)

/-- The key ids of the signatures of an envelope, in order: the loop that
fills `usedKeyIDs` in VerifyTrustedStates. -/
def signerKeyIDs (roleSigned : Signed) : List String :=
  roleSigned.Signatures.map (fun sig => sig.KeyID)

/-- The end of VerifyTrustedStates, from the role lookup in state B on. -/
def verifyDiff (env : Env) (host : Host) (fuel : Nat)
    (stateARepo stateBRepo : Repository × PolicyState)
    (stateARefTree stateBRefTree : List TreeEntry) (target : String) : Option (Result Unit) :=
  match getTargetsRoleForTarget env stateBRepo.1 stateBRepo.2 fuel target with
  | none => none
  | some (.error e) => some (.error e)
  | some (.ok (_, roleName)) =>
    match stateBRepo.2.GetCurrentMetadataBytes stateBRepo.1 roleName with
    | .error e => some (.error e)
    | .ok roleBytes =>
      match host.unmarshalSigned roleBytes with
      | .error e => some (.error e)
      | .ok roleSigned =>
        match host.Diff stateARefTree stateBRefTree with
        | .error e => some (.error e)
        | .ok changes =>
          match validateChanges env stateARepo.1 stateARepo.2 fuel changes
              (signerKeyIDs roleSigned) with
          | none => none
          | some (.error e) => some (.error e)
          | some (.ok ()) => some (.ok ())

def VerifyTrustedStates (env : Env) (host : Host) (fuel : Nat) (target stateA stateB : String) :
    Option (Result Unit) :=
  if stateA = stateB then some (.ok ())
  else if !host.IsValidGitTarget target then
    some (.error ("specified ref '" ++ target ++ "' is not in valid git format"))
  else
    match host.GetRepoRootDir with
    | .error e => some (.error e)
    | .ok repoRoot =>
      match LoadAtState host fuel repoRoot stateA with
      | none => none
      | some (.error e) => some (.error e)
      | some (.panic msg) => some (.panic msg)
      | some (.ok stateARepo) =>
        match getStateTree env host fuel stateARepo target with
        | none => none
        | some (.error e) => some (.error e)
        | some (.ok stateARefTree) =>
          match LoadAtState host fuel repoRoot stateB with
          | none => none
          | some (.error e) => some (.error e)
          | some (.panic msg) => some (.panic msg)
          | some (.ok stateBRepo) =>
            match getStateTree env host fuel stateBRepo target with
            | none => none
            | some (.error e) => some (.error e)
            | some (.ok stateBRefTree) =>
              verifyDiff env host fuel stateARepo stateBRepo stateARefTree stateBRefTree target

/-- The error VerifyState returns for a role whose recorded hash differs from
the current one. -/
def hashMismatch (role : String) (recorded active : Hash) : Error :=
  "role " ++ role ++ " has recorded different hash value " ++ hashString recorded ++
    " from current hash " ++ hashString active

/-- The function VerifyState.  The comparison `reflect.DeepEqual` of the two
hashes is equality of identifiers. -/
def VerifyState (env : Env) (host : Host) (fuel : Nat) (store : GitTUFMetadata)
    (target : String) : Option (Result Unit) :=
  match getCurrentCommitID host target with
  | .error e => some (.error e)
  | .ok activeID =>
    match getTargetsRoleForTarget env store.repository store.State fuel target with
    | none => none
    | some (.error e) => some (.error e)
    | some (.ok (currentTargets, role)) =>
      if recordedHash currentTargets target ≠ activeID then
        some (.error (hashMismatch role (recordedHash currentTargets target) activeID))
      else
        match store.LastTrusted host target with
        | .error e => some (.error e)
        | .ok lastTrustedStateID =>
          match store.SpecificState host lastTrustedStateID with
          | .error e => some (.error e)
          | .panic msg => some (.panic msg)
          | .ok lastTrustedState =>
            match getTargetsRoleForTarget env store.repository lastTrustedState fuel target with
            | none => none
            | some (.error e) => some (.error e)
            | some (.ok (lastTrustedTargets, role1)) =>
              if recordedHash lastTrustedTargets target ≠ activeID then
                some (.error
                  (hashMismatch role1 (recordedHash lastTrustedTargets target) activeID))
              else some (.ok ())

/-- The loop over `targets.Delegations.Keys` in InitializeDBUntilRole: the
result of `db.AddKey` is not looked at, a key the database refuses is left
out. -/
def addKeysUnchecked (env : Env) : List (String × PublicKey) → DB → DB
  | [], db => db
  | (id, key) :: rest, db =>
    match env.AddKey db id key with
    | .error _ => addKeysUnchecked env rest db
    | .ok db1 => addKeysUnchecked env rest db1

/-- The call `db.AddRole(d.Name, ...)` of InitializeDBUntilRole, whose result
is not looked at: a binding the database refuses is left out. -/
def addRoleUnchecked (env : Env) (db : DB) (d : DelegatedRole) : DB :=
  match env.AddRole db d.Name { KeyIDs := d.KeyIDs, Threshold := d.Threshold } with
  | .error _ => db
  | .ok db1 => db1

/-- The loop over `targets.Delegations.Roles` in InitializeDBUntilRole: gives
the database, whether the role was met (the loop then returns), and the
queue. -/
def addRolesUntil (env : Env) (roleName : String) :
    List DelegatedRole → DB → List String → DB × Bool × List String
  | [], db, toBeChecked => (db, false, toBeChecked)
  | d :: rest, db, toBeChecked =>
    if d.Name = roleName then (addRoleUnchecked env db d, true, toBeChecked)
    else addRolesUntil env roleName rest (addRoleUnchecked env db d) (toBeChecked ++ [d.Name])

/-- The `for` loop of InitializeDBUntilRole; `none` when `fuel` iterations
did not reach a `return`.  The database returned with an error is left
out. -/
def untilRoleLoop (env : Env) (repo : Repository) (state : PolicyState) (roleName : String) :
    Nat → DB → List String → Option (Except Error DB)
  | 0, _, _ => none
  | fuel + 1, db, toBeChecked =>
    match toBeChecked with
    | [] =>
      if roleName.utf8ByteSize ≠ 0 then some (.error ("role " ++ roleName ++ " not found"))
      else some (.ok db)
    | current :: rest =>
      match env.loadTargets repo state current db with
      | .error e => some (.error e)
      | .ok targets =>
        match targets.Delegations with
        | none => untilRoleLoop env repo state roleName fuel db rest
        | some delegations =>
          match addRolesUntil env roleName delegations.Roles
              (addKeysUnchecked env delegations.Keys db) rest with
          | (db1, true, _) => some (.ok db1)
          | (db1, false, toBeChecked1) =>
            untilRoleLoop env repo state roleName fuel db1 toBeChecked1

def InitializeDBUntilRole (env : Env) (repo : Repository) (state : PolicyState) (fuel : Nat)
    (roleName : String) : Option (Except Error DB) :=
  match InitializeTopLevelDB env repo state with
  | .error e => some (.error e)
  | .ok db =>
    if roleName = "targets" then some (.ok db)
    else untilRoleLoop env repo state roleName fuel db ["targets"]

/-! ## A concrete environment

Used to evaluate the definitions on concrete policies. -/

/-- The continuation of a `*` in a pattern: `k` is tried after every run of
characters other than `/`. -/
def starMatch (k : List Char → Bool) : List Char → Bool
  | [] => k []
  | c :: s => k (c :: s) || (c != '/' && starMatch k s)

/-- Shell pattern matching in the manner of Go `path.Match`, for patterns made
of literal characters and `*`. -/
def globMatch : List Char → List Char → Bool
  | [] => fun s => s.isEmpty
  | '*' :: p => starMatch (globMatch p)
  | a :: p => fun s =>
    match s with
    | [] => false
    | c :: s1 => a == c && globMatch p s1

/-- Path matching of a rule by its `Paths` patterns; a rule that sets both
`Paths` and `PathHashPrefixes` is invalid. -/
def sampleMatchesPath (d : DelegatedRole) (file : String) : Except Error Bool :=
  if d.PathHashPrefixes ≠ [] ∧ d.Paths ≠ [] then
    .error "tuf: failed validation of delegated role: paths and path_hash_prefixes are both set"
  else .ok (d.Paths.any (fun pattern => globMatch pattern.toList file.toList))

/-- Sample identifier of an object: not collision free, but it separates the
objects of the examples. -/
def sampleHash : EncodedObject → Hash
  | .blob contents => 1 + contents.foldl (fun acc b => 31 * acc + b + 1) 7
  | .tree entries =>
    2 + entries.foldl (fun acc e => 37 * acc + 5 * e.Hash + e.Name.length + 1) 11
  | .commit c => 3 + 41 * c.TreeHash + 43 * c.ParentHashes.foldl (fun acc h => 47 * acc + h + 1) 13

/-- An environment in which no write fails, every state has a root role that
binds `targets`, and the roles that load are those of the table `roles`. -/
def sampleEnv (roles : GoMap Targets) : Env where
  hashObject := sampleHash
  writeFault := fun _ _ => none
  configScoped := fun _ => .ok { UserName := "dev", UserEmail := "dev@example.com" }
  now := 0
  MatchesPath := sampleMatchesPath
  AddKey := fun db id key => .ok { db with keys := GoMap.set db.keys id key }
  AddRole := fun db name role =>
    if role.Threshold < 1 then .error "tuf: invalid role threshold"
    else .ok { db with roles := GoMap.set db.roles name role }
  NewDBFromDelegations := fun delegations =>
    .ok { roles := delegations.Roles.map
                     (fun r => (r.Name, { KeyIDs := r.KeyIDs, Threshold := r.Threshold }))
          keys := delegations.Keys }
  loadRoot := fun _ _ =>
    .ok { Keys := [], Roles := [("targets", { KeyIDs := ["rootKey"], Threshold := 1 })] }
  loadTargets := fun _ _ roleName _ =>
    match GoMap.get? roles roleName with
    | some role => .ok role
    | none => .error ("role " ++ roleName ++ " not found")
  marshalKey := fun key => .ok (key.KeyType.length :: key.Scheme.length :: key.Value)
  keyIDs := fun key => [hashString (sampleHash (.blob key.Value))]

/-- A rule with the given name, keys and path patterns, threshold 1. -/
def rule (name : String) (keyIDs paths : List String) : DelegatedRole :=
  { Name := name, KeyIDs := keyIDs, Threshold := 1, Terminating := false,
    PathHashPrefixes := [], Paths := paths }

/-- A targets role that declares the given rules. -/
def roleOf (rules : List DelegatedRole) : Targets :=
  { Targets := [], Delegations := some { Keys := [], Roles := rules } }

/-- The environment whose top-level targets role declares the given rules and
which has no other role. -/
def policyEnv (rules : List DelegatedRole) : Env := sampleEnv [("targets", roleOf rules)]

/-- The empty repository with the policy reference at zero. -/
def emptyRepo : Repository := { objects := [], refs := [(PolicyStateRef, ZeroHash)] }

/-- The state LoadState gives when the policy reference is zero. -/
def emptyState : PolicyState :=
  { metadataStaging := [], keysStaging := [], tip := ZeroHash, tree := ZeroHash,
    rootKeys := [], metadataIdentifiers := [], written := true }

/-- A change from path `a` to path `b`. -/
def changeOf (a b : String) : Change :=
  { From := { Name := a, TreeEntry := { Name := a, Mode := .Regular, Hash := 1 } }
    To := { Name := b, TreeEntry := { Name := b, Mode := .Regular, Hash := 1 } } }

/-! ## Predicates used to state the properties -/

/-- The top-level targets role of `state` loads and declares `rules`: the
top-level database binds `targets`, the starting delegation (which carries
no path pattern) does not match `target`, the role has the delegations
`rules`, and a database can be made of them. -/
def DeclaresRules (env : Env) (repo : Repository) (state : PolicyState) (target : String)
    (rules : List DelegatedRole) : Prop :=
  ∃ db targetsRole delegatedRole delegations newDB,
    InitializeTopLevelDB env repo state = .ok db ∧
    db.GetRole "targets" = some targetsRole ∧
    env.MatchesPath (topLevelTargets db targetsRole).Delegatee target = .ok false ∧
    env.loadTargets repo state "targets" db = .ok delegatedRole ∧
    delegatedRole.Delegations = some delegations ∧
    env.NewDBFromDelegations delegations = .ok newDB ∧
    delegations.Roles = rules

/-- The paths validateChanges checks for a change: the from-name when it is
not empty, and the to-name when it is not empty and differs from the
from-name. -/
def checkedPaths (c : Change) : List String :=
  (if 0 < c.From.Name.utf8ByteSize then [c.From.Name] else []) ++
  (if c.From.Name ≠ c.To.Name ∧ 0 < c.To.Name.utf8ByteSize then [c.To.Name] else [])

/-- The blob entries Commit appends for a staging map: one entry per staged
name, named `name ++ ext` and pointing at the identifier of the staged
bytes. -/
def stagedEntries (env : Env) (ext : String) (staging : GoMap Bytes) : List TreeEntry :=
  staging.map (fun p => stagedEntry ext p.1 (env.hashObject (.blob p.2)))

/-- The entries Commit hands to writeTree for one subtree, as serialized: the
unstaged entries of `identifiers` and the entries of the staged blobs,
sorted by writeTree. -/
def newSubtree (env : Env) (ext : String) (identifiers : GoMap TreeEntry)
    (staging : GoMap Bytes) : List TreeEntry :=
  sortSlice (unstagedEntries identifiers staging ++ stagedEntries env ext staging)

/-- The map of tree entries after the second loop of Commit. -/
def newIdentifiers (env : Env) (ext : String) (identifiers : GoMap TreeEntry)
    (staging : GoMap Bytes) : GoMap TreeEntry :=
  staging.foldl
    (fun m p => GoMap.set m p.1 (stagedEntry ext p.1 (env.hashObject (.blob p.2)))) identifiers

/-- No object write fails, the configuration can be read and the policy
reference exists. -/
def StoreOK (env : Env) (repo : Repository) : Prop :=
  (∀ (r : Repository) (o : EncodedObject), env.writeFault r o = none) ∧
  (∀ r : Repository, ∃ c, env.configScoped r = .ok c) ∧
  GoMap.has repo.refs PolicyStateRef = true

/-- The commit object that commit writes. -/
def commitObjectOf (env : Env) (gitConfig : Config) (parent treeHash : Hash) : CommitObject :=
  { Author := { Name := gitConfig.UserName, Email := gitConfig.UserEmail, When := env.now }
    Committer := { Name := gitConfig.UserName, Email := gitConfig.UserEmail, When := env.now }
    TreeHash := treeHash
    Message := "gittuf: Writing state tree " ++ hashString treeHash
    ParentHashes := if parent ≠ ZeroHash then [parent] else [] }


instance nameLE_total : IsTotal TreeEntry nameLE := ⟨fun a b => le_total a.Name b.Name⟩

instance nameLE_trans : IsTrans TreeEntry nameLE := ⟨fun _ _ _ h1 h2 => le_trans h1 h2⟩

/-- Strictly ascending names. -/
def nameLT (a b : TreeEntry) : Prop := a.Name < b.Name

instance nameLT_antisymm : IsAntisymm TreeEntry nameLT :=
  ⟨fun _ _ h1 h2 => absurd h2 (lt_asymm h1)⟩

/-- Two states loaded from the repository whose policy reference is zero, the
first staging `targets` with the bytes [1], the second with the bytes [2]. -/
def firstWriter : PolicyState := emptyState.StageMetadata "targets" [1]

/-- See `firstWriter`. -/
def secondWriter : PolicyState := emptyState.StageMetadata "targets" [2]

/-- The identifier of the root tree a Commit of `s` writes. -/
def rootTreeHash (env : Env) (s : PolicyState) : Hash :=
  env.hashObject (.tree (sortSlice
    [{ Name := MetadataDir, Mode := .Dir,
       Hash := env.hashObject
         (.tree (newSubtree env ".json" s.metadataIdentifiers s.metadataStaging)) },
     { Name := KeysDir, Mode := .Dir,
       Hash := env.hashObject (.tree (newSubtree env ".pub" s.rootKeys s.keysStaging)) }]))

/-- A state that is not dirty: it is marked written and what is staged does
not differ from what is committed, every staged role and key being recorded
in the maps of tree entries with the blob of its staged bytes.  LoadState
gives such a state (nothing is staged) and so does a successful Commit. -/
def PolicyState.Clean (env : Env) (s : PolicyState) : Prop :=
  s.Written = true ∧
  (∀ p ∈ s.metadataStaging,
    (p.1, stagedEntry ".json" p.1 (env.hashObject (.blob p.2))) ∈ s.metadataIdentifiers) ∧
  (∀ p ∈ s.keysStaging,
    (p.1, stagedEntry ".pub" p.1 (env.hashObject (.blob p.2))) ∈ s.rootKeys)

/-- A committed state with the roles root and targets, nothing staged. -/
def twoRoles : PolicyState :=
  { metadataStaging := [], keysStaging := [], tip := 9, tree := 8,
    rootKeys := [],
    metadataIdentifiers :=
      [("root", { Name := "root.json", Mode := .Regular, Hash := 5 }),
       ("targets", { Name := "targets.json", Mode := .Regular, Hash := 6 })],
    written := true }

/-- A repository whose policy reference points at the tip of `twoRoles`. -/
def twoRolesRepo : Repository := { objects := [], refs := [(PolicyStateRef, 9)] }

/-- The state RemoveMetadata hands to Commit. -/
def removalState (s : PolicyState) (roleNames : List String) : PolicyState :=
  { s with written := false
           metadataStaging := deleteAll s.metadataStaging roleNames
           metadataIdentifiers := deleteAll s.metadataIdentifiers roleNames }

/-- The state in which `targets` is staged with the bytes [1] and nothing is
committed yet. -/
def stagedTargets : PolicyState := emptyState.StageMetadata "targets" [1]

/-! ## Sample policies -/

/-- Only `secret/*` is protected, by keyA; no other rule. -/
def secretOnlyEnv : Env := policyEnv [rule "protect-secret" ["keyA"] ["secret/*"]]

/-- The rule protecting `secret/*` by keyA, followed by a catch-all rule. -/
def secretAndAllowEnv : Env :=
  policyEnv [rule "protect-secret" ["keyA"] ["secret/*"], rule AllowRule [] ["*/*"]]

/-- The rules `docs/*` for keyA and then `*` for keyB, in that order. -/
def docsThenAllEnv : Env :=
  policyEnv [rule "docs" ["keyA"] ["docs/*"], rule "all" ["keyB"] ["*"]]

/-- The rules `docs/*` for keyA and then `*/*` for keyB, in that order. -/
def docsThenAnyEnv : Env :=
  policyEnv [rule "docs" ["keyA"] ["docs/*"], rule "any" ["keyB"] ["*/*"]]

/-- The top-level targets role delegates `docs/*` to the role `team` with
keyT; the role `team` declares `docs/*` for keyA and then `docs/*` for keyB. -/
def nestedEnv : Env :=
  sampleEnv [("targets", roleOf [rule "team" ["keyT"] ["docs/*"]]),
             ("team", roleOf [rule "first" ["keyA"] ["docs/*"], rule "second" ["keyB"] ["docs/*"]])]

/-! ## Predicates and functions used to state the later properties -/

/-- The function validateRule applied to the paths in order, up to the first
result that is not success. -/
def checkPaths (env : Env) (repo : Repository) (state : PolicyState) (fuel : Nat)
    (usedKeyIDs : List String) : List String → Option (Except Error Unit)
  | [] => some (.ok ())
  | path :: rest =>
    match validateRule env repo state fuel path usedKeyIDs with
    | some (.ok ()) => checkPaths env repo state fuel usedKeyIDs rest
    | r => r

/-- The commits of `chain` are a whole linear history: every commit has the
next one as its only parent and the last has no parent. -/
def linearHistory (repo : Repository) : List Hash → Bool
  | [] => false
  | [h] =>
    match repo.CommitObject h with
    | .ok c => c.ParentHashes == []
    | .error _ => false
  | h :: next :: rest =>
    (match repo.CommitObject h with
      | .ok c => c.ParentHashes == [next]
      | .error _ => false) && linearHistory repo (next :: rest)

/-- The commits of `chain` lead to a merge: every commit has the next one as
its only parent and the last has more than one parent. -/
def historyToMerge (repo : Repository) : List Hash → Bool
  | [] => false
  | [h] =>
    match repo.CommitObject h with
    | .ok c => decide (1 < c.ParentHashes.length)
    | .error _ => false
  | h :: next :: rest =>
    (match repo.CommitObject h with
      | .ok c => c.ParentHashes == [next]
      | .error _ => false) && historyToMerge repo (next :: rest)

/-- The snapshot of a commit as LoadAtState returns it: what loadState gives,
with the repository. -/
def loadSnapshot (repo : Repository) (commitID : Hash) : Result (Repository × PolicyState) :=
  withRepository repo (loadState repo commitID)

/-- The key has a verifier and the verifier accepts the signature over the
message. -/
def verifies (host : Host) (msg sig : Bytes) (k : PublicKey) : Bool :=
  match host.GetVerifier k with
  | .ok verifier => verifier msg sig
  | .error _ => false

/-- The names of the rules a targets role declares, in declared order. -/
def delegatedNames (role : Targets) : List String :=
  match role.Delegations with
  | none => []
  | some delegations => delegations.Roles.map (fun d => d.Name)

/-- In the delegation graph `graph`, role `b` is role `a` or is reached from
it by following declared delegations. -/
inductive Delegates (graph : String → Targets) : String → String → Prop
  | self (a : String) : Delegates graph a a
  | step (a c b : String) : c ∈ delegatedNames (graph a) → Delegates graph c b →
      Delegates graph a b

/-- The number of roles the traversal loads below a role, the role included,
when it follows the delegations `depth` levels down. -/
def traversalCost (graph : String → Targets) : Nat → String → Nat
  | 0, _ => 1
  | depth + 1, name =>
    1 + ((delegatedNames (graph name)).map (traversalCost graph depth)).sum

/-- Some role of the queue, or a role reached from one, declares a rule
named `roleName`. -/
def DeclaredFrom (graph : String → Targets) (roleName : String) (queue : List String) : Prop :=
  ∃ a ∈ queue, ∃ n, Delegates graph a n ∧ roleName ∈ delegatedNames (graph n)

/-! ## A concrete host -/

/-- Value of a hexadecimal digit, zero for any other character. -/
def hexDigit (c : Char) : Nat :=
  if '0' ≤ c ∧ c ≤ '9' then c.toNat - 48
  else if 'a' ≤ c ∧ c ≤ 'f' then c.toNat - 87
  else 0

/-- Reads a hash written in hexadecimal. -/
def parseHash (s : String) : Hash :=
  s.toList.foldl (fun acc c => 16 * acc + hexDigit c) 0

/-- Sample decoding of an envelope: the first byte is the number of
signatures, each signature being one byte signed by keyA, and the rest is
the payload. -/
def sampleUnmarshalSigned : Bytes → Except Error Signed
  | [] => .error "unexpected end of JSON input"
  | count :: rest =>
    .ok { Signed := rest.drop count
          Signatures := (rest.take count).map (fun b => { KeyID := "keyA", Signature := [b] }) }

/-- A host over a table of repositories by root directory, with the
protected repository `mainRepo`.  A key verifies a signature that repeats the
value of the key; a key with an empty scheme has no verifier.  The index of
last trusted states is one byte, the state trusted for `git:main`.  The diff
reports every entry of the new tree as modified. -/
def sampleHost (repos : GoMap Repository) (mainRepo : Repository) : Host where
  PlainOpen := fun repoRoot =>
    match GoMap.get? repos repoRoot with
    | some repo => .ok repo
    | none => .error "repository does not exist"
  NewHash := parseHash
  GetRepoRootDir := .ok "/repo"
  GetRepoHandler := .ok mainRepo
  IsValidGitTarget := fun target => target.toList.take 4 == "git:".toList
  ParseGitTarget := fun target => .ok (String.mk (target.toList.drop 4), "branch")
  GetTipCommitIDForRef := fun refName _ => mainRepo.Reference refName
  unmarshalSigned := sampleUnmarshalSigned
  unmarshalReferenceState := fun payload =>
    match payload with
    | [lastEntry, tip] => .ok { LastEntry := lastEntry, Tip := tip }
    | _ => .error "cannot unmarshal into ReferenceState"
  unmarshalLastTrusted := fun contents =>
    match contents with
    | [h] => .ok [("git:main", hashString h)]
    | _ => .error "unexpected end of JSON input"
  EncodeCanonical := fun r => .ok [r.LastEntry, r.Tip]
  GetVerifier := fun k =>
    if k.Scheme = "" then .error "unsupported key scheme"
    else .ok (fun _ sig => sig == k.Value)
  Diff := fun _ newTree => .ok (newTree.map (fun entry => changeOf entry.Name entry.Name))

/-- A commit with the given parents; the other fields play no part. -/
def commitWith (parents : List Hash) : EncodedObject :=
  .commit { Author := { Name := "dev", Email := "dev@example.com", When := 0 }
            Committer := { Name := "dev", Email := "dev@example.com", When := 0 }
            TreeHash := 100, Message := "", ParentHashes := parents }

/-- The policy repository of the examples: the linear history 3, 2, 1 with
the policy reference at 3, all three commits having the tree 100 with empty
subtrees `metadata` and `keys`. -/
def linearRepo : Repository :=
  { objects := [(3, commitWith [2]), (2, commitWith [1]), (1, commitWith []),
                (100, .tree [{ Name := "keys", Mode := .Dir, Hash := 101 },
                             { Name := "metadata", Mode := .Dir, Hash := 101 }]),
                (101, .tree [])],
    refs := [(PolicyStateRef, 3)] }

/-- A policy repository with a merge: the tip 4 has the only parent 3, and 3
has the parents 2 and 1. -/
def mergeRepo : Repository :=
  { objects := [(4, commitWith [3]), (3, commitWith [2, 1]), (2, commitWith [1]),
                (1, commitWith []),
                (100, .tree [{ Name := "keys", Mode := .Dir, Hash := 101 },
                             { Name := "metadata", Mode := .Dir, Hash := 101 }]),
                (101, .tree [])],
    refs := [(PolicyStateRef, 4)] }

/-- The host that finds `linearRepo` at `/repo` and `mergeRepo` at `/merge`,
and no repository anywhere else. -/
def linearHost : Host := sampleHost [("/repo", linearRepo), ("/merge", mergeRepo)] emptyRepo

/-- A repository with reference-state entries: for `main` an envelope with
one signature, the byte 7, over the payload {4, 5}; for `dev` an envelope
with the same payload and no signature. -/
def refStateRepo : Repository :=
  { objects := [(50, .blob [1, 7, 4, 5]), (51, .blob [0, 4, 5])],
    refs := [(ReferenceStateRef ++ "/main", 50), (ReferenceStateRef ++ "/dev", 51)] }

/-- The key whose signatures are the byte 7. -/
def keySeven : PublicKey := { KeyType := "ed25519", Scheme := "ed25519", Value := [7] }

/-- The key whose signatures are the byte 9. -/
def keyNine : PublicKey := { KeyType := "ed25519", Scheme := "ed25519", Value := [9] }

/-- A key of a scheme for which there is no verifier. -/
def keyNoScheme : PublicKey := { KeyType := "unknown", Scheme := "", Value := [7] }

/-- The policy repository of the verification examples: the linear history
3, 2, 1; every commit has the metadata subtree with `targets.json`, whose
envelope carries no signature; the blob 60 is the index of last trusted
states, naming state 2. -/
def policyRepo : Repository :=
  { objects := [(3, commitWith [2]), (2, commitWith [1]), (1, commitWith []),
                (100, .tree [{ Name := "keys", Mode := .Dir, Hash := 101 },
                             { Name := "metadata", Mode := .Dir, Hash := 102 }]),
                (101, .tree []),
                (102, .tree [{ Name := "targets.json", Mode := .Regular, Hash := 103 }]),
                (103, .blob [0, 9]),
                (60, .blob [2])],
    refs := [(PolicyStateRef, 3)] }

/-- The protected repository of the verification examples: the branch `main`
at commit 77, whose tree holds the file README. -/
def protectedRepo : Repository :=
  { objects := [(77, commitWith []),
                (100, .tree [{ Name := "README", Mode := .Regular, Hash := 5 }])],
    refs := [("main", 77)] }

/-- The host of the verification examples. -/
def verifyHost : Host := sampleHost [("/repo", policyRepo)] protectedRepo

/-- The policy of the verification examples: the top-level targets role
records commit 77 for `git:main` and protects README by keyA. -/
def verifyEnv : Env :=
  sampleEnv [("targets",
    { Targets := [("git:main", 77)]
      Delegations := some { Keys := [], Roles := [rule "protect-readme" ["keyA"] ["README"]] } })]

/-- The state loadState gives for a commit of `policyRepo`. -/
def policyStateAt (commitID : Hash) : PolicyState :=
  { metadataStaging := [], keysStaging := [], tip := commitID, tree := 100,
    rootKeys := [],
    metadataIdentifiers := [("targets", { Name := "targets.json", Mode := .Regular, Hash := 103 })],
    written := true }

/-- The handler of the verification examples: the policy repository at its
tip, with the index of last trusted states in blob 60. -/
def verifyStore : GitTUFMetadata :=
  { repository := policyRepo, policyState := policyStateAt 3, lastTrusted := 60 }

/-- A top-level targets role that declares the rule `dev` with threshold 0. -/
def zeroThresholdTargets : Targets :=
  roleOf [{ Name := "dev", KeyIDs := ["keyD"], Threshold := 0, Terminating := false,
            PathHashPrefixes := [], Paths := ["src/*"] }]

/-- A policy whose top-level targets role delegates to the role `dev` with
the threshold zero, which the database refuses. -/
def zeroThresholdEnv : Env := sampleEnv [("targets", zeroThresholdTargets)]

/-- The database InitializeTopLevelDB gives in the sample environments: the
binding of `targets` the root role declares. -/
def sampleTopLevelDB : DB :=
  { roles := [("targets", { KeyIDs := ["rootKey"], Threshold := 1 })], keys := [] }

/-- A policy with the delegation graph targets -> team -> dev, and the roles
team and dev in the snapshot. -/
def chainEnv : Env :=
  sampleEnv [("targets", roleOf [rule "team" ["keyT"] ["src/*"]]),
             ("team", roleOf [rule "dev" ["keyD"] ["src/*"]]),
             ("dev", { Targets := [], Delegations := none })]

/-- The delegation graph of `chainEnv`. -/
def chainGraph (name : String) : Targets :=
  if name = "targets" then roleOf [rule "team" ["keyT"] ["src/*"]]
  else if name = "team" then roleOf [rule "dev" ["keyD"] ["src/*"]]
  else { Targets := [], Delegations := none }

/-- Distance to the leaves in `chainGraph`. -/
def chainRank (name : String) : Nat :=
  if name = "targets" then 2 else if name = "team" then 1 else 0

/-! ## Predicates for the invariant of the role map and the key map -/

/-- Each key of a map of tree entries is the name of its entry without the
extension. -/
def KeysMatchNames (identifiers : GoMap TreeEntry) : Prop :=
  ∀ p ∈ identifiers, getNameWithoutExtension p.2.Name = p.1

/-- The invariant of the role map and of the key map of a state. -/
def PolicyState.KeyInvariant (s : PolicyState) : Prop :=
  KeysMatchNames s.metadataIdentifiers ∧ KeysMatchNames s.rootKeys

/-- The four maps of a state hold one binding per key, as Go maps do. -/
def PolicyState.DistinctKeys (s : PolicyState) : Prop :=
  (GoMap.keys s.metadataIdentifiers).Nodup ∧ (GoMap.keys s.rootKeys).Nodup ∧
  (GoMap.keys s.metadataStaging).Nodup ∧ (GoMap.keys s.keysStaging).Nodup

/-- The states reached from a loaded state by the methods that change a
state.  Each method may run on any repository and may fail: what a failing
StageKey, Commit, RemoveMetadata or RemoveKeys leaves is reached too. -/
inductive Reachable (env : Env) : PolicyState → Prop
  | loaded (repo : Repository) (commitID : Hash) (s : PolicyState) :
      loadState repo commitID = .ok s → Reachable env s
  | opened (repo : Repository) (s : PolicyState) :
      LoadState repo = .ok s → Reachable env s
  | staged (s : PolicyState) (roleName : String) (contents : Bytes) :
      Reachable env s → Reachable env (s.StageMetadata roleName contents)
  | stagedKey (s : PolicyState) (key : PublicKey) :
      Reachable env s → Reachable env (s.StageKey env key).2
  | committed (repo : Repository) (s : PolicyState) :
      Reachable env s → Reachable env (s.Commit env repo).2.2
  | removedMetadata (repo : Repository) (s : PolicyState) (roleNames : List String) :
      Reachable env s → Reachable env (s.RemoveMetadata env repo roleNames).2.2
  | removedKeys (repo : Repository) (s : PolicyState) (keyIDs : List String) :
      Reachable env s → Reachable env (s.RemoveKeys env repo keyIDs).2.2

/-- Reading an identifier gives the object that was stored under it: no two
different objects of the store share an identifier. -/
def StoreConsistent (repo : Repository) : Prop :=
  ∀ p ∈ repo.objects, repo.object? p.1 = some p.2

instance StoreConsistent_decidable (repo : Repository) : Decidable (StoreConsistent repo) :=
  inferInstanceAs (Decidable (∀ p ∈ repo.objects, repo.object? p.1 = some p.2))

/-- The names of the entries of a tree. -/
def entryNames (entries : List TreeEntry) : List String := entries.map (fun e => e.Name)

/-- The state loadState gives for the commit a successful Commit of `s` has
written: nothing staged, the tip and the tree of the commit, and the maps
built from the two subtrees. -/
def reloaded (env : Env) (s s1 : PolicyState) : PolicyState :=
  { metadataStaging := [], keysStaging := [], tip := s1.tip, tree := s1.tree,
    metadataIdentifiers :=
      identifiersOf (newSubtree env ".json" s.metadataIdentifiers s.metadataStaging),
    rootKeys := identifiersOf (newSubtree env ".pub" s.rootKeys s.keysStaging),
    written := true }

/-! ## Samples for the reload after Commit -/

/-- The repository after `targets` has been staged and committed on the
empty repository. -/
def committedRepo : Repository := (stagedTargets.Commit (sampleEnv []) emptyRepo).2.1

/-- The state after `targets` has been staged and committed on the empty
repository. -/
def committedState : PolicyState := (stagedTargets.Commit (sampleEnv []) emptyRepo).2.2

/-- The state loaded at the tip of `committedRepo`, in which the role `root`
and the key seven are then staged. -/
def restaged : PolicyState :=
  (((reloaded (sampleEnv []) stagedTargets committedState).StageMetadata "root" [2]).StageKey
    (sampleEnv []) keySeven).2

/-- The repository after the Commit of `restaged` on `committedRepo`. -/
def recommittedRepo : Repository := (restaged.Commit (sampleEnv []) committedRepo).2.1

/-- The state after the Commit of `restaged` on `committedRepo`. -/
def recommittedState : PolicyState := (restaged.Commit (sampleEnv []) committedRepo).2.2

/-- A state marked written in which `snapshot` is staged and has no entry in
the role map: the maps of tree entries are those of `twoRoles`. -/
def stagedUnrecorded : PolicyState := { twoRoles with metadataStaging := [("snapshot", [1])] }


/-! ## Lemmas on the delegation traversal -/

theorem addMatching_allMatch (env : Env) (target delegator : String) (db : DB)
    (roles : List DelegatedRole) (stack stack1 : List Delegation)
    (h : addMatching env target delegator db roles stack = .ok stack1)
    (hs : ∀ d ∈ stack, env.MatchesPath d.Delegatee target = .ok true) :
    ∀ d ∈ stack1, env.MatchesPath d.Delegatee target = .ok true := by
  induction roles generalizing stack1 with
  | nil =>
    simp only [addMatching, Except.ok.injEq] at h
    subst h
    exact hs
  | cons r roles ih =>
    simp only [addMatching] at h
    cases hrec : addMatching env target delegator db roles stack with
    | error e => rw [hrec] at h; simp at h
    | ok stack2 =>
      rw [hrec] at h
      have ih2 := ih stack2 hrec
      cases hm : env.MatchesPath r target with
      | error e => rw [hm] at h; simp at h
      | ok b =>
        rw [hm] at h
        cases b with
        | false =>
          simp only [Except.ok.injEq] at h
          subst h
          exact ih2
        | true =>
          simp only [Except.ok.injEq] at h
          subst h
          intro d hd
          rcases List.mem_cons.mp hd with rfl | hd
          · exact hm
          · exact ih2 d hd

theorem nextOnStack_mem (visited : List String) (stack rest : List Delegation) (d : Delegation)
    (h : nextOnStack visited stack = (some d, rest)) : d ∈ stack := by
  induction stack with
  | nil => simp [nextOnStack] at h
  | cons x xs ih =>
    simp only [nextOnStack] at h
    split at h
    · exact List.mem_cons_of_mem _ (ih h)
    · split at h
      · simp only [Prod.mk.injEq, Option.some.injEq] at h
        rw [← h.1]; exact List.mem_cons_self _ _
      · simp only [Prod.mk.injEq, Option.some.injEq] at h
        rw [← h.1]; exact List.mem_cons_self _ _

/-- When every queued rule matches the target, one iteration of the loop
returns: the next unvisited rule, or the not-found error. -/
theorem getDelegationLoop_allMatch (env : Env) (repo : Repository) (state : PolicyState)
    (target : String) (fuel : Nat) (iterator : delegationsIterator)
    (hs : ∀ d ∈ iterator.stack, env.MatchesPath d.Delegatee target = .ok true) :
    getDelegationLoop env repo state target (fuel + 1) iterator =
      match (nextOnStack iterator.visitedRoles iterator.stack).1 with
      | none => some (.error ("delegation not found for target " ++ target))
      | some d => some (.ok d.Delegatee) := by
  unfold getDelegationLoop delegationsIterator.Next
  cases hn : nextOnStack iterator.visitedRoles iterator.stack with
  | mk od rest =>
    cases od with
    | none => rfl
    | some d =>
      have hm := hs d (nextOnStack_mem _ _ _ _ hn)
      simp only [hm]

/-- Two iterations are enough: with more fuel the loop gives the same result,
and that result is a return. -/
theorem getDelegationForTarget_fuel (env : Env) (repo : Repository) (state : PolicyState)
    (target : String) (fuel : Nat) :
    getDelegationForTarget env repo state (fuel + 2) target =
      getDelegationForTarget env repo state 2 target ∧
    ∃ r, getDelegationForTarget env repo state 2 target = some r := by
  unfold getDelegationForTarget
  cases InitializeTopLevelDB env repo state with
  | error e => exact ⟨rfl, _, rfl⟩
  | ok db =>
    simp only [NewDelegationsIterator]
    cases db.GetRole "targets" with
    | none => exact ⟨rfl, _, rfl⟩
    | some targetsRole =>
      simp only []
      unfold getDelegationLoop
      simp only [delegationsIterator.Next, nextOnStack, topLevelTargets, List.not_mem_nil,
        if_false, Bool.false_eq_true]
      cases env.MatchesPath _ target with
      | error e => exact ⟨rfl, _, rfl⟩
      | ok b =>
        cases b with
        | true => exact ⟨rfl, _, rfl⟩
        | false =>
          simp only []
          cases env.loadTargets repo state "targets" db with
          | error e => exact ⟨rfl, _, rfl⟩
          | ok delegatedRole =>
            simp only []
            cases delegatedRole.Delegations with
            | none =>
              simp only []
              rw [getDelegationLoop_allMatch _ _ _ _ _ _ (by simp),
                getDelegationLoop_allMatch _ _ _ _ _ _ (by simp)]
              exact ⟨rfl, _, rfl⟩
            | some delegations =>
              simp only []
              cases env.NewDBFromDelegations delegations with
              | error e => exact ⟨rfl, _, rfl⟩
              | ok newDB =>
                simp only [delegationsIterator.Add]
                cases ha : addMatching env target "targets" newDB delegations.Roles [] with
                | error e => exact ⟨rfl, _, rfl⟩
                | ok stack =>
                  simp only []
                  have hall := addMatching_allMatch _ _ _ _ _ _ _ ha (by simp)
                  rw [getDelegationLoop_allMatch _ _ _ _ _ _ hall,
                    getDelegationLoop_allMatch _ _ _ _ _ _ hall]
                  refine ⟨rfl, ?_⟩
                  split <;> exact ⟨_, rfl⟩

/-! ## Lemmas on maps and key sets -/

theorem GoMap.get?_set {V : Type} (m : GoMap V) (k k1 : String) (v : V) :
    GoMap.get? (GoMap.set m k v) k1 = if k = k1 then some v else GoMap.get? m k1 := by
  induction m with
  | nil => simp [GoMap.set, GoMap.get?]
  | cons p rest ih =>
    obtain ⟨k2, v2⟩ := p
    by_cases h : k2 = k
    · by_cases h1 : k = k1
      · simp [GoMap.set, GoMap.get?, h, h1]
      · have h2 : ¬ k2 = k1 := fun e => h1 (h ▸ e)
        simp [GoMap.set, GoMap.get?, h, h1]
    · by_cases h1 : k = k1
      · subst h1
        simp [GoMap.set, GoMap.get?, h, ih]
      · simp [GoMap.set, GoMap.get?, h, h1, ih]

theorem GoMap.has_set {V : Type} (m : GoMap V) (k k1 : String) (v : V) :
    GoMap.has (GoMap.set m k v) k1 = true ↔ k = k1 ∨ GoMap.has m k1 = true := by
  unfold GoMap.has
  rw [GoMap.get?_set]
  by_cases h : k = k1 <;> simp [h]

theorem has_keySet (authorizedKeyIDs : List String) (init : GoMap Bool) (k : String) :
    GoMap.has (authorizedKeyIDs.foldl (fun set k => GoMap.set set k true) init) k = true ↔
      GoMap.has init k = true ∨ k ∈ authorizedKeyIDs := by
  induction authorizedKeyIDs generalizing init with
  | nil => simp
  | cons a rest ih =>
    rw [List.foldl_cons, ih, GoMap.has_set, List.mem_cons]
    constructor
    · rintro ((h | h) | h)
      · exact Or.inr (Or.inl h.symm)
      · exact Or.inl h
      · exact Or.inr (Or.inr h)
    · rintro (h | h | h)
      · exact Or.inl (Or.inr h)
      · exact Or.inl (Or.inl h.symm)
      · exact Or.inr h

theorem allInSet_iff (set : GoMap Bool) (usedKeyIDs : List String) :
    allInSet set usedKeyIDs = true ↔ ∀ k ∈ usedKeyIDs, GoMap.has set k = true := by
  induction usedKeyIDs with
  | nil => simp [allInSet]
  | cons k rest ih =>
    by_cases h : GoMap.has set k = true
    · simp [allInSet, h, ih]
    · simp [allInSet, h]

/-- The key check is the subset test. -/
theorem validateUsedKeyIDs_iff (authorizedKeyIDs usedKeyIDs : List String) :
    validateUsedKeyIDs authorizedKeyIDs usedKeyIDs = true ↔
      ∀ k ∈ usedKeyIDs, k ∈ authorizedKeyIDs := by
  unfold validateUsedKeyIDs
  simp only [allInSet_iff, has_keySet]
  simp [GoMap.has, GoMap.get?]

/-- What validateRule returns once the rule is known. -/
theorem validateRule_of_rule (env : Env) (repo : Repository) (state : PolicyState) (fuel : Nat)
    (path : String) (usedKeyIDs : List String) (ruleInA : DelegatedRole)
    (h : getDelegationForTarget env repo state fuel path = some (.ok ruleInA)) :
    validateRule env repo state fuel path usedKeyIDs =
      if ruleInA.Name = AllowRule then some (.ok ())
      else if validateUsedKeyIDs ruleInA.KeyIDs usedKeyIDs then some (.ok ())
      else some (.error ("unauthorized change to file " ++ path)) := by
  unfold validateRule
  rw [h]
  by_cases h1 : ruleInA.Name = AllowRule
  · simp [h1]
  · cases h2 : validateUsedKeyIDs ruleInA.KeyIDs usedKeyIDs <;> simp [h1, h2]

theorem validateChanges_cons (env : Env) (repo : Repository) (state : PolicyState) (fuel : Nat)
    (usedKeyIDs : List String) (c : Change) (changes : List Change) :
    validateChanges env repo state fuel (c :: changes) usedKeyIDs = some (.ok ()) ↔
      ((0 < c.From.Name.utf8ByteSize →
          validateRule env repo state fuel c.From.Name usedKeyIDs = some (.ok ())) ∧
        (c.From.Name ≠ c.To.Name ∧ 0 < c.To.Name.utf8ByteSize →
          validateRule env repo state fuel c.To.Name usedKeyIDs = some (.ok ()))) ∧
      validateChanges env repo state fuel changes usedKeyIDs = some (.ok ()) := by
  rw [validateChanges]
  dsimp only
  by_cases hf : 0 < c.From.Name.utf8ByteSize
  · rw [if_pos hf]
    rcases hvf : validateRule env repo state fuel c.From.Name usedKeyIDs with _ | r
    · simp [hf]
    · cases r with
      | error e => simp [hf]
      | ok u =>
        by_cases ht : c.From.Name ≠ c.To.Name ∧ 0 < c.To.Name.utf8ByteSize
        · rw [if_pos ht]
          rcases hvt : validateRule env repo state fuel c.To.Name usedKeyIDs with _ | r
          · simp [ht.1, ht.2]
          · cases r with
            | error e => simp [ht.1, ht.2]
            | ok u => simp
        · rw [if_neg ht]
          simp only [true_and, iff_and_self]
          intro _
          exact ⟨fun _ => trivial, fun h => absurd h ht⟩
  · rw [if_neg hf]
    by_cases ht : c.From.Name ≠ c.To.Name ∧ 0 < c.To.Name.utf8ByteSize
    · rw [if_pos ht]
      rcases hvt : validateRule env repo state fuel c.To.Name usedKeyIDs with _ | r
      · simp [ht.1, ht.2]
      · cases r with
        | error e => simp [ht.1, ht.2]
        | ok u => simp [hf]
    · rw [if_neg ht]
      simp only [iff_and_self]
      intro _
      exact ⟨fun h => absurd h hf, fun h => absurd h ht⟩

/-- The changes are accepted exactly when every checked path is. -/
theorem validateChanges_iff (env : Env) (repo : Repository) (state : PolicyState) (fuel : Nat)
    (usedKeyIDs : List String) (changes : List Change) :
    validateChanges env repo state fuel changes usedKeyIDs = some (.ok ()) ↔
      ∀ c ∈ changes,
        (0 < c.From.Name.utf8ByteSize →
          validateRule env repo state fuel c.From.Name usedKeyIDs = some (.ok ())) ∧
        (c.From.Name ≠ c.To.Name ∧ 0 < c.To.Name.utf8ByteSize →
          validateRule env repo state fuel c.To.Name usedKeyIDs = some (.ok ())) := by
  induction changes with
  | nil => simp [validateChanges]
  | cons c changes ih => rw [List.forall_mem_cons, ← ih, validateChanges_cons]

/-! ## Fuel -/

theorem validateRule_fuel (env : Env) (repo : Repository) (state : PolicyState) (fuel : Nat)
    (path : String) (usedKeyIDs : List String) :
    validateRule env repo state (fuel + 2) path usedKeyIDs =
      validateRule env repo state 2 path usedKeyIDs := by
  unfold validateRule
  rw [(getDelegationForTarget_fuel env repo state path fuel).1]

theorem validateChanges_fuel (env : Env) (repo : Repository) (state : PolicyState) (fuel : Nat)
    (changes : List Change) (usedKeyIDs : List String) :
    validateChanges env repo state (fuel + 2) changes usedKeyIDs =
      validateChanges env repo state 2 changes usedKeyIDs := by
  induction changes with
  | nil => simp [validateChanges]
  | cons c changes ih =>
    rw [validateChanges, validateChanges]
    simp only [validateRule_fuel, ih]

theorem validateRule_returns (env : Env) (repo : Repository) (state : PolicyState) (fuel : Nat)
    (path : String) (usedKeyIDs : List String) :
    ∃ r, validateRule env repo state (fuel + 2) path usedKeyIDs = some r := by
  obtain ⟨hfuel, r, hr⟩ := getDelegationForTarget_fuel env repo state path fuel
  unfold validateRule
  rw [hfuel, hr]
  cases r with
  | error e => exact ⟨_, rfl⟩
  | ok ruleInA =>
    dsimp only
    split
    · exact ⟨_, rfl⟩
    · split <;> exact ⟨_, rfl⟩

/-- With fuel for two iterations validateChanges returns. -/
theorem validateChanges_returns (env : Env) (repo : Repository) (state : PolicyState)
    (fuel : Nat) (changes : List Change) (usedKeyIDs : List String) :
    ∃ r, validateChanges env repo state (fuel + 2) changes usedKeyIDs = some r := by
  induction changes with
  | nil => exact ⟨_, rfl⟩
  | cons c changes ih =>
    rw [validateChanges]
    dsimp only
    obtain ⟨rf, hrf⟩ := validateRule_returns env repo state fuel c.From.Name usedKeyIDs
    obtain ⟨rt, hrt⟩ := validateRule_returns env repo state fuel c.To.Name usedKeyIDs
    rw [hrf, hrt]
    have hto : ∃ r,
        (match (if c.From.Name ≠ c.To.Name ∧ 0 < c.To.Name.utf8ByteSize then some rt
            else some (Except.ok ())) with
          | none => none
          | some (Except.error e) => some (Except.error e)
          | some (Except.ok ()) =>
            validateChanges env repo state (fuel + 2) changes usedKeyIDs) = some r := by
      by_cases ht : c.From.Name ≠ c.To.Name ∧ 0 < c.To.Name.utf8ByteSize
      · rw [if_pos ht]
        cases rt with
        | error e => exact ⟨_, rfl⟩
        | ok u => exact ih
      · rw [if_neg ht]
        exact ih
    by_cases hf : 0 < c.From.Name.utf8ByteSize
    · rw [if_pos hf]
      cases rf with
      | error e => exact ⟨_, rfl⟩
      | ok u => exact hto
    · rw [if_neg hf]
      exact hto

/-! ## C1: every path of every change is checked -/

/-- C1: validateChanges succeeds exactly when validateRule succeeds for the
from-name of every change whose from-name is not empty and for the to-name of
every change whose to-name is not empty and differs from the from-name; with
fuel for two iterations of the rule lookup it returns, and more fuel does not
change what it returns.  So a rename is accepted only when the old and the
new path are both authorized.
Example: renaming secret/a to public/a, with only secret/* protected by keyA,
is rejected for every signer list without keyA (an empty list passes the key
check of the old path, and then the new path finds no rule); and when a
catch-all rule covers public/a the rename is rejected, for the old path, for
every non-empty signer list without keyA. -/
theorem validateChanges_checks_every_path :
    (∀ (env : Env) (repo : Repository) (state : PolicyState) (fuel : Nat)
        (usedKeyIDs : List String) (changes : List Change),
      validateChanges env repo state fuel changes usedKeyIDs = some (.ok ()) ↔
        ∀ c ∈ changes,
          (0 < c.From.Name.utf8ByteSize →
            validateRule env repo state fuel c.From.Name usedKeyIDs = some (.ok ())) ∧
          (c.From.Name ≠ c.To.Name ∧ 0 < c.To.Name.utf8ByteSize →
            validateRule env repo state fuel c.To.Name usedKeyIDs = some (.ok ()))) ∧
    (∀ (env : Env) (repo : Repository) (state : PolicyState) (fuel : Nat)
        (usedKeyIDs : List String) (changes : List Change),
      (∃ r, validateChanges env repo state 2 changes usedKeyIDs = some r) ∧
      validateChanges env repo state (fuel + 2) changes usedKeyIDs =
        validateChanges env repo state 2 changes usedKeyIDs) ∧
    (∀ (env : Env) (repo : Repository) (state : PolicyState) (fuel : Nat)
        (usedKeyIDs : List String) (changes : List Change) (c : Change),
      c ∈ changes → 0 < c.From.Name.utf8ByteSize → 0 < c.To.Name.utf8ByteSize →
      c.From.Name ≠ c.To.Name →
      validateChanges env repo state fuel changes usedKeyIDs = some (.ok ()) →
        validateRule env repo state fuel c.From.Name usedKeyIDs = some (.ok ()) ∧
        validateRule env repo state fuel c.To.Name usedKeyIDs = some (.ok ())) ∧
    (∀ (fuel : Nat) (usedKeyIDs : List String), "keyA" ∉ usedKeyIDs →
      validateChanges secretOnlyEnv emptyRepo emptyState (fuel + 2)
        [changeOf "secret/a" "public/a"] usedKeyIDs ≠ some (.ok ())) ∧
    (∀ (fuel : Nat) (usedKeyIDs : List String), "keyA" ∉ usedKeyIDs → usedKeyIDs ≠ [] →
      validateChanges secretAndAllowEnv emptyRepo emptyState (fuel + 2)
        [changeOf "secret/a" "public/a"] usedKeyIDs =
          some (.error "unauthorized change to file secret/a")) := by
  refine ⟨validateChanges_iff, ?_, ?_, ?_, ?_⟩
  · intro env repo state fuel usedKeyIDs changes
    exact ⟨validateChanges_returns env repo state 0 changes usedKeyIDs,
      validateChanges_fuel env repo state fuel changes usedKeyIDs⟩
  · intro env repo state fuel usedKeyIDs changes c hc hf ht hne h
    have hall := (validateChanges_iff env repo state fuel usedKeyIDs changes).mp h c hc
    exact ⟨hall.1 hf, hall.2 ⟨hne, ht⟩⟩
  · intro fuel usedKeyIDs _ h
    rw [validateChanges_fuel] at h
    have hall := (validateChanges_iff _ _ _ _ _ _).mp h (changeOf "secret/a" "public/a")
      (List.mem_singleton.mpr rfl)
    have hto := hall.2 (by decide)
    have hnot : getDelegationForTarget secretOnlyEnv emptyRepo emptyState 2 "public/a" =
        some (.error "delegation not found for target public/a") := by decide
    simp only [changeOf, validateRule, hnot] at hto
    exact absurd hto (by decide)
  · intro fuel usedKeyIDs hA hne
    rw [validateChanges_fuel, validateChanges]
    have hrule : getDelegationForTarget secretAndAllowEnv emptyRepo emptyState 2 "secret/a" =
        some (.ok (rule "protect-secret" ["keyA"] ["secret/*"])) := by decide
    have hkeys : validateUsedKeyIDs ["keyA"] usedKeyIDs = false := by
      rw [Bool.eq_false_iff]
      intro hv
      rw [validateUsedKeyIDs_iff] at hv
      obtain ⟨k, rest, rfl⟩ := List.exists_cons_of_ne_nil hne
      have hk := hv k (List.mem_cons_self _ _)
      rw [List.mem_singleton] at hk
      exact hA (hk ▸ List.mem_cons_self _ _)
    have hfrom : validateRule secretAndAllowEnv emptyRepo emptyState 2 "secret/a" usedKeyIDs =
        some (.error "unauthorized change to file secret/a") := by
      rw [validateRule_of_rule _ _ _ _ _ _ _ hrule]
      have hn : ¬ (rule "protect-secret" ["keyA"] ["secret/*"]).Name = AllowRule := by decide
      rw [if_neg hn]
      simp only [rule, hkeys]
      rfl
    have hsize : 0 < (changeOf "secret/a" "public/a").From.Name.utf8ByteSize := by decide
    dsimp only
    rw [if_pos hsize]
    simp only [changeOf, hfrom]

/-! ## C2: authorization is set membership -/

/-- C2: for a path whose matching rule resolves to a rule that is not the
catch-all, validateRule succeeds exactly when every signer key id is one of
the rule's key ids, validateUsedKeyIDs being the subset test; and a rule that
differs only in its threshold gives the same result for every signer list. -/
theorem validateRule_is_set_membership (env : Env) (repo : Repository) (state : PolicyState)
    (fuel : Nat) (path : String) (ruleInA : DelegatedRole) (usedKeyIDs : List String)
    (hrule : getDelegationForTarget env repo state fuel path = some (.ok ruleInA))
    (hname : ruleInA.Name ≠ AllowRule) :
    (validateRule env repo state fuel path usedKeyIDs = some (.ok ()) ↔
      ∀ k ∈ usedKeyIDs, k ∈ ruleInA.KeyIDs) ∧
    (∀ authorized used : List String,
      validateUsedKeyIDs authorized used = true ↔ ∀ k ∈ used, k ∈ authorized) ∧
    (∀ (env2 : Env) (repo2 : Repository) (state2 : PolicyState) (fuel2 : Nat) (threshold : Int),
      getDelegationForTarget env2 repo2 state2 fuel2 path =
          some (.ok { ruleInA with Threshold := threshold }) →
        validateRule env2 repo2 state2 fuel2 path usedKeyIDs =
          validateRule env repo state fuel path usedKeyIDs) := by
  refine ⟨?_, validateUsedKeyIDs_iff, ?_⟩
  · rw [validateRule_of_rule _ _ _ _ _ _ _ hrule, if_neg hname, ← validateUsedKeyIDs_iff]
    cases validateUsedKeyIDs ruleInA.KeyIDs usedKeyIDs <;> simp
  · intro env2 repo2 state2 fuel2 threshold h2
    rw [validateRule_of_rule _ _ _ _ _ _ _ hrule, validateRule_of_rule _ _ _ _ _ _ _ h2]

/-- Witness of C2: under the rules docs/* for keyA then * for keyB, the path
docs/x resolves to the first rule, and the signer list [keyA] is accepted. -/
theorem validateRule_is_set_membership_witness :
    getDelegationForTarget docsThenAllEnv emptyRepo emptyState 2 "docs/x" =
        some (.ok (rule "docs" ["keyA"] ["docs/*"])) ∧
      (rule "docs" ["keyA"] ["docs/*"]).Name ≠ AllowRule ∧
      (validateRule docsThenAllEnv emptyRepo emptyState 2 "docs/x" ["keyA"] = some (.ok ()) ↔
        ∀ k ∈ ["keyA"], k ∈ (rule "docs" ["keyA"] ["docs/*"]).KeyIDs) :=
  ⟨by decide, by decide,
    (validateRule_is_set_membership docsThenAllEnv emptyRepo emptyState 2 "docs/x"
      (rule "docs" ["keyA"] ["docs/*"]) ["keyA"] (by decide) (by decide)).1⟩

/-! ## C3: the catch-all rule -/

/-- C3: when the matching rule of a path has the reserved name `allow-*`,
validateRule succeeds for every signer list, keys that no rule names
included; and changes all of whose checked paths resolve to such a rule are
accepted by validateChanges for every signer list. -/
theorem catch_all_accepts_every_signer (env : Env) (repo : Repository) (state : PolicyState)
    (fuel : Nat) :
    (∀ (path : String) (ruleInA : DelegatedRole),
      getDelegationForTarget env repo state fuel path = some (.ok ruleInA) →
      ruleInA.Name = AllowRule →
      ∀ usedKeyIDs : List String,
        validateRule env repo state fuel path usedKeyIDs = some (.ok ())) ∧
    (∀ changes : List Change,
      (∀ c ∈ changes, ∀ path ∈ checkedPaths c, ∃ ruleInA,
        getDelegationForTarget env repo state fuel path = some (.ok ruleInA) ∧
        ruleInA.Name = AllowRule) →
      ∀ usedKeyIDs : List String,
        validateChanges env repo state fuel changes usedKeyIDs = some (.ok ())) := by
  have hrule : ∀ (path : String) (ruleInA : DelegatedRole),
      getDelegationForTarget env repo state fuel path = some (.ok ruleInA) →
      ruleInA.Name = AllowRule →
      ∀ usedKeyIDs : List String,
        validateRule env repo state fuel path usedKeyIDs = some (.ok ()) := by
    intro path ruleInA hr hn usedKeyIDs
    rw [validateRule_of_rule _ _ _ _ _ _ _ hr, if_pos hn]
  refine ⟨hrule, ?_⟩
  intro changes hall usedKeyIDs
  rw [validateChanges_iff]
  intro c hc
  constructor
  · intro hf
    obtain ⟨ruleInA, hr, hn⟩ := hall c hc c.From.Name (by simp [checkedPaths, hf])
    exact hrule _ _ hr hn usedKeyIDs
  · intro ht
    obtain ⟨ruleInA, hr, hn⟩ := hall c hc c.To.Name
      (by simp only [checkedPaths, if_pos ht]; simp)
    exact hrule _ _ hr hn usedKeyIDs

/-- Witness of C3: with secret/* protected by keyA and a catch-all rule for
the other paths, adding public/a and renaming public/b to public/c are
accepted whoever signs, here a key that no rule names. -/
theorem catch_all_accepts_every_signer_witness :
    (∀ c ∈ [changeOf "" "public/a", changeOf "public/b" "public/c"],
      ∀ path ∈ checkedPaths c, ∃ ruleInA,
        getDelegationForTarget secretAndAllowEnv emptyRepo emptyState 2 path =
          some (.ok ruleInA) ∧ ruleInA.Name = AllowRule) ∧
      validateChanges secretAndAllowEnv emptyRepo emptyState 2
        [changeOf "" "public/a", changeOf "public/b" "public/c"] ["strangerKey"] =
          some (.ok ()) :=
  have h : ∀ c ∈ [changeOf "" "public/a", changeOf "public/b" "public/c"],
      ∀ path ∈ checkedPaths c, ∃ ruleInA,
        getDelegationForTarget secretAndAllowEnv emptyRepo emptyState 2 path =
          some (.ok ruleInA) ∧ ruleInA.Name = AllowRule := by
    intro c hc path hp
    refine ⟨rule AllowRule [] ["*/*"], ?_, rfl⟩
    simp only [List.mem_cons, List.mem_singleton, List.not_mem_nil, or_false] at hc
    rcases hc with rfl | rfl
    · have hp1 : path = "public/a" := by
        have : checkedPaths (changeOf "" "public/a") = ["public/a"] := by decide
        rw [this] at hp
        exact List.mem_singleton.mp hp
      subst hp1
      decide
    · have hp1 : path = "public/b" ∨ path = "public/c" := by
        have : checkedPaths (changeOf "public/b" "public/c") = ["public/b", "public/c"] := by
          decide
        rw [this] at hp
        simpa using hp
      rcases hp1 with rfl | rfl <;> decide
  ⟨h, (catch_all_accepts_every_signer secretAndAllowEnv emptyRepo emptyState 2).2 _ h
    ["strangerKey"]⟩

/-! ## C4: delegation order -/

theorem addMatching_total (env : Env) (target delegator : String) (db : DB)
    (roles : List DelegatedRole) (stack : List Delegation)
    (h : ∀ r ∈ roles, ∃ b, env.MatchesPath r target = .ok b) :
    ∃ stack1, addMatching env target delegator db roles stack = .ok stack1 := by
  induction roles with
  | nil => exact ⟨stack, rfl⟩
  | cons r roles ih =>
    obtain ⟨stack1, h1⟩ := ih (fun r hr => h r (List.mem_cons_of_mem _ hr))
    obtain ⟨b, hb⟩ := h r (List.mem_cons_self _ _)
    simp only [addMatching, h1, hb]
    cases b
    · exact ⟨_, rfl⟩
    · exact ⟨_, rfl⟩

theorem addMatching_skip (env : Env) (target delegator : String) (db : DB)
    (pre rest : List DelegatedRole) (stack : List Delegation)
    (h : ∀ r ∈ pre, env.MatchesPath r target = .ok false) :
    addMatching env target delegator db (pre ++ rest) stack =
      addMatching env target delegator db rest stack := by
  induction pre with
  | nil => rfl
  | cons r pre ih =>
    have hr := h r (List.mem_cons_self _ _)
    have ih1 := ih (fun r hr => h r (List.mem_cons_of_mem _ hr))
    rw [List.cons_append, addMatching, ih1]
    cases addMatching env target delegator db rest stack with
    | error e => rfl
    | ok stack1 => simp only [hr]

/-- The rule returned when the top-level targets role declares
`pre ++ r1 :: post`, no rule of `pre` matches and `r1` does. -/
theorem getDelegationForTarget_first_match (env : Env) (repo : Repository)
    (state : PolicyState) (path : String) (pre post : List DelegatedRole) (r1 : DelegatedRole)
    (fuel : Nat)
    (hdecl : DeclaresRules env repo state path (pre ++ r1 :: post))
    (hpre : ∀ r ∈ pre, env.MatchesPath r path = .ok false)
    (h1 : env.MatchesPath r1 path = .ok true)
    (hpost : ∀ r ∈ post, ∃ b, env.MatchesPath r path = .ok b)
    (hname : r1.Name ≠ "targets") :
    getDelegationForTarget env repo state (fuel + 2) path = some (.ok r1) := by
  obtain ⟨db, targetsRole, delegatedRole, delegations, newDB, hdb, hrole, hm, hload, hdel,
    hnew, hroles⟩ := hdecl
  obtain ⟨stack1, hs1⟩ := addMatching_total env path "targets" newDB post [] hpost
  have hadd : addMatching env path "targets" newDB delegations.Roles [] =
      .ok ({ Delegator := "targets", Delegatee := r1, DB := newDB } :: stack1) := by
    rw [hroles, addMatching_skip _ _ _ _ _ _ _ hpre]
    simp only [addMatching, hs1, h1]
  have hall := addMatching_allMatch _ _ _ _ _ _ _ hadd (by simp)
  unfold getDelegationForTarget
  rw [hdb]
  simp only [NewDelegationsIterator, hrole]
  unfold getDelegationLoop
  simp only [delegationsIterator.Next, nextOnStack, List.not_mem_nil, if_false]
  have hterm : (topLevelTargets db targetsRole).Delegatee.Terminating = false := rfl
  have hn : (topLevelTargets db targetsRole).Delegatee.Name = "targets" := rfl
  simp only [hterm, hm, hn, hload, hdel, hnew, delegationsIterator.Add, hadd,
    Bool.false_eq_true, if_false]
  have hdbeq : (topLevelTargets db targetsRole).DB = db := rfl
  simp only [hdbeq, hload, hdel, hnew, hadd]
  rw [getDelegationLoop_allMatch _ _ _ _ _ _ hall]
  have hnot : ¬ r1.Name ∈ ["targets"] := by simpa using hname
  by_cases ht : r1.Terminating = true
  · simp only [nextOnStack, if_neg hnot, ht, if_true]
  · simp only [nextOnStack, if_neg hnot, ht, if_false, Bool.false_eq_true]

/-- C4, as the code has it: when the top-level targets role declares two rules
that both match a path, the first declared one is the rule
getDelegationForTarget returns, whatever the fuel from two on, and the rule
validateRule decides by; the second is not returned.  With the rules docs/*
for keyA then * for keyB, a change to docs/x signed by keyB alone is
rejected. -/
theorem first_declared_top_level_rule_wins (env : Env) (repo : Repository)
    (state : PolicyState) (path : String) (pre mid post : List DelegatedRole)
    (r1 r2 : DelegatedRole) (fuel : Nat)
    (hdecl : DeclaresRules env repo state path (pre ++ r1 :: (mid ++ r2 :: post)))
    (hpre : ∀ r ∈ pre, env.MatchesPath r path = .ok false)
    (h1 : env.MatchesPath r1 path = .ok true)
    (h2 : env.MatchesPath r2 path = .ok true)
    (hrest : ∀ r ∈ mid ++ post, ∃ b, env.MatchesPath r path = .ok b)
    (hname : r1.Name ≠ "targets") :
    getDelegationForTarget env repo state (fuel + 2) path = some (.ok r1) ∧
    (r2 ≠ r1 → getDelegationForTarget env repo state (fuel + 2) path ≠ some (.ok r2)) ∧
    (∀ usedKeyIDs : List String,
      validateRule env repo state (fuel + 2) path usedKeyIDs =
        if r1.Name = AllowRule then some (.ok ())
        else if validateUsedKeyIDs r1.KeyIDs usedKeyIDs then some (.ok ())
        else some (.error ("unauthorized change to file " ++ path))) ∧
    validateRule docsThenAllEnv emptyRepo emptyState (fuel + 2) "docs/x" ["keyB"] =
      some (.error "unauthorized change to file docs/x") := by
  have hpost : ∀ r ∈ mid ++ r2 :: post, ∃ b, env.MatchesPath r path = .ok b := by
    intro r hr
    rcases List.mem_append.mp hr with hr | hr
    · exact hrest r (List.mem_append_left _ hr)
    · rcases List.mem_cons.mp hr with rfl | hr
      · exact ⟨true, h2⟩
      · exact hrest r (List.mem_append_right _ hr)
  have hget := getDelegationForTarget_first_match env repo state path pre _ r1 fuel hdecl hpre
    h1 hpost hname
  refine ⟨hget, ?_, ?_, ?_⟩
  · intro hne h
    rw [hget] at h
    simp only [Option.some.injEq, Except.ok.injEq] at h
    exact hne h.symm
  · intro usedKeyIDs
    exact validateRule_of_rule _ _ _ _ _ _ _ hget
  · rw [validateRule_fuel]
    decide

/-- Witness of C4: the rules docs/* for keyA then */* for keyB both match
docs/x, and the first is returned. -/
theorem first_declared_top_level_rule_wins_witness :
    getDelegationForTarget docsThenAnyEnv emptyRepo emptyState 2 "docs/x" =
      some (.ok (rule "docs" ["keyA"] ["docs/*"])) :=
  (first_declared_top_level_rule_wins docsThenAnyEnv emptyRepo emptyState "docs/x" [] [] []
    (rule "docs" ["keyA"] ["docs/*"]) (rule "any" ["keyB"] ["*/*"]) 0
    ⟨_, _, _, _, _, rfl, rfl, rfl, rfl, rfl, rfl, rfl⟩
    (by simp) (by decide) (by decide) (by simp) (by decide)).1

/-- C4 as stated fails for rules declared in a delegated role: the role
`team`, reached through the top-level rule docs/*, declares docs/* for keyA
and then docs/* for keyB; both match docs/x, yet the rule returned for docs/x
is the top-level rule of `team`, so a signature by keyA alone is rejected and
one by keyT is accepted. -/
theorem rules_of_delegated_role_not_returned :
    nestedEnv.loadTargets emptyRepo emptyState "team" NewDB =
        .ok (roleOf [rule "first" ["keyA"] ["docs/*"], rule "second" ["keyB"] ["docs/*"]]) ∧
      nestedEnv.MatchesPath (rule "first" ["keyA"] ["docs/*"]) "docs/x" = .ok true ∧
      nestedEnv.MatchesPath (rule "second" ["keyB"] ["docs/*"]) "docs/x" = .ok true ∧
      getDelegationForTarget nestedEnv emptyRepo emptyState 2 "docs/x" =
        some (.ok (rule "team" ["keyT"] ["docs/*"])) ∧
      getDelegationForTarget nestedEnv emptyRepo emptyState 2 "docs/x" ≠
        some (.ok (rule "first" ["keyA"] ["docs/*"])) ∧
      validateRule nestedEnv emptyRepo emptyState 2 "docs/x" ["keyA"] =
        some (.error "unauthorized change to file docs/x") ∧
      validateRule nestedEnv emptyRepo emptyState 2 "docs/x" ["keyT"] = some (.ok ()) := by
  decide

/-! ## Lemmas on the store and on Commit -/

theorem SetEncodedObject_ok (env : Env) (repo repo1 : Repository) (obj : EncodedObject)
    (h : Hash) (hw : SetEncodedObject env repo obj = .ok (h, repo1)) :
    h = env.hashObject obj ∧ repo1.objects = (env.hashObject obj, obj) :: repo.objects ∧
      repo1.refs = repo.refs := by
  unfold SetEncodedObject at hw
  cases hf : env.writeFault repo obj with
  | some e => rw [hf] at hw; simp at hw
  | none =>
    rw [hf] at hw
    simp only [Except.ok.injEq, Prod.mk.injEq] at hw
    obtain ⟨h1, h2⟩ := hw
    subst h1 h2
    exact ⟨rfl, rfl, rfl⟩

theorem SetEncodedObject_noFault (env : Env) (repo : Repository) (obj : EncodedObject)
    (hw : ∀ (r : Repository) (o : EncodedObject), env.writeFault r o = none) :
    SetEncodedObject env repo obj =
      .ok (env.hashObject obj,
        { repo with objects := (env.hashObject obj, obj) :: repo.objects }) := by
  unfold SetEncodedObject
  rw [hw]

/-- What the second loop of Commit leaves when no write fails. -/
theorem writeStaged_ok (env : Env) (ext : String) (staging : List (String × Bytes))
    (repo repo1 : Repository) (identifiers identifiers1 : GoMap TreeEntry)
    (entries entries1 : List TreeEntry)
    (h : writeStaged env ext staging repo identifiers entries =
      (none, repo1, identifiers1, entries1)) :
    entries1 = entries ++ stagedEntries env ext staging ∧
    identifiers1 = newIdentifiers env ext identifiers staging ∧
    repo1.refs = repo.refs ∧
    (∀ p, p ∈ repo.objects → p ∈ repo1.objects) ∧
    (∀ p ∈ staging, (env.hashObject (.blob p.2), EncodedObject.blob p.2) ∈ repo1.objects) := by
  induction staging generalizing repo identifiers entries with
  | nil =>
    simp only [writeStaged, Prod.mk.injEq, true_and] at h
    obtain ⟨h1, h2, h3⟩ := h
    subst h1 h2 h3
    simp [stagedEntries, newIdentifiers]
  | cons p rest ih =>
    obtain ⟨name, contents⟩ := p
    simp only [writeStaged, writeBlob] at h
    cases hw : SetEncodedObject env repo (.blob contents) with
    | error e => rw [hw] at h; simp at h
    | ok r =>
      obtain ⟨identifier, repo2⟩ := r
      rw [hw] at h
      obtain ⟨hid, hobj, hrefs⟩ := SetEncodedObject_ok _ _ _ _ _ hw
      obtain ⟨he, hi, hr, hmono, hblobs⟩ := ih _ _ _ h
      subst hid
      refine ⟨?_, ?_, ?_, ?_, ?_⟩
      · rw [he]; simp [stagedEntries]
      · rw [hi]; simp [newIdentifiers]
      · rw [hr, hrefs]
      · intro q hq
        exact hmono q (by rw [hobj]; exact List.mem_cons_of_mem _ hq)
      · intro q hq
        rcases List.mem_cons.mp hq with rfl | hq
        · exact hmono _ (by rw [hobj]; exact List.mem_cons_self _ _)
        · exact hblobs q hq

theorem writeStaged_noFault (env : Env) (ext : String) (staging : List (String × Bytes))
    (repo : Repository) (identifiers : GoMap TreeEntry) (entries : List TreeEntry)
    (hw : ∀ (r : Repository) (o : EncodedObject), env.writeFault r o = none) :
    ∃ repo1, writeStaged env ext staging repo identifiers entries =
      (none, repo1, newIdentifiers env ext identifiers staging,
        entries ++ stagedEntries env ext staging) := by
  induction staging generalizing repo identifiers entries with
  | nil => exact ⟨repo, by simp [writeStaged, stagedEntries, newIdentifiers]⟩
  | cons p rest ih =>
    obtain ⟨name, contents⟩ := p
    simp only [writeStaged, writeBlob, SetEncodedObject_noFault _ _ _ hw]
    obtain ⟨repo1, h1⟩ := ih
      { repo with objects := (env.hashObject (.blob contents), .blob contents) :: repo.objects }
      (GoMap.set identifiers name (stagedEntry ext name (env.hashObject (.blob contents))))
      (entries ++ [stagedEntry ext name (env.hashObject (.blob contents))])
    exact ⟨repo1, by rw [h1]; simp [stagedEntries, newIdentifiers]⟩

theorem writeTree_ok (env : Env) (repo repo1 : Repository) (entries : List TreeEntry) (h : Hash)
    (hw : writeTree env repo entries = .ok (h, repo1)) :
    h = env.hashObject (.tree (sortSlice entries)) ∧
      repo1.objects = (h, .tree (sortSlice entries)) :: repo.objects ∧
      repo1.refs = repo.refs := by
  obtain ⟨h1, h2, h3⟩ := SetEncodedObject_ok _ _ _ _ _ hw
  exact ⟨h1, by rw [h2, h1], h3⟩

theorem commit_ok (env : Env) (repo repo1 : Repository) (parent treeHash commitHash : Hash)
    (targetRef : String)
    (h : commit env repo parent treeHash targetRef = (commitHash, none, repo1)) :
    ∃ gitConfig curRef,
      env.configScoped repo = .ok gitConfig ∧
      repo.Reference targetRef = .ok curRef ∧
      commitHash = env.hashObject (.commit (commitObjectOf env gitConfig parent treeHash)) ∧
      repo1.objects =
        (commitHash, .commit (commitObjectOf env gitConfig parent treeHash)) :: repo.objects ∧
      repo1.refs = GoMap.set repo.refs targetRef commitHash := by
  unfold commit at h
  cases hc : env.configScoped repo with
  | error e => rw [hc] at h; simp at h
  | ok gitConfig =>
    rw [hc] at h
    cases hr : repo.Reference targetRef with
    | error e => rw [hr] at h; simp at h
    | ok curRef =>
      rw [hr] at h
      dsimp only at h
      cases hw : SetEncodedObject env repo
          (.commit (commitObjectOf env gitConfig parent treeHash)) with
      | error e =>
        simp only [commitObjectOf] at hw
        rw [hw] at h
        simp at h
      | ok r =>
        obtain ⟨commitHash1, repo2⟩ := r
        obtain ⟨hid, hobj, hrefs⟩ := SetEncodedObject_ok _ _ _ _ _ hw
        simp only [commitObjectOf] at hw
        rw [hw] at h
        dsimp only at h
        unfold Repository.CheckAndSetReference at h
        have hcur : GoMap.get? repo2.refs targetRef = some curRef := by
          rw [hrefs]
          unfold Repository.Reference at hr
          cases hg : GoMap.get? repo.refs targetRef with
          | none => rw [hg] at hr; simp at hr
          | some x =>
            rw [hg] at hr
            simp only [Except.ok.injEq] at hr
            rw [hr]
        rw [hcur] at h
        simp only [ne_eq, not_true_eq_false, if_false, Prod.mk.injEq, true_and] at h
        obtain ⟨h1, h2⟩ := h
        subst h1 h2
        exact ⟨gitConfig, curRef, rfl, rfl, hid, by rw [hobj, hid], by simp [hrefs]⟩

theorem commit_noFault (env : Env) (repo : Repository) (parent treeHash : Hash)
    (hok : StoreOK env repo) :
    ∃ gitConfig repo1,
      commit env repo parent treeHash PolicyStateRef =
        (env.hashObject (.commit (commitObjectOf env gitConfig parent treeHash)), none, repo1) := by
  obtain ⟨hw, hc, hr⟩ := hok
  obtain ⟨gitConfig, hcfg⟩ := hc repo
  unfold GoMap.has at hr
  cases hg : GoMap.get? repo.refs PolicyStateRef with
  | none => rw [hg] at hr; simp at hr
  | some curRef =>
    refine ⟨gitConfig, ?_⟩
    unfold commit
    simp only [hcfg, Repository.Reference, hg, SetEncodedObject_noFault _ _ _ hw,
      Repository.CheckAndSetReference, ne_eq, not_true_eq_false, if_false, commitObjectOf]
    exact ⟨_, rfl⟩

/-- The state a successful Commit of a dirty state leaves, and the writes it
made, step by step. -/
theorem Commit_ok_inv (env : Env) (repo repoF : Repository) (s sF : PolicyState)
    (hdirty : s.Written = false) (h : s.Commit env repo = (none, repoF, sF)) :
    ∃ repo1 repo2 repo3 repo4 repo5 metadataTreeHash keysTreeHash treeHash commitHash,
      writeStaged env ".json" s.metadataStaging repo s.metadataIdentifiers
          (unstagedEntries s.metadataIdentifiers s.metadataStaging) =
        (none, repo1, newIdentifiers env ".json" s.metadataIdentifiers s.metadataStaging,
          unstagedEntries s.metadataIdentifiers s.metadataStaging ++
            stagedEntries env ".json" s.metadataStaging) ∧
      writeTree env repo1 (unstagedEntries s.metadataIdentifiers s.metadataStaging ++
            stagedEntries env ".json" s.metadataStaging) = .ok (metadataTreeHash, repo2) ∧
      writeStaged env ".pub" s.keysStaging repo2 s.rootKeys
          (unstagedEntries s.rootKeys s.keysStaging) =
        (none, repo3, newIdentifiers env ".pub" s.rootKeys s.keysStaging,
          unstagedEntries s.rootKeys s.keysStaging ++ stagedEntries env ".pub" s.keysStaging) ∧
      writeTree env repo3 (unstagedEntries s.rootKeys s.keysStaging ++
            stagedEntries env ".pub" s.keysStaging) = .ok (keysTreeHash, repo4) ∧
      writeTree env repo4
          [{ Name := MetadataDir, Mode := .Dir, Hash := metadataTreeHash },
           { Name := KeysDir, Mode := .Dir, Hash := keysTreeHash }] = .ok (treeHash, repo5) ∧
      commit env repo5 s.tip treeHash PolicyStateRef = (commitHash, none, repoF) ∧
      sF = { s with
             metadataIdentifiers := newIdentifiers env ".json" s.metadataIdentifiers
               s.metadataStaging
             rootKeys := newIdentifiers env ".pub" s.rootKeys s.keysStaging
             tree := treeHash, tip := commitHash, written := true } := by
  unfold PolicyState.Commit at h
  rw [if_neg (by simp [hdirty])] at h
  rcases hs1 : writeStaged env ".json" s.metadataStaging repo s.metadataIdentifiers
      (unstagedEntries s.metadataIdentifiers s.metadataStaging) with ⟨e1, repo1, ids, mdEntries⟩
  rw [hs1] at h
  cases e1 with
  | some e => simp at h
  | none =>
    obtain ⟨hmd, hids, -, -, -⟩ := writeStaged_ok _ _ _ _ _ _ _ _ _ hs1
    subst hmd hids
    dsimp only at h
    cases ht1 : writeTree env repo1 (unstagedEntries s.metadataIdentifiers s.metadataStaging ++
        stagedEntries env ".json" s.metadataStaging) with
    | error e => rw [ht1] at h; simp at h
    | ok r1 =>
      obtain ⟨metadataTreeHash, repo2⟩ := r1
      rw [ht1] at h
      dsimp only at h
      rcases hs2 : writeStaged env ".pub" s.keysStaging repo2 s.rootKeys
          (unstagedEntries s.rootKeys s.keysStaging) with ⟨e2, repo3, keys, keyEntries⟩
      rw [hs2] at h
      cases e2 with
      | some e => simp at h
      | none =>
        obtain ⟨hke, hkeys, -, -, -⟩ := writeStaged_ok _ _ _ _ _ _ _ _ _ hs2
        subst hke hkeys
        dsimp only at h
        cases ht2 : writeTree env repo3 (unstagedEntries s.rootKeys s.keysStaging ++
            stagedEntries env ".pub" s.keysStaging) with
        | error e => rw [ht2] at h; simp at h
        | ok r2 =>
          obtain ⟨keysTreeHash, repo4⟩ := r2
          rw [ht2] at h
          dsimp only at h
          cases ht3 : writeTree env repo4
              [{ Name := MetadataDir, Mode := .Dir, Hash := metadataTreeHash },
               { Name := KeysDir, Mode := .Dir, Hash := keysTreeHash }] with
          | error e => rw [ht3] at h; simp at h
          | ok r3 =>
            obtain ⟨treeHash, repo5⟩ := r3
            rw [ht3] at h
            dsimp only at h
            rcases hc : commit env repo5 s.tip treeHash PolicyStateRef with ⟨commitHash, e3, repo6⟩
            rw [hc] at h
            cases e3 with
            | some e => simp at h
            | none =>
              simp only [Prod.mk.injEq, true_and] at h
              obtain ⟨h1, h2⟩ := h
              subst h1
              exact ⟨repo1, repo2, repo3, repo4, repo5, metadataTreeHash, keysTreeHash,
                treeHash, commitHash, rfl, ht1, hs2, ht2, ht3, hc, h2.symm⟩

/-- A dirty state commits when the store is in order. -/
theorem Commit_noFault (env : Env) (repo : Repository) (s : PolicyState)
    (hdirty : s.Written = false) (hok : StoreOK env repo) :
    ∃ repoF sF, s.Commit env repo = (none, repoF, sF) := by
  obtain ⟨hw, hc, hr⟩ := hok
  obtain ⟨repo1, h1⟩ := writeStaged_noFault env ".json" s.metadataStaging repo
    s.metadataIdentifiers (unstagedEntries s.metadataIdentifiers s.metadataStaging) hw
  have hr1 := (writeStaged_ok _ _ _ _ _ _ _ _ _ h1).2.2.1
  obtain ⟨repo3, h3⟩ := writeStaged_noFault env ".pub" s.keysStaging
    { repo1 with objects :=
        (env.hashObject (.tree (sortSlice (unstagedEntries s.metadataIdentifiers
            s.metadataStaging ++ stagedEntries env ".json" s.metadataStaging))),
          .tree (sortSlice (unstagedEntries s.metadataIdentifiers s.metadataStaging ++
            stagedEntries env ".json" s.metadataStaging))) :: repo1.objects }
    s.rootKeys (unstagedEntries s.rootKeys s.keysStaging) hw
  have hr3 := (writeStaged_ok _ _ _ _ _ _ _ _ _ h3).2.2.1
  unfold PolicyState.Commit
  rw [if_neg (by simp [hdirty]), h1]
  simp only [writeTree, SetEncodedObject_noFault _ _ _ hw, h3]
  have hok5 : ∀ (objects : List (Hash × EncodedObject)),
      StoreOK env { objects := objects, refs := repo3.refs } := by
    intro objects
    refine ⟨hw, hc, ?_⟩
    simp only [hr3, hr1]
    exact hr
  obtain ⟨gitConfig, repo6, h6⟩ := commit_noFault env _ s.tip _ (hok5 _)
  rw [h6]
  exact ⟨_, _, rfl⟩

/-- Commit returns at once when the state is marked written. -/
theorem Commit_written (env : Env) (repo : Repository) (s : PolicyState)
    (h : s.Written = true) : s.Commit env repo = (none, repo, s) := by
  unfold PolicyState.Commit
  rw [if_pos h]

/-! ## C7: Commit of a clean state -/

/-- C7: when the state is not dirty (Written is true) Commit returns nil, the
repository is as it was (no object was written and the policy reference is
unchanged) and so is every field of the state. -/
theorem Commit_noop_when_written (env : Env) (repo : Repository) (s : PolicyState)
    (h : s.Written = true) : s.Commit env repo = (none, repo, s) :=
  Commit_written env repo s h

/-- Witness of C7: the state loaded from a repository whose policy reference
is zero. -/
theorem Commit_noop_when_written_witness :
    emptyState.Written = true ∧ emptyState.Commit (sampleEnv []) emptyRepo =
      (none, emptyRepo, emptyState) :=
  ⟨rfl, Commit_noop_when_written (sampleEnv []) emptyRepo emptyState rfl⟩

/-! ## C8: the staging maps after Commit -/

/-- A triple whose first component is known. -/
theorem triple_eta {α β γ : Type} (x : α × β × γ) (a : α) (h : x.1 = a) :
    x = (a, x.2.1, x.2.2) := by
  obtain ⟨x1, x2, x3⟩ := x
  simp only at h
  rw [h]

set_option maxRecDepth 8000 in
/-- C8 as stated fails: after the successful Commit of a state in which
`targets` is staged, the staged-metadata map still holds `targets`. -/
theorem staging_not_cleared_by_Commit :
    (stagedTargets.Commit (sampleEnv []) emptyRepo).1 = none ∧
      (stagedTargets.Commit (sampleEnv []) emptyRepo).2.2.metadataStaging =
        [("targets", [1])] ∧
      (stagedTargets.Commit (sampleEnv []) emptyRepo).2.2.metadataStaging ≠ [] := by
  decide

/-! ## C10: tree serialization -/

theorem sortSlice_perm (entries : List TreeEntry) : (sortSlice entries).Perm entries :=
  List.perm_insertionSort nameLE entries

theorem sortSlice_sorted (entries : List TreeEntry) : (sortSlice entries).Sorted nameLE :=
  List.sorted_insertionSort nameLE entries

/-- With pairwise distinct names the sorted entries are strictly ascending. -/
theorem sortSlice_strict (entries : List TreeEntry)
    (hnodup : (entries.map (fun e => e.Name)).Nodup) : (sortSlice entries).Sorted nameLT := by
  have hnd : ((sortSlice entries).map (fun e => e.Name)).Nodup :=
    ((sortSlice_perm entries).map _).nodup_iff.mpr hnodup
  have hne : (sortSlice entries).Pairwise (fun a b => a.Name ≠ b.Name) := by
    rw [List.Nodup, List.pairwise_map] at hnd
    exact hnd
  exact ((sortSlice_sorted entries).and hne).imp (fun h => lt_of_le_of_ne h.1 h.2)

/-- C10: writeTree hands to the store the entries sorted by name: for every
list of entries, a permutation of the list in ascending order of name.  So two
lists that are permutations of one another and have pairwise distinct names
are serialized as the same sequence, strictly ascending, and writeTree gives
the same result for both, the same tree identifier in particular, whatever
the order in which Commit collected the entries. -/
theorem writeTree_order_independent (env : Env) (repo : Repository) :
    (∀ entries : List TreeEntry,
      writeTree env repo entries = SetEncodedObject env repo (.tree (sortSlice entries)) ∧
      (sortSlice entries).Perm entries ∧
      (sortSlice entries).Sorted (fun a b => a.Name ≤ b.Name)) ∧
    (∀ entries1 entries2 : List TreeEntry, entries1.Perm entries2 →
      (entries1.map (fun e => e.Name)).Nodup →
        (sortSlice entries1).Sorted (fun a b => a.Name < b.Name) ∧
        sortSlice entries1 = sortSlice entries2 ∧
        writeTree env repo entries1 = writeTree env repo entries2 ∧
        (∀ h1 h2 repo1 repo2, writeTree env repo entries1 = .ok (h1, repo1) →
          writeTree env repo entries2 = .ok (h2, repo2) → h1 = h2)) := by
  refine ⟨fun entries => ⟨rfl, sortSlice_perm entries, sortSlice_sorted entries⟩, ?_⟩
  intro entries1 entries2 hperm hnodup
  have hnodup2 : (entries2.map (fun e => e.Name)).Nodup := (hperm.map _).nodup_iff.mp hnodup
  have heq : sortSlice entries1 = sortSlice entries2 :=
    List.eq_of_perm_of_sorted
      (((sortSlice_perm entries1).trans hperm).trans (sortSlice_perm entries2).symm)
      (sortSlice_strict entries1 hnodup) (sortSlice_strict entries2 hnodup2)
  have hw : writeTree env repo entries1 = writeTree env repo entries2 := by
    unfold writeTree
    rw [heq]
  refine ⟨sortSlice_strict entries1 hnodup, heq, hw, ?_⟩
  intro h1 h2 repo1 repo2 e1 e2
  rw [hw, e2] at e1
  simp only [Except.ok.injEq, Prod.mk.injEq] at e1
  exact e1.1.symm

/-- Witness of C10: the entries of a metadata subtree collected in two
orders. -/
theorem writeTree_order_independent_witness :
    [TreeEntry.mk "targets.json" .Regular 5, TreeEntry.mk "root.json" .Regular 7].Perm
        [TreeEntry.mk "root.json" .Regular 7, TreeEntry.mk "targets.json" .Regular 5] ∧
      ([TreeEntry.mk "targets.json" .Regular 5, TreeEntry.mk "root.json" .Regular 7].map
        (fun e => e.Name)).Nodup ∧
      writeTree (sampleEnv []) emptyRepo
          [TreeEntry.mk "targets.json" .Regular 5, TreeEntry.mk "root.json" .Regular 7] =
        writeTree (sampleEnv []) emptyRepo
          [TreeEntry.mk "root.json" .Regular 7, TreeEntry.mk "targets.json" .Regular 5] :=
  ⟨List.Perm.swap _ _ _, by decide,
    ((writeTree_order_independent (sampleEnv []) emptyRepo).2
      [TreeEntry.mk "targets.json" .Regular 5, TreeEntry.mk "root.json" .Regular 7]
      [TreeEntry.mk "root.json" .Regular 7, TreeEntry.mk "targets.json" .Regular 5]
      (List.Perm.swap _ _ _) (by decide)).2.2.1⟩

/-! ## C5: two commits from one snapshot -/

/-- The policy reference after a successful Commit of a dirty state. -/
theorem Commit_ok_refs (env : Env) (repo repoF : Repository) (s sF : PolicyState)
    (hdirty : s.Written = false) (h : s.Commit env repo = (none, repoF, sF)) :
    repoF.refs = GoMap.set repo.refs PolicyStateRef sF.tip := by
  obtain ⟨repo1, repo2, repo3, repo4, repo5, _, _, treeHash, commitHash, h1, h2, h3, h4, h5,
    h6, hs⟩ := Commit_ok_inv _ _ _ _ _ hdirty h
  obtain ⟨_, _, _, _, _, _, hr6⟩ := commit_ok _ _ _ _ _ _ _ h6
  have r1 := (writeStaged_ok _ _ _ _ _ _ _ _ _ h1).2.2.1
  have r2 := (writeTree_ok _ _ _ _ _ h2).2.2
  have r3 := (writeStaged_ok _ _ _ _ _ _ _ _ _ h3).2.2.1
  have r4 := (writeTree_ok _ _ _ _ _ h4).2.2
  have r5 := (writeTree_ok _ _ _ _ _ h5).2.2
  rw [hr6, r5, r4, r3, r2, r1, hs]

/-- In a run without interleaving, the compare-and-swap of commit cannot
fail: it compares the reference with the value commit has just read.  So
after one state has committed, the Commit of any other dirty state succeeds
too, whatever tip it was loaded at, and moves the policy reference to its
own commit. -/
theorem Commit_after_Commit (env : Env) (repo repo1 : Repository)
    (sA sA1 sB : PolicyState) (hok : StoreOK env repo)
    (hA : sA.Written = false) (hB : sB.Written = false)
    (hfirst : sA.Commit env repo = (none, repo1, sA1)) :
    ∃ repo2 sB1, sB.Commit env repo1 = (none, repo2, sB1) ∧
      repo2.Reference PolicyStateRef = .ok sB1.tip := by
  have hrefs := Commit_ok_refs _ _ _ _ _ hA hfirst
  have hok1 : StoreOK env repo1 := by
    refine ⟨hok.1, hok.2.1, ?_⟩
    rw [hrefs, GoMap.has_set]
    exact Or.inl rfl
  obtain ⟨repo2, sB1, h2⟩ := Commit_noFault env repo1 sB hB hok1
  refine ⟨repo2, sB1, h2, ?_⟩
  have hrefs2 := Commit_ok_refs _ _ _ _ _ hB h2
  unfold Repository.Reference
  rw [hrefs2, GoMap.get?_set]
  simp

set_option maxRecDepth 16000 in
/-- C5 on the code: two states are loaded from the same snapshot (the policy
reference is zero) and each stages `targets`.  The first commits.  The Commit
of the second then returns nil, not an error; the policy reference leaves
the commit of the first for the commit of the second, which has no
parent. -/
theorem second_Commit_not_rejected :
    LoadState emptyRepo = .ok emptyState ∧
    firstWriter.tip = secondWriter.tip ∧
    (firstWriter.Commit (sampleEnv []) emptyRepo).1 = none ∧
    (firstWriter.Commit (sampleEnv []) emptyRepo).2.1.Reference PolicyStateRef =
      .ok (firstWriter.Commit (sampleEnv []) emptyRepo).2.2.tip ∧
    (secondWriter.Commit (sampleEnv []) (firstWriter.Commit (sampleEnv []) emptyRepo).2.1).1 =
      none ∧
    (secondWriter.Commit (sampleEnv [])
        (firstWriter.Commit (sampleEnv []) emptyRepo).2.1).2.1.Reference PolicyStateRef =
      .ok (secondWriter.Commit (sampleEnv [])
        (firstWriter.Commit (sampleEnv []) emptyRepo).2.1).2.2.tip ∧
    (secondWriter.Commit (sampleEnv [])
        (firstWriter.Commit (sampleEnv []) emptyRepo).2.1).2.2.tip ≠
      (firstWriter.Commit (sampleEnv []) emptyRepo).2.2.tip ∧
    ((secondWriter.Commit (sampleEnv [])
        (firstWriter.Commit (sampleEnv []) emptyRepo).2.1).2.1.CommitObject
      (secondWriter.Commit (sampleEnv [])
        (firstWriter.Commit (sampleEnv []) emptyRepo).2.1).2.2.tip).map
        (fun c => c.ParentHashes) = .ok [] := by
  decide!

/-! ## C6: the tree Commit builds -/

theorem mem_unstagedEntries (identifiers : GoMap TreeEntry) (staging : GoMap Bytes)
    (e : TreeEntry) :
    e ∈ unstagedEntries identifiers staging ↔
      ∃ name, (name, e) ∈ identifiers ∧ GoMap.has staging name = false := by
  unfold unstagedEntries
  simp only [List.mem_map, List.mem_filter, Bool.not_eq_true', Prod.exists]
  constructor
  · rintro ⟨name, e1, ⟨hm, hh⟩, rfl⟩
    exact ⟨name, hm, hh⟩
  · rintro ⟨name, hm, hh⟩
    exact ⟨name, e, ⟨hm, hh⟩, rfl⟩

theorem mem_stagedEntries (env : Env) (ext : String) (staging : GoMap Bytes) (e : TreeEntry) :
    e ∈ stagedEntries env ext staging ↔
      ∃ name contents, (name, contents) ∈ staging ∧
        e = { Name := name ++ ext, Mode := .Regular, Hash := env.hashObject (.blob contents) } := by
  unfold stagedEntries stagedEntry
  simp only [List.mem_map, Prod.exists]
  constructor
  · rintro ⟨name, contents, hm, rfl⟩
    exact ⟨name, contents, hm, rfl⟩
  · rintro ⟨name, contents, hm, rfl⟩
    exact ⟨name, contents, hm, rfl⟩

theorem mem_newSubtree (env : Env) (ext : String) (identifiers : GoMap TreeEntry)
    (staging : GoMap Bytes) (e : TreeEntry) :
    e ∈ newSubtree env ext identifiers staging ↔
      (∃ name, (name, e) ∈ identifiers ∧ GoMap.has staging name = false) ∨
      (∃ name contents, (name, contents) ∈ staging ∧
        e = { Name := name ++ ext, Mode := .Regular,
              Hash := env.hashObject (.blob contents) }) := by
  unfold newSubtree
  rw [(sortSlice_perm _).mem_iff, List.mem_append, mem_unstagedEntries, mem_stagedEntries]

set_option maxRecDepth 4000 in
/-- The root tree as writeTree serializes it: `keys` before `metadata`. -/
theorem sortSlice_topLevel (metadataTreeHash keysTreeHash : Hash) :
    sortSlice [{ Name := MetadataDir, Mode := .Dir, Hash := metadataTreeHash },
               { Name := KeysDir, Mode := .Dir, Hash := keysTreeHash }] =
      [{ Name := KeysDir, Mode := .Dir, Hash := keysTreeHash },
       { Name := MetadataDir, Mode := .Dir, Hash := metadataTreeHash }] := by
  have h : ¬ nameLE { Name := MetadataDir, Mode := .Dir, Hash := metadataTreeHash }
      { Name := KeysDir, Mode := .Dir, Hash := keysTreeHash } := by
    have hlt : ¬ MetadataDir ≤ KeysDir := by decide!
    exact hlt
  simp only [sortSlice, List.insertionSort, List.orderedInsert, if_neg h]

/-- C6: after the successful Commit of a dirty state, the metadata subtree
written holds exactly the entries of the role map whose role is not staged,
unchanged, and for every staged role r one entry named r.json pointing at
the blob of the staged bytes, which is in the store; the keys subtree is
built the same way with k.pub; the root tree, whose identifier is the new
tree of the state, has the two entries `keys` and `metadata` pointing at the
two subtrees; the commit written has that tree and the prior tip as its only
parent, none when the prior tip is zero; and the policy reference points at
that commit, the new tip. -/
theorem Commit_builds_tree (env : Env) (repo repo1 : Repository) (s s1 : PolicyState)
    (hdirty : s.Written = false) (hok : s.Commit env repo = (none, repo1, s1)) :
    (∀ e, e ∈ newSubtree env ".json" s.metadataIdentifiers s.metadataStaging ↔
      (∃ roleName, (roleName, e) ∈ s.metadataIdentifiers ∧
        GoMap.has s.metadataStaging roleName = false) ∨
      (∃ roleName contents, (roleName, contents) ∈ s.metadataStaging ∧
        e = { Name := roleName ++ ".json", Mode := .Regular,
              Hash := env.hashObject (.blob contents) })) ∧
    (newSubtree env ".json" s.metadataIdentifiers s.metadataStaging).Perm
      (unstagedEntries s.metadataIdentifiers s.metadataStaging ++
        s.metadataStaging.map (fun p =>
          { Name := p.1 ++ ".json", Mode := .Regular, Hash := env.hashObject (.blob p.2) })) ∧
    (∀ e, e ∈ newSubtree env ".pub" s.rootKeys s.keysStaging ↔
      (∃ keyID, (keyID, e) ∈ s.rootKeys ∧ GoMap.has s.keysStaging keyID = false) ∨
      (∃ keyID contents, (keyID, contents) ∈ s.keysStaging ∧
        e = { Name := keyID ++ ".pub", Mode := .Regular,
              Hash := env.hashObject (.blob contents) })) ∧
    (newSubtree env ".pub" s.rootKeys s.keysStaging).Perm
      (unstagedEntries s.rootKeys s.keysStaging ++
        s.keysStaging.map (fun p =>
          { Name := p.1 ++ ".pub", Mode := .Regular, Hash := env.hashObject (.blob p.2) })) ∧
    (∀ p ∈ s.metadataStaging,
      (env.hashObject (.blob p.2), EncodedObject.blob p.2) ∈ repo1.objects) ∧
    (∀ p ∈ s.keysStaging,
      (env.hashObject (.blob p.2), EncodedObject.blob p.2) ∈ repo1.objects) ∧
    (env.hashObject (.tree (newSubtree env ".json" s.metadataIdentifiers s.metadataStaging)),
      EncodedObject.tree (newSubtree env ".json" s.metadataIdentifiers s.metadataStaging)) ∈
        repo1.objects ∧
    (env.hashObject (.tree (newSubtree env ".pub" s.rootKeys s.keysStaging)),
      EncodedObject.tree (newSubtree env ".pub" s.rootKeys s.keysStaging)) ∈ repo1.objects ∧
    (s1.tree,
      EncodedObject.tree
        [{ Name := "keys", Mode := .Dir,
           Hash := env.hashObject (.tree (newSubtree env ".pub" s.rootKeys s.keysStaging)) },
         { Name := "metadata", Mode := .Dir,
           Hash := env.hashObject
             (.tree (newSubtree env ".json" s.metadataIdentifiers s.metadataStaging)) }]) ∈
        repo1.objects ∧
    (∃ c : CommitObject, (s1.tip, EncodedObject.commit c) ∈ repo1.objects ∧
      c.TreeHash = s1.tree ∧ c.ParentHashes = (if s.tip = ZeroHash then [] else [s.tip])) ∧
    repo1.Reference PolicyStateRef = .ok s1.tip := by
  obtain ⟨r1, r2, r3, r4, r5, metadataTreeHash, keysTreeHash, treeHash, commitHash, h1, h2, h3,
    h4, h5, h6, hs⟩ := Commit_ok_inv _ _ _ _ _ hdirty hok
  obtain ⟨-, -, -, -, hb1⟩ := writeStaged_ok _ _ _ _ _ _ _ _ _ h1
  obtain ⟨hm, ho2, -⟩ := writeTree_ok _ _ _ _ _ h2
  obtain ⟨-, -, -, hmono3, hb3⟩ := writeStaged_ok _ _ _ _ _ _ _ _ _ h3
  obtain ⟨hk, ho4, -⟩ := writeTree_ok _ _ _ _ _ h4
  obtain ⟨ht, ho5, -⟩ := writeTree_ok _ _ _ _ _ h5
  obtain ⟨gitConfig, curRef, -, -, hc, ho6, hr6⟩ := commit_ok _ _ _ _ _ _ _ h6
  have m5 : ∀ p, p ∈ r5.objects → p ∈ repo1.objects := fun p hp => by
    rw [ho6]; exact List.mem_cons_of_mem _ hp
  have m4 : ∀ p, p ∈ r4.objects → p ∈ repo1.objects := fun p hp =>
    m5 p (by rw [ho5]; exact List.mem_cons_of_mem _ hp)
  have m3 : ∀ p, p ∈ r3.objects → p ∈ repo1.objects := fun p hp =>
    m4 p (by rw [ho4]; exact List.mem_cons_of_mem _ hp)
  have m2 : ∀ p, p ∈ r2.objects → p ∈ repo1.objects := fun p hp => m3 p (hmono3 p hp)
  have m1 : ∀ p, p ∈ r1.objects → p ∈ repo1.objects := fun p hp =>
    m2 p (by rw [ho2]; exact List.mem_cons_of_mem _ hp)
  have htree : s1.tree = treeHash := by rw [hs]
  have htip : s1.tip = commitHash := by rw [hs]
  refine ⟨mem_newSubtree _ _ _ _, sortSlice_perm _, mem_newSubtree _ _ _ _, sortSlice_perm _,
    fun p hp => m1 _ (hb1 p hp), fun p hp => m3 _ (hb3 p hp), ?_, ?_, ?_, ?_, ?_⟩
  · refine m2 _ ?_
    rw [ho2, hm]
    exact List.mem_cons_self _ _
  · refine m4 _ ?_
    rw [ho4, hk]
    exact List.mem_cons_self _ _
  · refine m5 _ ?_
    rw [ho5, htree, sortSlice_topLevel, hm, hk]
    exact List.mem_cons_self _ _
  · refine ⟨commitObjectOf env gitConfig s.tip treeHash, ?_, ?_, ?_⟩
    · rw [ho6, htip]
      exact List.mem_cons_self _ _
    · rw [htree]; rfl
    · simp only [commitObjectOf, ne_eq, ite_not]
  · unfold Repository.Reference
    rw [hr6, GoMap.get?_set, htip]
    simp

set_option maxRecDepth 8000 in
/-- Witness of C6: `targets` staged on the state loaded at the zero
reference. -/
theorem Commit_builds_tree_witness :
    stagedTargets.Written = false ∧
      (stagedTargets.Commit (sampleEnv []) emptyRepo).1 = none ∧
      (stagedTargets.Commit (sampleEnv []) emptyRepo).2.1.Reference PolicyStateRef =
        .ok (stagedTargets.Commit (sampleEnv []) emptyRepo).2.2.tip :=
  ⟨rfl, by decide,
    (Commit_builds_tree (sampleEnv []) emptyRepo
      (stagedTargets.Commit (sampleEnv []) emptyRepo).2.1 stagedTargets
      (stagedTargets.Commit (sampleEnv []) emptyRepo).2.2 rfl
      (triple_eta _ _ (by decide))).2.2.2.2.2.2.2.2.2.2⟩

/-! ## C9: removal -/

theorem deleteAll_eq_filter {V : Type} (m : GoMap V) (names : List String) :
    deleteAll m names = m.filter (fun p => decide (p.1 ∉ names)) := by
  unfold deleteAll
  induction names generalizing m with
  | nil => simp
  | cons n names ih =>
    rw [List.foldl_cons, ih, GoMap.delete, List.filter_filter]
    congr 1
    funext p
    by_cases h1 : p.1 = n <;> by_cases h2 : p.1 ∈ names <;> simp [h1, h2]

theorem mem_deleteAll {V : Type} (m : GoMap V) (names : List String) (p : String × V) :
    p ∈ deleteAll m names ↔ p ∈ m ∧ p.1 ∉ names := by
  rw [deleteAll_eq_filter, List.mem_filter]
  simp

theorem deleteAll_idem {V : Type} (m : GoMap V) (names : List String) :
    deleteAll (deleteAll m names) names = deleteAll m names := by
  rw [deleteAll_eq_filter, deleteAll_eq_filter, List.filter_filter]
  congr 1
  funext p
  simp

theorem deleteAll_of_not_mem {V : Type} (m : GoMap V) (names : List String)
    (h : ∀ p ∈ m, p.1 ∉ names) : deleteAll m names = m := by
  rw [deleteAll_eq_filter, List.filter_eq_self]
  intro p hp
  simpa using h p hp

theorem keys_deleteAll_nodup {V : Type} (m : GoMap V) (names : List String)
    (h : (GoMap.keys m).Nodup) : (GoMap.keys (deleteAll m names)).Nodup := by
  rw [deleteAll_eq_filter]
  unfold GoMap.keys at *
  exact h.sublist ((List.filter_sublist _).map _)

theorem GoMap.get?_of_not_mem_keys {V : Type} (m : GoMap V) (k : String)
    (h : k ∉ GoMap.keys m) : GoMap.get? m k = none := by
  induction m with
  | nil => rfl
  | cons p rest ih =>
    obtain ⟨k1, v1⟩ := p
    simp only [GoMap.keys, List.map_cons, List.mem_cons, not_or] at h
    have hne : ¬ k1 = k := fun e => h.1 e.symm
    simp only [GoMap.get?, if_neg hne]
    exact ih h.2

theorem GoMap.mem_of_get? {V : Type} (m : GoMap V) (k : String) (v : V)
    (h : GoMap.get? m k = some v) : (k, v) ∈ m := by
  induction m with
  | nil => simp [GoMap.get?] at h
  | cons p rest ih =>
    obtain ⟨k1, v1⟩ := p
    by_cases hk : k1 = k
    · simp only [GoMap.get?, if_pos hk, Option.some.injEq] at h
      subst hk h
      exact List.mem_cons_self _ _
    · simp only [GoMap.get?, if_neg hk] at h
      exact List.mem_cons_of_mem _ (ih h)

theorem GoMap.get?_of_mem {V : Type} (m : GoMap V) (k : String) (v : V)
    (hnd : (GoMap.keys m).Nodup) (h : (k, v) ∈ m) : GoMap.get? m k = some v := by
  induction m with
  | nil => simp at h
  | cons p rest ih =>
    obtain ⟨k1, v1⟩ := p
    simp only [GoMap.keys, List.map_cons, List.nodup_cons] at hnd
    rcases List.mem_cons.mp h with heq | hmem
    · simp only [Prod.mk.injEq] at heq
      simp [GoMap.get?, heq.1, heq.2]
    · have hne : ¬ k1 = k := by
        intro e
        apply hnd.1
        rw [e]
        exact List.mem_map.mpr ⟨(k, v), hmem, rfl⟩
      simp only [GoMap.get?, if_neg hne]
      exact ih hnd.2 hmem

theorem GoMap.set_of_get? {V : Type} (m : GoMap V) (k : String) (v : V)
    (h : GoMap.get? m k = some v) : GoMap.set m k v = m := by
  induction m with
  | nil => simp [GoMap.get?] at h
  | cons p rest ih =>
    obtain ⟨k1, v1⟩ := p
    by_cases hk : k1 = k
    · simp only [GoMap.get?, if_pos hk, Option.some.injEq] at h
      simp [GoMap.set, hk, h]
    · simp only [GoMap.get?, if_neg hk] at h
      simp [GoMap.set, hk, ih h]

theorem GoMap.mem_set {V : Type} (m : GoMap V) (k : String) (v : V) (p : String × V)
    (h : p ∈ GoMap.set m k v) : p ∈ m ∨ p = (k, v) := by
  induction m with
  | nil =>
    simp only [GoMap.set, List.mem_singleton] at h
    exact Or.inr h
  | cons q rest ih =>
    obtain ⟨k1, v1⟩ := q
    by_cases hk : k1 = k
    · simp only [GoMap.set, if_pos hk, List.mem_cons] at h
      rcases h with h | h
      · exact Or.inr h
      · exact Or.inl (List.mem_cons_of_mem _ h)
    · simp only [GoMap.set, if_neg hk, List.mem_cons] at h
      rcases h with h | h
      · exact Or.inl (h ▸ List.mem_cons_self _ _)
      · rcases ih h with h1 | h1
        · exact Or.inl (List.mem_cons_of_mem _ h1)
        · exact Or.inr h1

/-- A filter that drops every binding of `k` does not see `m[k] = v`. -/
theorem GoMap.filter_set {V : Type} (m : GoMap V) (k : String) (v : V)
    (keep : String → Bool) (hk : keep k = false) :
    (GoMap.set m k v).filter (fun p => keep p.1) = m.filter (fun p => keep p.1) := by
  induction m with
  | nil => simp [GoMap.set, hk]
  | cons q rest ih =>
    obtain ⟨k1, v1⟩ := q
    by_cases h1 : k1 = k
    · subst h1
      simp [GoMap.set, hk]
    · simp only [GoMap.set, if_neg h1, List.filter_cons, ih]

theorem mem_newIdentifiers (env : Env) (ext : String) (identifiers : GoMap TreeEntry)
    (staging : GoMap Bytes) (p : String × TreeEntry)
    (h : p ∈ newIdentifiers env ext identifiers staging) :
    p ∈ identifiers ∨ ∃ q ∈ staging, p = (q.1, stagedEntry ext q.1 (env.hashObject (.blob q.2))) := by
  unfold newIdentifiers at h
  induction staging generalizing identifiers with
  | nil => exact Or.inl h
  | cons q rest ih =>
    rw [List.foldl_cons] at h
    rcases ih _ h with h1 | ⟨q1, hq1, h1⟩
    · rcases GoMap.mem_set _ _ _ _ h1 with h2 | h2
      · exact Or.inl h2
      · exact Or.inr ⟨q, List.mem_cons_self _ _, h2⟩
    · exact Or.inr ⟨q1, List.mem_cons_of_mem _ hq1, h1⟩

theorem unstagedEntries_newIdentifiers (env : Env) (ext : String)
    (identifiers : GoMap TreeEntry) (staging : GoMap Bytes) :
    unstagedEntries (newIdentifiers env ext identifiers staging) staging =
      unstagedEntries identifiers staging := by
  unfold unstagedEntries
  congr 1
  have key : ∀ (part : GoMap Bytes) (ids : GoMap TreeEntry),
      (∀ q ∈ part, GoMap.has staging q.1 = true) →
      (newIdentifiers env ext ids part).filter (fun p => !GoMap.has staging p.1) =
        ids.filter (fun p => !GoMap.has staging p.1) := by
    intro part
    induction part with
    | nil => intro ids _; rfl
    | cons q rest ih =>
      intro ids hq
      unfold newIdentifiers
      rw [List.foldl_cons]
      have := ih (GoMap.set ids q.1 (stagedEntry ext q.1 (env.hashObject (.blob q.2))))
        (fun q1 h1 => hq q1 (List.mem_cons_of_mem _ h1))
      unfold newIdentifiers at this
      rw [this]
      exact GoMap.filter_set ids q.1 _ (fun k => !GoMap.has staging k)
        (by simp [hq q (List.mem_cons_self _ _)])
  apply key
  intro q hq
  unfold GoMap.has
  by_cases h : q.1 ∈ GoMap.keys staging
  · clear key
    induction staging with
    | nil => simp at hq
    | cons p rest ih =>
      obtain ⟨k1, v1⟩ := p
      by_cases hk : k1 = q.1
      · simp [GoMap.get?, hk]
      · simp only [GoMap.get?, if_neg hk]
        rcases List.mem_cons.mp hq with hq1 | hq1
        · exact absurd (by rw [hq1]) hk
        · apply ih hq1
          exact List.mem_map.mpr ⟨q, hq1, rfl⟩
  · exact absurd (List.mem_map.mpr ⟨q, hq, rfl⟩) h

theorem get?_newIdentifiers_of_not_mem (env : Env) (ext : String)
    (identifiers : GoMap TreeEntry) (staging : GoMap Bytes) (k : String)
    (h : k ∉ GoMap.keys staging) :
    GoMap.get? (newIdentifiers env ext identifiers staging) k = GoMap.get? identifiers k := by
  unfold newIdentifiers
  induction staging generalizing identifiers with
  | nil => rfl
  | cons q rest ih =>
    simp only [GoMap.keys, List.map_cons, List.mem_cons, not_or] at h
    rw [List.foldl_cons, ih _ h.2, GoMap.get?_set, if_neg (fun e => h.1 e.symm)]

theorem get?_newIdentifiers_of_mem (env : Env) (ext : String)
    (identifiers : GoMap TreeEntry) (staging : GoMap Bytes) (q : String × Bytes)
    (hnd : (GoMap.keys staging).Nodup) (h : q ∈ staging) :
    GoMap.get? (newIdentifiers env ext identifiers staging) q.1 =
      some (stagedEntry ext q.1 (env.hashObject (.blob q.2))) := by
  induction staging generalizing identifiers with
  | nil => simp at h
  | cons q1 rest ih =>
    simp only [GoMap.keys, List.map_cons, List.nodup_cons] at hnd
    have hstep : newIdentifiers env ext identifiers (q1 :: rest) =
        newIdentifiers env ext
          (GoMap.set identifiers q1.1 (stagedEntry ext q1.1 (env.hashObject (.blob q1.2))))
          rest := rfl
    rw [hstep]
    rcases List.mem_cons.mp h with heq | hmem
    · subst heq
      rw [get?_newIdentifiers_of_not_mem _ _ _ _ _ hnd.1, GoMap.get?_set, if_pos rfl]
    · exact ih _ hnd.2 hmem

/-- Recording the staged entries a second time changes nothing. -/
theorem newIdentifiers_idem (env : Env) (ext : String) (identifiers : GoMap TreeEntry)
    (staging : GoMap Bytes) (hnd : (GoMap.keys staging).Nodup) :
    newIdentifiers env ext (newIdentifiers env ext identifiers staging) staging =
      newIdentifiers env ext identifiers staging := by
  have key : ∀ (part : GoMap Bytes) (ids : GoMap TreeEntry),
      (∀ q ∈ part, GoMap.get? ids q.1 =
        some (stagedEntry ext q.1 (env.hashObject (.blob q.2)))) →
      newIdentifiers env ext ids part = ids := by
    intro part
    induction part with
    | nil => intro ids _; rfl
    | cons q rest ih =>
      intro ids hq
      have hstep : newIdentifiers env ext ids (q :: rest) =
          newIdentifiers env ext
            (GoMap.set ids q.1 (stagedEntry ext q.1 (env.hashObject (.blob q.2)))) rest := rfl
      rw [hstep, GoMap.set_of_get? _ _ _ (hq q (List.mem_cons_self _ _))]
      exact ih ids (fun q1 h1 => hq q1 (List.mem_cons_of_mem _ h1))
  exact key staging _ (fun q hq => get?_newIdentifiers_of_mem _ _ _ _ _ hnd hq)

/-- The state a successful Commit of a dirty state leaves. -/
theorem Commit_ok_state (env : Env) (repo repoF : Repository) (s sF : PolicyState)
    (hdirty : s.Written = false) (h : s.Commit env repo = (none, repoF, sF)) :
    sF.metadataStaging = s.metadataStaging ∧ sF.keysStaging = s.keysStaging ∧
    sF.metadataIdentifiers =
      newIdentifiers env ".json" s.metadataIdentifiers s.metadataStaging ∧
    sF.rootKeys = newIdentifiers env ".pub" s.rootKeys s.keysStaging ∧
    sF.tree = rootTreeHash env s ∧ sF.Written = true := by
  obtain ⟨r1, r2, r3, r4, r5, metadataTreeHash, keysTreeHash, treeHash, commitHash, -, h2, -,
    h4, h5, -, hs⟩ := Commit_ok_inv _ _ _ _ _ hdirty h
  obtain ⟨hm, -, -⟩ := writeTree_ok _ _ _ _ _ h2
  obtain ⟨hk, -, -⟩ := writeTree_ok _ _ _ _ _ h4
  obtain ⟨ht, -, -⟩ := writeTree_ok _ _ _ _ _ h5
  subst hs
  refine ⟨rfl, rfl, rfl, rfl, ?_, rfl⟩
  simp only [rootTreeHash, newSubtree]
  rw [ht, hm, hk]

theorem not_mem_keys_deleteAll {V : Type} (m : GoMap V) (names : List String) (k : String)
    (h : k ∈ names) : k ∉ GoMap.keys (deleteAll m names) := by
  intro hk
  obtain ⟨p, hp, rfl⟩ := List.mem_map.mp hk
  exact ((mem_deleteAll m names p).mp hp).2 h

theorem RemoveMetadata_eq (env : Env) (repo : Repository) (s : PolicyState)
    (roleNames : List String) :
    s.RemoveMetadata env repo roleNames =
      (removalState s roleNames).Commit env repo := rfl

/-- The metadata subtree and the root tree are in the store after a
successful Commit of a dirty state. -/
theorem Commit_trees_stored (env : Env) (repo repo1 : Repository) (s s1 : PolicyState)
    (hdirty : s.Written = false) (hok : s.Commit env repo = (none, repo1, s1)) :
    (env.hashObject (.tree (newSubtree env ".json" s.metadataIdentifiers s.metadataStaging)),
      EncodedObject.tree (newSubtree env ".json" s.metadataIdentifiers s.metadataStaging)) ∈
        repo1.objects ∧
    (s1.tree,
      EncodedObject.tree
        [{ Name := "keys", Mode := .Dir,
           Hash := env.hashObject (.tree (newSubtree env ".pub" s.rootKeys s.keysStaging)) },
         { Name := "metadata", Mode := .Dir,
           Hash := env.hashObject
             (.tree (newSubtree env ".json" s.metadataIdentifiers s.metadataStaging)) }]) ∈
        repo1.objects := by
  obtain ⟨r1, r2, r3, r4, r5, metadataTreeHash, keysTreeHash, treeHash, commitHash, h1, h2, h3,
    h4, h5, h6, hs⟩ := Commit_ok_inv _ _ _ _ _ hdirty hok
  obtain ⟨hm, ho2, -⟩ := writeTree_ok _ _ _ _ _ h2
  obtain ⟨-, -, -, hmono3, -⟩ := writeStaged_ok _ _ _ _ _ _ _ _ _ h3
  obtain ⟨hk, ho4, -⟩ := writeTree_ok _ _ _ _ _ h4
  obtain ⟨ht, ho5, -⟩ := writeTree_ok _ _ _ _ _ h5
  obtain ⟨gitConfig, curRef, -, -, hc, ho6, hr6⟩ := commit_ok _ _ _ _ _ _ _ h6
  have m5 : ∀ p, p ∈ r5.objects → p ∈ repo1.objects := fun p hp => by
    rw [ho6]; exact List.mem_cons_of_mem _ hp
  have m4 : ∀ p, p ∈ r4.objects → p ∈ repo1.objects := fun p hp =>
    m5 p (by rw [ho5]; exact List.mem_cons_of_mem _ hp)
  have m3 : ∀ p, p ∈ r3.objects → p ∈ repo1.objects := fun p hp =>
    m4 p (by rw [ho4]; exact List.mem_cons_of_mem _ hp)
  have m2 : ∀ p, p ∈ r2.objects → p ∈ repo1.objects := fun p hp => m3 p (hmono3 p hp)
  have htree : s1.tree = treeHash := by rw [hs]
  constructor
  · refine m2 _ ?_
    rw [ho2, hm]
    exact List.mem_cons_self _ _
  · refine m5 _ ?_
    rw [ho5, htree, sortSlice_topLevel, hm, hk]
    exact List.mem_cons_self _ _

/-- C9: on a clean state, with the store in order, RemoveMetadata succeeds
whether or not the listed roles exist.  The metadata tree it writes holds
exactly the entries the role map had for roles that are not listed, and the
new role map has no listed role.  Applied again with the same list it
succeeds again and leaves the same role map and the same tree identifier. -/
theorem RemoveMetadata_idempotent (env : Env) (repo : Repository) (s : PolicyState)
    (roleNames : List String) (hok : StoreOK env repo) (hclean : s.Clean env)
    (hids : (GoMap.keys s.metadataIdentifiers).Nodup)
    (hstaging : (GoMap.keys s.metadataStaging).Nodup) :
    ∃ repo1 s1 repo2 s2,
      s.RemoveMetadata env repo roleNames = (none, repo1, s1) ∧
      (env.hashObject (.tree (newSubtree env ".json"
          (deleteAll s.metadataIdentifiers roleNames) (deleteAll s.metadataStaging roleNames))),
        EncodedObject.tree (newSubtree env ".json"
          (deleteAll s.metadataIdentifiers roleNames)
          (deleteAll s.metadataStaging roleNames))) ∈ repo1.objects ∧
      (∃ keysTreeHash,
        (s1.tree,
          EncodedObject.tree
            [{ Name := "keys", Mode := .Dir, Hash := keysTreeHash },
             { Name := "metadata", Mode := .Dir,
               Hash := env.hashObject (.tree (newSubtree env ".json"
                 (deleteAll s.metadataIdentifiers roleNames)
                 (deleteAll s.metadataStaging roleNames))) }]) ∈ repo1.objects) ∧
      (∀ e, e ∈ newSubtree env ".json" (deleteAll s.metadataIdentifiers roleNames)
            (deleteAll s.metadataStaging roleNames) ↔
          ∃ roleName, roleName ∉ roleNames ∧ (roleName, e) ∈ s.metadataIdentifiers) ∧
      (∀ roleName ∈ roleNames, GoMap.get? s1.metadataIdentifiers roleName = none) ∧
      s1.RemoveMetadata env repo1 roleNames = (none, repo2, s2) ∧
      s2.metadataIdentifiers = s1.metadataIdentifiers ∧
      s2.tree = s1.tree := by
  have hd0 : (removalState s roleNames).Written = false := rfl
  obtain ⟨repo1, s1, h1⟩ := Commit_noFault env repo (removalState s roleNames) hd0 hok
  obtain ⟨hst1, hks1, hmi1, hrk1, htree1, -⟩ := Commit_ok_state _ _ _ _ _ hd0 h1
  have hrefs1 := Commit_ok_refs _ _ _ _ _ hd0 h1
  have hok1 : StoreOK env repo1 := by
    refine ⟨hok.1, hok.2.1, ?_⟩
    rw [hrefs1, GoMap.has_set]
    exact Or.inl rfl
  have hnd1 : (GoMap.keys (deleteAll s.metadataStaging roleNames)).Nodup :=
    keys_deleteAll_nodup _ _ hstaging
  -- the second removal starts from the state the first one left
  have hsame : removalState s1 roleNames = { s1 with written := false } := by
    have e1 : deleteAll s1.metadataStaging roleNames = s1.metadataStaging := by
      rw [hst1]
      exact deleteAll_idem _ _
    have e2 : deleteAll s1.metadataIdentifiers roleNames = s1.metadataIdentifiers := by
      apply deleteAll_of_not_mem
      intro p hp
      rw [hmi1] at hp
      rcases mem_newIdentifiers _ _ _ _ _ hp with h | ⟨q, hq, rfl⟩
      · exact ((mem_deleteAll _ _ _).mp h).2
      · exact ((mem_deleteAll _ _ _).mp hq).2
    simp only [removalState, e1, e2]
  have hd1 : (removalState s1 roleNames).Written = false := rfl
  obtain ⟨repo2, s2, h2⟩ := Commit_noFault env repo1 (removalState s1 roleNames) hd1 hok1
  obtain ⟨-, -, hmi2, -, htree2, -⟩ := Commit_ok_state _ _ _ _ _ hd1 h2
  have hC6 := Commit_trees_stored env repo repo1 (removalState s roleNames) s1 hd0 h1
  refine ⟨repo1, s1, repo2, s2, h1, hC6.1, ⟨_, hC6.2⟩, ?_, ?_, h2, ?_, ?_⟩
  · intro e
    rw [mem_newSubtree]
    constructor
    · rintro (⟨name, hm, -⟩ | ⟨name, contents, hm, rfl⟩)
      · obtain ⟨hm1, hn⟩ := (mem_deleteAll _ _ _).mp hm
        exact ⟨name, hn, hm1⟩
      · obtain ⟨hm1, hn⟩ := (mem_deleteAll _ _ _).mp hm
        exact ⟨name, hn, hclean.2.1 _ hm1⟩
    · rintro ⟨name, hn, hm⟩
      cases hh : GoMap.has (deleteAll s.metadataStaging roleNames) name with
      | false => exact Or.inl ⟨name, (mem_deleteAll _ _ _).mpr ⟨hm, hn⟩, hh⟩
      | true =>
        unfold GoMap.has at hh
        cases hg : GoMap.get? (deleteAll s.metadataStaging roleNames) name with
        | none => rw [hg] at hh; simp at hh
        | some contents =>
          have hmem := ((mem_deleteAll _ _ _).mp (GoMap.mem_of_get? _ _ _ hg)).1
          have hrec := hclean.2.1 _ hmem
          have e1 := GoMap.get?_of_mem _ _ _ hids hm
          have e2 := GoMap.get?_of_mem _ _ _ hids hrec
          rw [e1] at e2
          simp only [Option.some.injEq] at e2
          exact Or.inr ⟨name, contents, GoMap.mem_of_get? _ _ _ hg, e2⟩
  · intro roleName hr
    rw [hmi1]
    show GoMap.get? (newIdentifiers env ".json" (deleteAll s.metadataIdentifiers roleNames)
      (deleteAll s.metadataStaging roleNames)) roleName = none
    rw [get?_newIdentifiers_of_not_mem _ _ _ _ _ (not_mem_keys_deleteAll _ _ _ hr)]
    exact GoMap.get?_of_not_mem_keys _ _ (not_mem_keys_deleteAll _ _ _ hr)
  · rw [hmi2, hsame]
    show newIdentifiers env ".json" s1.metadataIdentifiers s1.metadataStaging =
      s1.metadataIdentifiers
    rw [hmi1, hst1]
    exact newIdentifiers_idem _ _ _ _ hnd1
  · rw [htree2, htree1, hsame]
    simp only [rootTreeHash, newSubtree]
    rw [hmi1, hst1, hrk1, hks1, unstagedEntries_newIdentifiers,
      unstagedEntries_newIdentifiers]

/-- Witness of C9: removing `targets` and a role that never existed from a
committed state with the roles root and targets. -/
theorem RemoveMetadata_idempotent_witness :
    StoreOK (sampleEnv []) twoRolesRepo ∧ twoRoles.Clean (sampleEnv []) ∧
      (GoMap.keys twoRoles.metadataIdentifiers).Nodup ∧
      (GoMap.keys twoRoles.metadataStaging).Nodup ∧
      ∃ repo1 s1 repo2 s2,
        twoRoles.RemoveMetadata (sampleEnv []) twoRolesRepo ["targets", "ghost"] =
          (none, repo1, s1) ∧
        s1.RemoveMetadata (sampleEnv []) repo1 ["targets", "ghost"] = (none, repo2, s2) ∧
        s2.metadataIdentifiers = s1.metadataIdentifiers ∧ s2.tree = s1.tree :=
  have hstore : StoreOK (sampleEnv []) twoRolesRepo :=
    ⟨fun _ _ => rfl, fun _ => ⟨_, rfl⟩, by decide⟩
  have hclean : twoRoles.Clean (sampleEnv []) :=
    ⟨rfl, by simp [twoRoles], by simp [twoRoles]⟩
  have hids : (GoMap.keys twoRoles.metadataIdentifiers).Nodup := by decide
  have hstaging : (GoMap.keys twoRoles.metadataStaging).Nodup := by decide
  ⟨hstore, hclean, hids, hstaging,
    match RemoveMetadata_idempotent (sampleEnv []) twoRolesRepo twoRoles ["targets", "ghost"]
      hstore hclean hids hstaging with
    | ⟨repo1, s1, repo2, s2, h1, _, _, _, _, h2, h3, h4⟩ => ⟨repo1, s1, repo2, s2, h1, h2, h3, h4⟩⟩

/-- A successful Commit leaves a clean state. -/
theorem Commit_clean (env : Env) (repo repo1 : Repository) (s s1 : PolicyState)
    (hdirty : s.Written = false)
    (hm : (GoMap.keys s.metadataStaging).Nodup) (hk : (GoMap.keys s.keysStaging).Nodup)
    (h : s.Commit env repo = (none, repo1, s1)) : s1.Clean env := by
  obtain ⟨hst, hks, hmi, hrk, -, hw⟩ := Commit_ok_state _ _ _ _ _ hdirty h
  refine ⟨hw, ?_, ?_⟩
  · intro p hp
    rw [hst] at hp
    rw [hmi]
    exact GoMap.mem_of_get? _ _ _ (get?_newIdentifiers_of_mem _ _ _ _ _ hm hp)
  · intro p hp
    rw [hks] at hp
    rw [hrk]
    exact GoMap.mem_of_get? _ _ _ (get?_newIdentifiers_of_mem _ _ _ _ _ hk hp)

/-! ## C8: what Commit records of the staged roles and keys -/

/-- Every staged name is bound, after the second loop of Commit, to the
entry of the bytes staged under it. -/
theorem get?_newIdentifiers_of_mem_keys (env : Env) (ext : String)
    (identifiers : GoMap TreeEntry) (staging : GoMap Bytes) (k : String)
    (h : k ∈ GoMap.keys staging) :
    ∃ contents, (k, contents) ∈ staging ∧
      GoMap.get? (newIdentifiers env ext identifiers staging) k =
        some (stagedEntry ext k (env.hashObject (.blob contents))) := by
  induction staging generalizing identifiers with
  | nil => exact absurd h (List.not_mem_nil k)
  | cons q rest ih =>
    by_cases hrest : k ∈ GoMap.keys rest
    · obtain ⟨contents, hc, hget⟩ := ih
        (GoMap.set identifiers q.1 (stagedEntry ext q.1 (env.hashObject (.blob q.2)))) hrest
      exact ⟨contents, List.mem_cons_of_mem _ hc, hget⟩
    · have hk : k = q.1 := by
        rcases List.mem_cons.mp h with h1 | h1
        · exact h1
        · exact absurd h1 hrest
      subst hk
      refine ⟨q.2, List.mem_cons_self _ _, ?_⟩
      have e : newIdentifiers env ext identifiers (q :: rest) =
          newIdentifiers env ext
            (GoMap.set identifiers q.1 (stagedEntry ext q.1 (env.hashObject (.blob q.2))))
            rest := rfl
      rw [e, get?_newIdentifiers_of_not_mem _ _ _ _ _ hrest, GoMap.get?_set, if_pos rfl]

/-- C8, as the code has it: Commit does not clear the staging maps.  After a
successful Commit of any state the staged-metadata map and the staged-keys
map are what they were before it and the state is marked written.  When the
state was dirty, the role map and the key map are the former maps with the
staged entries recorded, so that every staged role is bound to the entry
named after it with `.json` that points at the blob of its staged bytes, and
every staged key to the one with `.pub`.  When the state was marked written,
Commit leaves the repository and the state as they were: what is staged and
not recorded stays unrecorded. -/
theorem Commit_keeps_staging (env : Env) (repo repo1 : Repository) (s s1 : PolicyState)
    (h : s.Commit env repo = (none, repo1, s1)) :
    s1.metadataStaging = s.metadataStaging ∧ s1.keysStaging = s.keysStaging ∧
      s1.Written = true ∧
      (s.Written = false →
        s1.metadataIdentifiers =
          newIdentifiers env ".json" s.metadataIdentifiers s.metadataStaging ∧
        s1.rootKeys = newIdentifiers env ".pub" s.rootKeys s.keysStaging ∧
        (∀ roleName ∈ GoMap.keys s.metadataStaging,
          ∃ contents, (roleName, contents) ∈ s.metadataStaging ∧
            GoMap.get? s1.metadataIdentifiers roleName =
              some (stagedEntry ".json" roleName (env.hashObject (.blob contents)))) ∧
        (∀ keyID ∈ GoMap.keys s.keysStaging,
          ∃ contents, (keyID, contents) ∈ s.keysStaging ∧
            GoMap.get? s1.rootKeys keyID =
              some (stagedEntry ".pub" keyID (env.hashObject (.blob contents))))) ∧
      (s.Written = true → repo1 = repo ∧ s1 = s) := by
  cases hw : s.Written with
  | true =>
    rw [Commit_written env repo s hw] at h
    simp only [Prod.mk.injEq, true_and] at h
    obtain ⟨h1, h2⟩ := h
    subst h1 h2
    simp [hw]
  | false =>
    obtain ⟨hst, hks, hmi, hrk, -, hwr⟩ := Commit_ok_state _ _ _ _ _ hw h
    refine ⟨hst, hks, hwr, fun _ => ⟨hmi, hrk, ?_, ?_⟩, fun hc => absurd hc (by simp)⟩
    · intro roleName hr
      rw [hmi]
      exact get?_newIdentifiers_of_mem_keys env ".json" _ _ roleName hr
    · intro keyID hk
      rw [hrk]
      exact get?_newIdentifiers_of_mem_keys env ".pub" _ _ keyID hk

set_option maxRecDepth 8000 in
/-- Witness of C8: `targets` staged with the bytes [1] on the state loaded at
the zero reference; after the Commit `targets` is still staged and the role
map binds it to the entry `targets.json`. -/
theorem Commit_keeps_staging_witness :
    (stagedTargets.Commit (sampleEnv []) emptyRepo).1 = none ∧
      (stagedTargets.Commit (sampleEnv []) emptyRepo).2.2.metadataStaging =
        stagedTargets.metadataStaging ∧
      ∃ contents, ("targets", contents) ∈ stagedTargets.metadataStaging ∧
        GoMap.get? (stagedTargets.Commit (sampleEnv []) emptyRepo).2.2.metadataIdentifiers
            "targets" =
          some (stagedEntry ".json" "targets" ((sampleEnv []).hashObject (.blob contents))) :=
  ⟨by decide,
    (Commit_keeps_staging (sampleEnv []) emptyRepo
      (stagedTargets.Commit (sampleEnv []) emptyRepo).2.1 stagedTargets
      (stagedTargets.Commit (sampleEnv []) emptyRepo).2.2
      (triple_eta _ _ (by decide))).1,
    ((Commit_keeps_staging (sampleEnv []) emptyRepo
      (stagedTargets.Commit (sampleEnv []) emptyRepo).2.1 stagedTargets
      (stagedTargets.Commit (sampleEnv []) emptyRepo).2.2
      (triple_eta _ _ (by decide))).2.2.2.1 (by decide)).2.2.1 "targets" (by decide)⟩

/-- The entries are recorded by a Commit of a dirty state only: in a state
marked written in which `snapshot` is staged and not recorded, Commit
succeeds and `snapshot` still has no entry in the role map. -/
theorem Commit_written_records_nothing :
    stagedUnrecorded.Written = true ∧
      (stagedUnrecorded.Commit (sampleEnv []) twoRolesRepo).1 = none ∧
      GoMap.has (stagedUnrecorded.Commit (sampleEnv []) twoRolesRepo).2.2.metadataStaging
        "snapshot" = true ∧
      GoMap.get? (stagedUnrecorded.Commit (sampleEnv []) twoRolesRepo).2.2.metadataIdentifiers
        "snapshot" = none := by
  decide

/-! ## C15: validateChanges stops at the first violation -/

theorem checkPaths_append (env : Env) (repo : Repository) (state : PolicyState) (fuel : Nat)
    (usedKeyIDs : List String) (pre post : List String) :
    checkPaths env repo state fuel usedKeyIDs (pre ++ post) =
      match checkPaths env repo state fuel usedKeyIDs pre with
      | some (.ok ()) => checkPaths env repo state fuel usedKeyIDs post
      | r => r := by
  induction pre with
  | nil => rfl
  | cons p pre ih =>
    rw [List.cons_append, checkPaths, checkPaths]
    rcases hv : validateRule env repo state fuel p usedKeyIDs with _ | r
    · rfl
    · cases r with
      | error e => rfl
      | ok u => exact ih

/-- The function validateChanges checks the paths of `checkedPaths`, change
by change, in order. -/
theorem validateChanges_eq_checkPaths (env : Env) (repo : Repository) (state : PolicyState)
    (fuel : Nat) (usedKeyIDs : List String) (changes : List Change) :
    validateChanges env repo state fuel changes usedKeyIDs =
      checkPaths env repo state fuel usedKeyIDs (changes.flatMap checkedPaths) := by
  induction changes with
  | nil => rfl
  | cons c changes ih =>
    rw [List.flatMap_cons, checkPaths_append, validateChanges, ih]
    dsimp only
    unfold checkedPaths
    by_cases hf : 0 < c.From.Name.utf8ByteSize
    · rw [if_pos hf, if_pos hf]
      rcases hvf : validateRule env repo state fuel c.From.Name usedKeyIDs with _ | r
      · simp [checkPaths, hvf]
      · cases r with
        | error e => simp [checkPaths, hvf]
        | ok u =>
          by_cases ht : c.From.Name ≠ c.To.Name ∧ 0 < c.To.Name.utf8ByteSize
          · rw [if_pos ht, if_pos ht]
            rcases hvt : validateRule env repo state fuel c.To.Name usedKeyIDs with _ | r
            · simp [checkPaths, hvf, hvt]
            · cases r with
              | error e => simp [checkPaths, hvf, hvt]
              | ok u => simp [checkPaths, hvf, hvt]
          · rw [if_neg ht, if_neg ht]
            simp [checkPaths, hvf]
    · rw [if_neg hf, if_neg hf]
      by_cases ht : c.From.Name ≠ c.To.Name ∧ 0 < c.To.Name.utf8ByteSize
      · rw [if_pos ht, if_pos ht]
        rcases hvt : validateRule env repo state fuel c.To.Name usedKeyIDs with _ | r
        · simp [checkPaths, hvt]
        · cases r with
          | error e => simp [checkPaths, hvt]
          | ok u => simp [checkPaths, hvt]
      · rw [if_neg ht, if_neg ht]
        simp [checkPaths]

theorem checkPaths_all_ok (env : Env) (repo : Repository) (state : PolicyState) (fuel : Nat)
    (usedKeyIDs : List String) (paths : List String)
    (h : ∀ q ∈ paths, validateRule env repo state fuel q usedKeyIDs = some (.ok ())) :
    checkPaths env repo state fuel usedKeyIDs paths = some (.ok ()) := by
  induction paths with
  | nil => rfl
  | cons p paths ih =>
    rw [checkPaths, h p (List.mem_cons_self _ _)]
    exact ih (fun q hq => h q (List.mem_cons_of_mem _ hq))

/-- What validateRule returns for a path whose rule resolves and that it does
not accept. -/
theorem validateRule_unauthorized (env : Env) (repo : Repository) (state : PolicyState)
    (fuel : Nat) (path : String) (usedKeyIDs : List String) (ruleInA : DelegatedRole)
    (hrule : getDelegationForTarget env repo state fuel path = some (.ok ruleInA))
    (hbad : validateRule env repo state fuel path usedKeyIDs ≠ some (.ok ())) :
    validateRule env repo state fuel path usedKeyIDs =
      some (.error ("unauthorized change to file " ++ path)) := by
  rw [validateRule_of_rule _ _ _ _ _ _ _ hrule] at hbad ⊢
  by_cases h1 : ruleInA.Name = AllowRule
  · rw [if_pos h1] at hbad
    exact absurd rfl hbad
  · rw [if_neg h1] at hbad ⊢
    cases h2 : validateUsedKeyIDs ruleInA.KeyIDs usedKeyIDs with
    | true => rw [h2] at hbad; exact absurd rfl hbad
    | false => simp

/-- C15: when the checked paths of the changes, in diff order and within one
change the from-name before the to-name, are `pre ++ path :: post`, every
path of `pre` is accepted, and `path` resolves to a rule but is not accepted,
validateChanges returns the unauthorized-change error naming `path`, and
only it.  The paths after `path` play no part: any list of changes whose
checked paths start with `pre ++ [path]` gives the same error, whatever
follows, even paths whose rule lookup would fail. -/
theorem validateChanges_first_violation (env : Env) (repo : Repository) (state : PolicyState)
    (fuel : Nat) (usedKeyIDs : List String) (changes : List Change)
    (pre post : List String) (path : String) (ruleInA : DelegatedRole)
    (hpaths : changes.flatMap checkedPaths = pre ++ path :: post)
    (hpre : ∀ q ∈ pre, validateRule env repo state fuel q usedKeyIDs = some (.ok ()))
    (hrule : getDelegationForTarget env repo state fuel path = some (.ok ruleInA))
    (hbad : validateRule env repo state fuel path usedKeyIDs ≠ some (.ok ())) :
    validateChanges env repo state fuel changes usedKeyIDs =
      some (.error ("unauthorized change to file " ++ path)) ∧
    (∀ (changes1 : List Change) (post1 : List String),
      changes1.flatMap checkedPaths = pre ++ path :: post1 →
      validateChanges env repo state fuel changes1 usedKeyIDs =
        some (.error ("unauthorized change to file " ++ path))) := by
  have key : ∀ (changes1 : List Change) (post1 : List String),
      changes1.flatMap checkedPaths = pre ++ path :: post1 →
      validateChanges env repo state fuel changes1 usedKeyIDs =
        some (.error ("unauthorized change to file " ++ path)) := by
    intro changes1 post1 h1
    rw [validateChanges_eq_checkPaths, h1, checkPaths_append,
      checkPaths_all_ok _ _ _ _ _ _ hpre]
    dsimp only
    rw [checkPaths, validateRule_unauthorized _ _ _ _ _ _ _ hrule hbad]
  exact ⟨key changes post hpaths, key⟩

/-- Witness of C15: under secret/* for keyA and a catch-all, signer keyB: the
change to public/a passes, the rename of secret/a is refused at its old
path, and the change to secret/b after it is not looked at. -/
theorem validateChanges_first_violation_witness :
    validateChanges secretAndAllowEnv emptyRepo emptyState 2
        [changeOf "public/a" "public/a", changeOf "secret/a" "public/z",
         changeOf "secret/b" "secret/b"] ["keyB"] =
      some (.error "unauthorized change to file secret/a") :=
  (validateChanges_first_violation secretAndAllowEnv emptyRepo emptyState 2 ["keyB"]
    [changeOf "public/a" "public/a", changeOf "secret/a" "public/z",
     changeOf "secret/b" "secret/b"]
    ["public/a"] ["public/z", "secret/b"] "secret/a"
    (rule "protect-secret" ["keyA"] ["secret/*"])
    (by decide) (by decide) (by decide) (by decide)).1

/-! ## C11, C12, C13: LoadAtState -/

/-- The walk over a whole linear history: it returns within as many
iterations as the history has commits, with success exactly when the
requested commit is one of them. -/
theorem traceBack_linear (repo : Repository) (stateID : String) (stateHash : Hash)
    (chain : List Hash) (h : Hash) (fuel : Nat)
    (hchain : linearHistory repo (h :: chain) = true) (hfuel : chain.length + 1 ≤ fuel) :
    traceBack repo stateID stateHash fuel h =
      if stateHash ∈ h :: chain then some (.ok ())
      else some (.error ("state " ++ stateID ++ " not found in gittuf namespace")) := by
  induction chain generalizing h fuel with
  | nil =>
    obtain ⟨f, rfl⟩ : ∃ f, fuel = f + 1 := ⟨fuel - 1, by omega⟩
    simp only [linearHistory] at hchain
    cases hc : repo.CommitObject h with
    | error e => rw [hc] at hchain; simp at hchain
    | ok c =>
      rw [hc] at hchain
      have hp : c.ParentHashes = [] := by simpa using hchain
      rw [traceBack]
      by_cases he : h = stateHash
      · simp [he]
      · have hne : ¬ stateHash = h := fun e => he e.symm
        simp [he, hne, hc, hp]
  | cons next rest ih =>
    obtain ⟨f, rfl⟩ : ∃ f, fuel = f + 1 := ⟨fuel - 1, by simp at hfuel; omega⟩
    simp only [linearHistory, Bool.and_eq_true] at hchain
    obtain ⟨hhead, htail⟩ := hchain
    cases hc : repo.CommitObject h with
    | error e => rw [hc] at hhead; simp at hhead
    | ok c =>
      rw [hc] at hhead
      have hp : c.ParentHashes = [next] := by simpa using hhead
      rw [traceBack]
      by_cases he : h = stateHash
      · simp [he]
      · have hne : ¬ stateHash = h := fun e => he e.symm
        rw [if_neg he, hc]
        simp only [hp]
        rw [ih next f htail (by simp at hfuel ⊢; omega)]
        simp [hne]

/-- The walk towards a merge: when the requested commit is not met before, it
fails at the merge commit. -/
theorem traceBack_merge (repo : Repository) (stateID : String) (stateHash : Hash)
    (chain : List Hash) (h : Hash) (fuel : Nat)
    (hchain : historyToMerge repo (h :: chain) = true) (hfuel : chain.length + 1 ≤ fuel)
    (hnot : stateHash ∉ h :: chain) :
    traceBack repo stateID stateHash fuel h =
      some (.error ("state " ++ hashString ((h :: chain).getLast (List.cons_ne_nil _ _)) ++
        " has multiple parents")) := by
  induction chain generalizing h fuel with
  | nil =>
    obtain ⟨f, rfl⟩ : ∃ f, fuel = f + 1 := ⟨fuel - 1, by omega⟩
    simp only [historyToMerge] at hchain
    have he : ¬ h = stateHash := fun e => hnot (by simp [e])
    cases hc : repo.CommitObject h with
    | error e => rw [hc] at hchain; simp at hchain
    | ok c =>
      rw [hc] at hchain
      have hp : 1 < c.ParentHashes.length := by simpa using hchain
      rw [traceBack, if_neg he, hc]
      rcases hps : c.ParentHashes with _ | ⟨p1, _ | ⟨p2, ps⟩⟩
      · rw [hps] at hp; simp at hp
      · rw [hps] at hp; simp at hp
      · simp only [hps, List.getLast_singleton]
  | cons next rest ih =>
    obtain ⟨f, rfl⟩ : ∃ f, fuel = f + 1 := ⟨fuel - 1, by simp at hfuel; omega⟩
    simp only [historyToMerge, Bool.and_eq_true] at hchain
    obtain ⟨hhead, htail⟩ := hchain
    have he : ¬ h = stateHash := fun e => hnot (by simp [e])
    have hnot1 : stateHash ∉ next :: rest := fun hm => hnot (List.mem_cons_of_mem _ hm)
    cases hc : repo.CommitObject h with
    | error e => rw [hc] at hhead; simp at hhead
    | ok c =>
      rw [hc] at hhead
      have hp : c.ParentHashes = [next] := by simpa using hhead
      rw [traceBack, if_neg he, hc]
      simp only [hp]
      rw [ih next f htail (by simp at hfuel ⊢; omega) hnot1]
      simp [List.getLast_cons]

/-- The function LoadAtState once the repository is open, the reference is
read and neither hash is zero. -/
theorem LoadAtState_eq (host : Host) (fuel : Nat) (repoRoot stateID : String)
    (repo : Repository) (tip : Hash)
    (hopen : host.PlainOpen repoRoot = .ok repo)
    (href : repo.Reference PolicyStateRef = .ok tip)
    (htip : tip ≠ ZeroHash) (hstate : host.NewHash stateID ≠ ZeroHash) :
    LoadAtState host fuel repoRoot stateID =
      if tip = host.NewHash stateID then some (loadSnapshot repo (host.NewHash stateID))
      else
        match traceBack repo stateID (host.NewHash stateID) fuel tip with
        | none => none
        | some (.error e) => some (.error e)
        | some (.ok ()) => some (loadSnapshot repo (host.NewHash stateID)) := by
  unfold LoadAtState
  rw [hopen]
  simp only [href]
  rw [if_neg (by simp [htip, hstate])]
  by_cases he : tip = host.NewHash stateID
  · rw [if_pos he, if_pos he]
    simp only [LoadStateIn, hopen, LoadState, href, loadSnapshot, he, if_neg hstate]
  · rw [if_neg he, if_neg he]
    rfl

/-- C11: over a whole linear history `tip :: chain` (every commit has the
next as its only parent, the last has none), with a tip and a requested
commit that are not zero, and fuel for as many iterations as the history has
commits: the walk of LoadAtState succeeds exactly when the requested commit
is the tip or one of its ancestors, and LoadAtState then returns the snapshot
loadState gives for it; otherwise the walk reaches the commit without parent
and LoadAtState fails with the not-found error.  In both cases it returns. -/
theorem LoadAtState_accepts_exactly_ancestors (host : Host) (fuel : Nat)
    (repoRoot stateID : String) (repo : Repository) (tip : Hash) (chain : List Hash)
    (hopen : host.PlainOpen repoRoot = .ok repo)
    (href : repo.Reference PolicyStateRef = .ok tip)
    (htip : tip ≠ ZeroHash) (hstate : host.NewHash stateID ≠ ZeroHash)
    (hchain : linearHistory repo (tip :: chain) = true)
    (hfuel : chain.length + 1 ≤ fuel) :
    (traceBack repo stateID (host.NewHash stateID) fuel tip = some (.ok ()) ↔
      host.NewHash stateID ∈ tip :: chain) ∧
    (host.NewHash stateID ∈ tip :: chain →
      LoadAtState host fuel repoRoot stateID =
        some (loadSnapshot repo (host.NewHash stateID))) ∧
    (host.NewHash stateID ∉ tip :: chain →
      LoadAtState host fuel repoRoot stateID =
        some (.error ("state " ++ stateID ++ " not found in gittuf namespace"))) ∧
    (∃ r, LoadAtState host fuel repoRoot stateID = some r) := by
  have hwalk := traceBack_linear repo stateID (host.NewHash stateID) chain tip fuel hchain hfuel
  have heq := LoadAtState_eq host fuel repoRoot stateID repo tip hopen href htip hstate
  have hin : host.NewHash stateID ∈ tip :: chain →
      LoadAtState host fuel repoRoot stateID =
        some (loadSnapshot repo (host.NewHash stateID)) := by
    intro hm
    rw [heq]
    by_cases he : tip = host.NewHash stateID
    · rw [if_pos he]
    · rw [if_neg he, hwalk, if_pos hm]
  have hout : host.NewHash stateID ∉ tip :: chain →
      LoadAtState host fuel repoRoot stateID =
        some (.error ("state " ++ stateID ++ " not found in gittuf namespace")) := by
    intro hm
    have he : ¬ tip = host.NewHash stateID := fun e => hm (by simp [e])
    rw [heq, if_neg he, hwalk, if_neg hm]
  refine ⟨?_, hin, hout, ?_⟩
  · rw [hwalk]
    by_cases hm : host.NewHash stateID ∈ tip :: chain
    · simp [hm]
    · simp [hm]
  · by_cases hm : host.NewHash stateID ∈ tip :: chain
    · exact ⟨_, hin hm⟩
    · exact ⟨_, hout hm⟩

/-- Witness of C11: the history 3, 2, 1 and the request for commit 2. -/
theorem LoadAtState_accepts_exactly_ancestors_witness :
    LoadAtState linearHost 3 "/repo" "2" = some (loadSnapshot linearRepo 2) :=
  (LoadAtState_accepts_exactly_ancestors linearHost 3 "/repo" "2" linearRepo 3 [2, 1]
    (by decide) (by decide) (by decide) (by decide) (by decide) (by decide)).2.1 (by decide)

/-- C12: when the walk from the tip meets a commit with more than one parent
before it meets the requested commit (`tip :: chain` leads to the merge by
single-parent links and does not hold the requested commit), LoadAtState
fails with the multiple-parents error naming the merge commit and returns no
snapshot, wherever the requested commit lies behind the merge. -/
theorem LoadAtState_rejects_merge (host : Host) (fuel : Nat)
    (repoRoot stateID : String) (repo : Repository) (tip : Hash) (chain : List Hash)
    (hopen : host.PlainOpen repoRoot = .ok repo)
    (href : repo.Reference PolicyStateRef = .ok tip)
    (htip : tip ≠ ZeroHash) (hstate : host.NewHash stateID ≠ ZeroHash)
    (hchain : historyToMerge repo (tip :: chain) = true)
    (hfuel : chain.length + 1 ≤ fuel)
    (hnot : host.NewHash stateID ∉ tip :: chain) :
    LoadAtState host fuel repoRoot stateID =
      some (.error ("state " ++ hashString ((tip :: chain).getLast (List.cons_ne_nil _ _)) ++
        " has multiple parents")) := by
  have he : ¬ tip = host.NewHash stateID := fun e => hnot (by simp [e])
  rw [LoadAtState_eq host fuel repoRoot stateID repo tip hopen href htip hstate, if_neg he,
    traceBack_merge repo stateID (host.NewHash stateID) chain tip fuel hchain hfuel hnot]

/-- Witness of C12: the tip 4 has the parent 3, which has the parents 2 and
1; commit 1 is requested, a parent of the merge. -/
theorem LoadAtState_rejects_merge_witness :
    LoadAtState linearHost 2 "/merge" "1" =
      some (.error "state 0000000000000000000000000000000000000003 has multiple parents") :=
  LoadAtState_rejects_merge linearHost 2 "/merge" "1" mergeRepo 4 [3]
    (by decide) (by decide) (by decide) (by decide) (by decide) (by decide) (by decide)

/-- When the repository cannot be opened LoadAtState returns an empty state
and no error. -/
theorem LoadAtState_open_failure (host : Host) (fuel : Nat) (repoRoot stateID : String)
    (e : Error) (hopen : host.PlainOpen repoRoot = .error e) :
    LoadAtState host fuel repoRoot stateID = some (.ok (nilRepository, zeroValueState)) := by
  unfold LoadAtState
  rw [hopen]

/-- Once the repository is open, LoadAtState returns a state only when the
reference is read and loadState succeeds for the requested commit: the other
failures are returned as errors. -/
theorem LoadAtState_ok_after_open (host : Host) (fuel : Nat) (repoRoot stateID : String)
    (repo repo1 : Repository) (s : PolicyState)
    (hopen : host.PlainOpen repoRoot = .ok repo)
    (h : LoadAtState host fuel repoRoot stateID = some (.ok (repo1, s))) :
    repo1 = repo ∧ (∃ tip, repo.Reference PolicyStateRef = .ok tip) ∧
      loadState repo (host.NewHash stateID) = .ok s := by
  unfold LoadAtState at h
  rw [hopen] at h
  dsimp only at h
  cases href : repo.Reference PolicyStateRef with
  | error e => rw [href] at h; simp at h
  | ok tip =>
    rw [href] at h
    dsimp only at h
    have hload : ∀ r : Result PolicyState, withRepository repo r = .ok (repo1, s) →
        repo1 = repo ∧ r = .ok s := by
      intro r hr
      cases r with
      | ok s1 =>
        simp only [withRepository, Result.ok.injEq, Prod.mk.injEq] at hr
        exact ⟨hr.1.symm, by rw [hr.2]⟩
      | error e => simp [withRepository] at hr
      | panic m => simp [withRepository] at hr
    split at h
    · simp at h
    · rename_i hz
      split at h
      · rename_i he
        simp only [LoadStateIn, hopen, Option.some.injEq] at h
        obtain ⟨h1, h2⟩ := hload _ h
        have hnz : ¬ tip = ZeroHash := fun e => hz (Or.inr e)
        simp only [LoadState, href, if_neg hnz] at h2
        rw [← he]
        exact ⟨h1, ⟨tip, rfl⟩, h2⟩
      · cases ht : traceBack repo stateID (host.NewHash stateID) fuel tip with
        | none => rw [ht] at h; simp at h
        | some r =>
          rw [ht] at h
          cases r with
          | error e => simp at h
          | ok u =>
            simp only [Option.some.injEq] at h
            obtain ⟨h1, h2⟩ := hload _ h
            exact ⟨h1, ⟨tip, rfl⟩, h2⟩

/-- C13 on the code: at a root directory where no repository can be opened,
LoadAtState returns an empty state and a nil error, not the error of the
failed opening. -/
theorem LoadAtState_hides_open_failure :
    linearHost.PlainOpen "/nowhere" = .error "repository does not exist" ∧
      LoadAtState linearHost 1 "/nowhere" "2" = some (.ok (nilRepository, zeroValueState)) := by
  decide

/-! ## C18, C19: the reference-state entry -/

/-- The function LoadReferenceStateForRef for a stored entry that decodes. -/
theorem LoadReferenceStateForRef_eq (host : Host) (repo : Repository) (refName : String)
    (trustedKeys : List PublicKey) (ref : Hash) (n : Nat) (contents msg : Bytes) (e : Signed)
    (r : ReferenceState)
    (href : repo.Reference (ReferenceStateRef ++ "/" ++ refName) = .ok ref)
    (hnz : ref ≠ ZeroHash) (hblob : readBlob repo ref = .ok (n, contents))
    (hdec : host.unmarshalSigned contents = .ok e)
    (hpay : host.unmarshalReferenceState e.Signed = .ok r)
    (hmsg : host.EncodeCanonical r = .ok msg) :
    LoadReferenceStateForRef host repo refName trustedKeys =
      tryTrustedKeys host msg e r trustedKeys := by
  unfold LoadReferenceStateForRef
  rw [href]
  dsimp only
  rw [if_neg hnz, hblob]
  dsimp only
  rw [hdec]
  dsimp only
  rw [hpay]
  dsimp only
  rw [hmsg]

theorem tryTrustedKeys_none (host : Host) (msg : Bytes) (e : Signed) (r : ReferenceState)
    (sig : TufSignature) (sigs : List TufSignature) (hsig : e.Signatures = sig :: sigs)
    (keys : List PublicKey)
    (h : ∀ k ∈ keys, ∃ v, host.GetVerifier k = .ok v ∧ v msg sig.Signature = false) :
    tryTrustedKeys host msg e r keys =
      .error "no entry found with signature from trusted key" := by
  induction keys with
  | nil => rfl
  | cons k rest ih =>
    obtain ⟨v, hv, hf⟩ := h k (List.mem_cons_self _ _)
    rw [tryTrustedKeys, hv]
    dsimp only
    rw [hsig]
    dsimp only
    rw [hf]
    exact ih (fun k1 h1 => h k1 (List.mem_cons_of_mem _ h1))

theorem tryTrustedKeys_split (host : Host) (msg : Bytes) (e : Signed) (r : ReferenceState)
    (sig : TufSignature) (sigs : List TufSignature) (hsig : e.Signatures = sig :: sigs)
    (pre : List PublicKey) (k : PublicKey) (post : List PublicKey)
    (h : ∀ k1 ∈ pre, ∃ v, host.GetVerifier k1 = .ok v ∧ v msg sig.Signature = false) :
    tryTrustedKeys host msg e r (pre ++ k :: post) =
      match host.GetVerifier k with
      | .error err => .error err
      | .ok verifier =>
        if verifier msg sig.Signature then .ok r else tryTrustedKeys host msg e r post := by
  induction pre with
  | nil =>
    rw [List.nil_append, tryTrustedKeys]
    cases host.GetVerifier k with
    | error err => rfl
    | ok verifier =>
      dsimp only
      rw [hsig]
  | cons k1 rest ih =>
    obtain ⟨v, hv, hf⟩ := h k1 (List.mem_cons_self _ _)
    rw [List.cons_append, tryTrustedKeys, hv]
    dsimp only
    rw [hsig]
    dsimp only
    rw [hf]
    exact ih (fun k2 h2 => h k2 (List.mem_cons_of_mem _ h2))

/-- When every key has a verifier, the loop accepts exactly when some key
verifies. -/
theorem tryTrustedKeys_iff (host : Host) (msg : Bytes) (e : Signed) (r : ReferenceState)
    (sig : TufSignature) (sigs : List TufSignature) (hsig : e.Signatures = sig :: sigs)
    (keys : List PublicKey) (hall : ∀ k ∈ keys, ∃ v, host.GetVerifier k = .ok v) :
    (tryTrustedKeys host msg e r keys = .ok r ↔
      ∃ k ∈ keys, verifies host msg sig.Signature k = true) ∧
    ((∀ k ∈ keys, verifies host msg sig.Signature k = false) →
      tryTrustedKeys host msg e r keys =
        .error "no entry found with signature from trusted key") := by
  induction keys with
  | nil => simp [tryTrustedKeys]
  | cons k rest ih =>
    obtain ⟨v, hv⟩ := hall k (List.mem_cons_self _ _)
    obtain ⟨ih1, ih2⟩ := ih (fun k1 h1 => hall k1 (List.mem_cons_of_mem _ h1))
    rw [tryTrustedKeys, hv]
    dsimp only
    rw [hsig]
    dsimp only
    have hver : verifies host msg sig.Signature k = v msg sig.Signature := by
      simp [verifies, hv]
    cases hb : v msg sig.Signature with
    | true =>
      constructor
      · simp [hver, hb]
      · intro hnone
        have := hnone k (List.mem_cons_self _ _)
        rw [hver, hb] at this
        exact absurd this (by simp)
    | false =>
      constructor
      · simp only [Bool.false_eq_true, if_false, ih1, List.exists_mem_cons_iff, hver, hb,
          false_or]
      · intro hnone
        simp only [Bool.false_eq_true, if_false]
        exact ih2 (fun k1 h1 => hnone k1 (List.mem_cons_of_mem _ h1))

/-- The loop over the trusted keys is decided by the first key that has no
verifier or whose verifier accepts: either every key has a verifier that
refuses the signature, or the list splits at such a first key. -/
theorem trustedKeys_cases (host : Host) (msg sig : Bytes) (keys : List PublicKey) :
    (∀ k ∈ keys, ∃ v, host.GetVerifier k = .ok v ∧ v msg sig = false) ∨
    (∃ pre k post, keys = pre ++ k :: post ∧
      (∀ k1 ∈ pre, ∃ v, host.GetVerifier k1 = .ok v ∧ v msg sig = false) ∧
      (verifies host msg sig k = true ∨ ∃ err, host.GetVerifier k = .error err)) := by
  induction keys with
  | nil => exact Or.inl (fun k hk => absurd hk (List.not_mem_nil k))
  | cons k rest ih =>
    cases hv : host.GetVerifier k with
    | error err =>
      exact Or.inr ⟨[], k, rest, rfl, fun k1 h1 => absurd h1 (List.not_mem_nil k1),
        Or.inr ⟨err, hv⟩⟩
    | ok v =>
      cases hb : v msg sig with
      | true =>
        refine Or.inr ⟨[], k, rest, rfl, fun k1 h1 => absurd h1 (List.not_mem_nil k1),
          Or.inl ?_⟩
        simp [verifies, hv, hb]
      | false =>
        rcases ih with h | ⟨pre, k1, post, hkeys, hpre, hk1⟩
        · refine Or.inl (fun k2 h2 => ?_)
          rcases List.mem_cons.mp h2 with e | h3
          · subst e
            exact ⟨v, hv, hb⟩
          · exact h k2 h3
        · refine Or.inr ⟨k :: pre, k1, post, by rw [hkeys, List.cons_append], ?_, hk1⟩
          intro k2 h2
          rcases List.mem_cons.mp h2 with e | h3
          · subst e
            exact ⟨v, hv, hb⟩
          · exact hpre k2 h3

/-- The loop over the trusted keys accepts as soon as a key verifies, the
keys before it having a verifier that refuses the signature. -/
theorem tryTrustedKeys_accepts (host : Host) (msg : Bytes) (e : Signed) (r : ReferenceState)
    (sig : TufSignature) (sigs : List TufSignature) (hsig : e.Signatures = sig :: sigs)
    (pre : List PublicKey) (k : PublicKey) (post : List PublicKey)
    (h : ∀ k1 ∈ pre, ∃ v, host.GetVerifier k1 = .ok v ∧ v msg sig.Signature = false)
    (hk : verifies host msg sig.Signature k = true) :
    tryTrustedKeys host msg e r (pre ++ k :: post) = .ok r := by
  rw [tryTrustedKeys_split host msg e r sig sigs hsig pre k post h]
  unfold verifies at hk
  cases hv : host.GetVerifier k with
  | error err => rw [hv] at hk; exact absurd hk (by simp)
  | ok v =>
    rw [hv] at hk
    dsimp only at hk ⊢
    rw [if_pos hk]

/-- The loop over the trusted keys: it accepts exactly when the list has a
key that verifies and every key before the first such key has a verifier. -/
theorem tryTrustedKeys_ok_iff (host : Host) (msg : Bytes) (e : Signed) (r : ReferenceState)
    (sig : TufSignature) (sigs : List TufSignature) (hsig : e.Signatures = sig :: sigs)
    (keys : List PublicKey) :
    tryTrustedKeys host msg e r keys = .ok r ↔
      ∃ pre k post, keys = pre ++ k :: post ∧
        (∀ k1 ∈ pre, ∃ v, host.GetVerifier k1 = .ok v ∧ v msg sig.Signature = false) ∧
        verifies host msg sig.Signature k = true := by
  constructor
  · intro hok
    rcases trustedKeys_cases host msg sig.Signature keys with
      h | ⟨pre, k, post, hkeys, hpre, hk | ⟨err, herr⟩⟩
    · rw [tryTrustedKeys_none host msg e r sig sigs hsig keys h] at hok
      exact absurd hok (by simp)
    · exact ⟨pre, k, post, hkeys, hpre, hk⟩
    · rw [hkeys, tryTrustedKeys_split host msg e r sig sigs hsig pre k post hpre, herr] at hok
      exact absurd hok (by simp)
  · rintro ⟨pre, k, post, hkeys, hpre, hk⟩
    rw [hkeys]
    exact tryTrustedKeys_accepts host msg e r sig sigs hsig pre k post hpre hk

/-- C18, as the code has it: for a stored entry that is not zero, whose
envelope decodes and carries at least one signature and whose payload
decodes and encodes canonically, and every list of trusted keys.
LoadReferenceStateForRef returns the decoded entry exactly when the list has
a key that verifies the first signature over the canonical encoding and
every key before the first such key has a verifier; the keys after it are
not looked at, so that a key without verifier after the first verifying key
does no harm.  When every key has a verifier and none verifies, with no key
in particular, it fails with the untrusted-entry error.  A key without
verifier that is reached before any verifying key makes it fail with the
error of GetVerifier, whatever keys follow.  One of the three happens for
every list.  When every supplied key has a verifier, the entry is returned
exactly when some key of the list verifies. -/
theorem LoadReferenceStateForRef_accepts (host : Host) (repo : Repository) (refName : String)
    (trustedKeys : List PublicKey) (ref : Hash) (n : Nat) (contents msg : Bytes) (e : Signed)
    (sig : TufSignature) (sigs : List TufSignature) (r : ReferenceState)
    (href : repo.Reference (ReferenceStateRef ++ "/" ++ refName) = .ok ref)
    (hnz : ref ≠ ZeroHash) (hblob : readBlob repo ref = .ok (n, contents))
    (hdec : host.unmarshalSigned contents = .ok e)
    (hsig : e.Signatures = sig :: sigs)
    (hpay : host.unmarshalReferenceState e.Signed = .ok r)
    (hmsg : host.EncodeCanonical r = .ok msg) :
    ((∀ k ∈ trustedKeys, ∃ v, host.GetVerifier k = .ok v) →
      (LoadReferenceStateForRef host repo refName trustedKeys = .ok r ↔
        ∃ k ∈ trustedKeys, verifies host msg sig.Signature k = true) ∧
      ((∀ k ∈ trustedKeys, verifies host msg sig.Signature k = false) →
        LoadReferenceStateForRef host repo refName trustedKeys =
          .error "no entry found with signature from trusted key")) ∧
    LoadReferenceStateForRef host repo refName [] =
      .error "no entry found with signature from trusted key" ∧
    (∀ (pre post : List PublicKey) (k : PublicKey) (err : Error),
      trustedKeys = pre ++ k :: post →
      (∀ k1 ∈ pre, ∃ v, host.GetVerifier k1 = .ok v ∧ v msg sig.Signature = false) →
      host.GetVerifier k = .error err →
      LoadReferenceStateForRef host repo refName trustedKeys = .error err) ∧
    (LoadReferenceStateForRef host repo refName trustedKeys = .ok r ↔
      ∃ pre k post, trustedKeys = pre ++ k :: post ∧
        (∀ k1 ∈ pre, ∃ v, host.GetVerifier k1 = .ok v ∧ v msg sig.Signature = false) ∧
        verifies host msg sig.Signature k = true) ∧
    (∀ (pre post : List PublicKey) (k : PublicKey),
      trustedKeys = pre ++ k :: post →
      (∀ k1 ∈ pre, ∃ v, host.GetVerifier k1 = .ok v ∧ v msg sig.Signature = false) →
      verifies host msg sig.Signature k = true →
      LoadReferenceStateForRef host repo refName trustedKeys = .ok r) ∧
    ((∀ k ∈ trustedKeys, ∃ v, host.GetVerifier k = .ok v ∧ v msg sig.Signature = false) →
      LoadReferenceStateForRef host repo refName trustedKeys =
        .error "no entry found with signature from trusted key") ∧
    (LoadReferenceStateForRef host repo refName trustedKeys = .ok r ∨
      LoadReferenceStateForRef host repo refName trustedKeys =
        .error "no entry found with signature from trusted key" ∨
      ∃ k ∈ trustedKeys, ∃ err, host.GetVerifier k = .error err ∧
        LoadReferenceStateForRef host repo refName trustedKeys = .error err) := by
  have heq : ∀ keys, LoadReferenceStateForRef host repo refName keys =
      tryTrustedKeys host msg e r keys := fun keys =>
    LoadReferenceStateForRef_eq host repo refName keys ref n contents msg e r href
      hnz hblob hdec hpay hmsg
  refine ⟨?_, ?_, ?_, ?_, ?_, ?_, ?_⟩
  · intro hall
    rw [heq]
    exact tryTrustedKeys_iff host msg e r sig sigs hsig trustedKeys hall
  · rw [heq]
    rfl
  · intro pre post k err hkeys hpre hk
    rw [heq, hkeys, tryTrustedKeys_split host msg e r sig sigs hsig pre k post hpre, hk]
  · rw [heq]
    exact tryTrustedKeys_ok_iff host msg e r sig sigs hsig trustedKeys
  · intro pre post k hkeys hpre hk
    rw [heq, hkeys]
    exact tryTrustedKeys_accepts host msg e r sig sigs hsig pre k post hpre hk
  · intro hnone
    rw [heq]
    exact tryTrustedKeys_none host msg e r sig sigs hsig trustedKeys hnone
  · rw [heq]
    rcases trustedKeys_cases host msg sig.Signature trustedKeys with
      h | ⟨pre, k, post, hkeys, hpre, hk | ⟨err, herr⟩⟩
    · exact Or.inr (Or.inl (tryTrustedKeys_none host msg e r sig sigs hsig trustedKeys h))
    · left
      rw [hkeys]
      exact tryTrustedKeys_accepts host msg e r sig sigs hsig pre k post hpre hk
    · right
      right
      refine ⟨k, by rw [hkeys]; simp, err, herr, ?_⟩
      rw [hkeys, tryTrustedKeys_split host msg e r sig sigs hsig pre k post hpre, herr]

/-- Witness of C18: the entry of `main`, signed with the byte 7.  With the
keys nine and seven it is returned exactly when one of them verifies; with
the key seven followed by a key without verifier it is returned. -/
theorem LoadReferenceStateForRef_accepts_witness :
    (LoadReferenceStateForRef linearHost refStateRepo "main" [keyNine, keySeven] =
        .ok { LastEntry := 4, Tip := 5 } ↔
      ∃ k ∈ [keyNine, keySeven], verifies linearHost [4, 5] [7] k = true) ∧
    LoadReferenceStateForRef linearHost refStateRepo "main" [keySeven, keyNoScheme] =
      .ok { LastEntry := 4, Tip := 5 } :=
  ⟨((LoadReferenceStateForRef_accepts linearHost refStateRepo "main" [keyNine, keySeven]
    50 4 [1, 7, 4, 5] [4, 5] { Signed := [4, 5], Signatures := [{ KeyID := "keyA", Signature := [7] }] }
    { KeyID := "keyA", Signature := [7] } [] { LastEntry := 4, Tip := 5 }
    (by decide) (by decide) (by decide) (by decide) rfl (by decide) (by decide)).1
    (by
      intro k hk
      simp only [List.mem_cons, List.mem_singleton, List.not_mem_nil, or_false] at hk
      rcases hk with rfl | rfl <;> exact ⟨_, rfl⟩)).1,
   (LoadReferenceStateForRef_accepts linearHost refStateRepo "main" [keySeven, keyNoScheme]
    50 4 [1, 7, 4, 5] [4, 5] { Signed := [4, 5], Signatures := [{ KeyID := "keyA", Signature := [7] }] }
    { KeyID := "keyA", Signature := [7] } [] { LastEntry := 4, Tip := 5 }
    (by decide) (by decide) (by decide) (by decide) rfl (by decide) (by decide)).2.2.2.2.1
    [] [keyNoScheme] keySeven rfl (fun k1 h1 => absurd h1 (List.not_mem_nil k1)) (by decide)⟩

/-- C18 as stated fails: the entry of `main` is signed with the byte 7 and
the key seven, which verifies it, is in the list; yet with a key without
verifier before it LoadReferenceStateForRef fails, and not with the
untrusted-entry error. -/
theorem verifying_key_after_unusable_key_rejected :
    verifies linearHost [4, 5] [7] keySeven = true ∧
      LoadReferenceStateForRef linearHost refStateRepo "main" [keySeven] =
        .ok { LastEntry := 4, Tip := 5 } ∧
      LoadReferenceStateForRef linearHost refStateRepo "main" [keyNoScheme, keySeven] =
        .error "unsupported key scheme" := by
  decide

/-- C19 on the code: the entry of `dev` is an envelope that decodes and
carries no signature; with one trusted key LoadReferenceStateForRef neither
returns an entry nor an error: indexing the first signature panics. -/
theorem LoadReferenceStateForRef_panics_without_signature :
    linearHost.unmarshalSigned [0, 4, 5] = .ok { Signed := [4, 5], Signatures := [] } ∧
      LoadReferenceStateForRef linearHost refStateRepo "dev" [keySeven] =
        .panic "index out of range [0] with length 0" := by
  decide

/-! ## C16: VerifyState -/

/-- C16: when the current tip of the target is read, the governing role
resolves in the current snapshot, the last trusted state of the target is
found and loads, and the governing role resolves in it: VerifyState succeeds
exactly when the hash the current role records for the target equals the
current tip and the hash the last-trusted role records equals that tip too.
Otherwise it fails with the error naming the role and the two hashes, for
the current snapshot when that one differs, else for the last-trusted one. -/
theorem VerifyState_requires_both_hashes (env : Env) (host : Host) (fuel : Nat)
    (store : GitTUFMetadata) (target : String) (activeID : Hash)
    (currentTargets lastTrustedTargets : Targets) (role role1 lastTrustedStateID : String)
    (lastTrustedState : PolicyState)
    (hactive : getCurrentCommitID host target = .ok activeID)
    (hcur : getTargetsRoleForTarget env store.repository store.State fuel target =
      some (.ok (currentTargets, role)))
    (hlast : store.LastTrusted host target = .ok lastTrustedStateID)
    (hstate : store.SpecificState host lastTrustedStateID = .ok lastTrustedState)
    (hlastRole : getTargetsRoleForTarget env store.repository lastTrustedState fuel target =
      some (.ok (lastTrustedTargets, role1))) :
    (VerifyState env host fuel store target = some (.ok ()) ↔
      recordedHash currentTargets target = activeID ∧
      recordedHash lastTrustedTargets target = activeID) ∧
    (recordedHash currentTargets target ≠ activeID →
      VerifyState env host fuel store target =
        some (.error (hashMismatch role (recordedHash currentTargets target) activeID))) ∧
    (recordedHash currentTargets target = activeID →
      recordedHash lastTrustedTargets target ≠ activeID →
      VerifyState env host fuel store target =
        some (.error
          (hashMismatch role1 (recordedHash lastTrustedTargets target) activeID))) := by
  unfold VerifyState
  rw [hactive]
  dsimp only
  rw [hcur]
  dsimp only
  by_cases h1 : recordedHash currentTargets target = activeID
  · rw [if_neg (by simp [h1]), hlast]
    dsimp only
    rw [hstate]
    dsimp only
    rw [hlastRole]
    dsimp only
    by_cases h2 : recordedHash lastTrustedTargets target = activeID
    · rw [if_neg (by simp [h2])]
      simp [h1, h2]
    · rw [if_pos h2]
      simp [h1, h2]
  · rw [if_pos h1]
    simp [h1]

/-- Witness of C16: the policy records commit 77 for `git:main` in the
current and in the last trusted state, and `main` is at commit 77. -/
theorem VerifyState_requires_both_hashes_witness :
    VerifyState verifyEnv verifyHost 3 verifyStore "git:main" = some (.ok ()) ↔
      (77 : Hash) = 77 ∧ (77 : Hash) = 77 :=
  (VerifyState_requires_both_hashes verifyEnv verifyHost 3 verifyStore "git:main" 77
    { Targets := [("git:main", 77)]
      Delegations := some { Keys := [], Roles := [rule "protect-readme" ["keyA"] ["README"]] } }
    { Targets := [("git:main", 77)]
      Delegations := some { Keys := [], Roles := [rule "protect-readme" ["keyA"] ["README"]] } }
    "targets" "targets" "0000000000000000000000000000000000000002" (policyStateAt 2)
    (by decide) (by decide) (by decide) (by decide) (by decide)).1

/-! ## C14: VerifyTrustedStates on equal states and on a malformed target -/

/-- C14: for every target and state id, VerifyTrustedStates of the state with
itself succeeds, whatever the host answers and with no fuel at all: the
target is not validated, no snapshot is loaded and no diff is computed.  When
the two state ids differ and the target is not a valid git target it fails
with the error naming the target, again whatever the rest of the host
answers. -/
theorem VerifyTrustedStates_equal_states (env : Env) (host : Host) (fuel : Nat)
    (target : String) :
    (∀ state : String, VerifyTrustedStates env host fuel target state state = some (.ok ())) ∧
    (∀ state : String, VerifyTrustedStates env host 0 target state state = some (.ok ())) ∧
    (∀ stateA stateB : String, stateA ≠ stateB → host.IsValidGitTarget target = false →
      VerifyTrustedStates env host fuel target stateA stateB =
        some (.error ("specified ref '" ++ target ++ "' is not in valid git format"))) := by
  refine ⟨?_, ?_, ?_⟩
  · intro state
    unfold VerifyTrustedStates
    rw [if_pos rfl]
  · intro state
    unfold VerifyTrustedStates
    rw [if_pos rfl]
  · intro stateA stateB hne hinvalid
    unfold VerifyTrustedStates
    rw [if_neg hne, hinvalid]
    rfl

/-- Witness of C14: a target that is not a git target, with equal and with
different states. -/
theorem VerifyTrustedStates_equal_states_witness :
    VerifyTrustedStates verifyEnv verifyHost 0 "not a target" "2" "2" = some (.ok ()) ∧
      VerifyTrustedStates verifyEnv verifyHost 0 "not a target" "2" "3" =
        some (.error "specified ref 'not a target' is not in valid git format") :=
  ⟨(VerifyTrustedStates_equal_states verifyEnv verifyHost 0 "not a target").1 "2",
    (VerifyTrustedStates_equal_states verifyEnv verifyHost 0 "not a target").2.2 "2" "3"
      (by decide) (by decide)⟩

/-! ## C20: an empty signer list -/

theorem validateUsedKeyIDs_nil (authorizedKeyIDs : List String) :
    validateUsedKeyIDs authorizedKeyIDs [] = true := by
  rw [validateUsedKeyIDs_iff]
  intro k hk
  simp at hk

theorem validateChanges_nil_signers (env : Env) (repo : Repository) (state : PolicyState)
    (fuel : Nat) (changes : List Change)
    (hall : ∀ c ∈ changes, ∀ path ∈ checkedPaths c, ∃ ruleInA,
      getDelegationForTarget env repo state fuel path = some (.ok ruleInA)) :
    validateChanges env repo state fuel changes [] = some (.ok ()) := by
  rw [validateChanges_iff]
  intro c hc
  have hpath : ∀ path ∈ checkedPaths c,
      validateRule env repo state fuel path [] = some (.ok ()) := by
    intro path hp
    obtain ⟨ruleInA, hr⟩ := hall c hc path hp
    rw [validateRule_of_rule _ _ _ _ _ _ _ hr, validateUsedKeyIDs_nil]
    simp
  constructor
  · intro hf
    exact hpath _ (by simp [checkedPaths, hf])
  · intro ht
    exact hpath _ (by simp only [checkedPaths, if_pos ht]; simp)

/-- C20: with an empty signer list validateChanges accepts every list of
changes whose checked paths each resolve to some rule, whatever keys the
rules name.  Hence VerifyTrustedStates, once the two snapshots and their
trees are loaded and the envelope of the governing role in the new snapshot
decodes with no signature, accepts whatever diff there is between the two
trees, provided each changed path resolves to a rule in the old snapshot. -/
theorem empty_signers_accepted (env : Env) (host : Host) (fuel : Nat) :
    (∀ (repo : Repository) (state : PolicyState) (changes : List Change),
      (∀ c ∈ changes, ∀ path ∈ checkedPaths c, ∃ ruleInA,
        getDelegationForTarget env repo state fuel path = some (.ok ruleInA)) →
      validateChanges env repo state fuel changes [] = some (.ok ())) ∧
    (∀ (target stateA stateB repoRoot roleName : String)
        (stateARepo stateBRepo : Repository × PolicyState)
        (stateARefTree stateBRefTree : List TreeEntry) (targetsB : Targets)
        (roleBytes : Bytes) (roleSigned : Signed) (changes : List Change),
      stateA ≠ stateB → host.IsValidGitTarget target = true →
      host.GetRepoRootDir = .ok repoRoot →
      LoadAtState host fuel repoRoot stateA = some (.ok stateARepo) →
      getStateTree env host fuel stateARepo target = some (.ok stateARefTree) →
      LoadAtState host fuel repoRoot stateB = some (.ok stateBRepo) →
      getStateTree env host fuel stateBRepo target = some (.ok stateBRefTree) →
      getTargetsRoleForTarget env stateBRepo.1 stateBRepo.2 fuel target =
        some (.ok (targetsB, roleName)) →
      stateBRepo.2.GetCurrentMetadataBytes stateBRepo.1 roleName = .ok roleBytes →
      host.unmarshalSigned roleBytes = .ok roleSigned →
      roleSigned.Signatures = [] →
      host.Diff stateARefTree stateBRefTree = .ok changes →
      (∀ c ∈ changes, ∀ path ∈ checkedPaths c, ∃ ruleInA,
        getDelegationForTarget env stateARepo.1 stateARepo.2 fuel path = some (.ok ruleInA)) →
      VerifyTrustedStates env host fuel target stateA stateB = some (.ok ())) := by
  refine ⟨fun repo state changes hall => validateChanges_nil_signers env repo state fuel changes hall, ?_⟩
  intro target stateA stateB repoRoot roleName stateARepo stateBRepo stateARefTree stateBRefTree
    targetsB roleBytes roleSigned changes hne hvalid hroot hA htreeA hB htreeB hrole hbytes hdec
    hsigs hdiff hall
  unfold VerifyTrustedStates
  rw [if_neg hne, hvalid]
  simp only [Bool.not_true, Bool.false_eq_true, if_false]
  rw [hroot]
  dsimp only
  rw [hA]
  dsimp only
  rw [htreeA]
  dsimp only
  rw [hB]
  dsimp only
  rw [htreeB]
  dsimp only
  unfold verifyDiff
  rw [hrole]
  dsimp only
  rw [hbytes]
  dsimp only
  rw [hdec]
  dsimp only
  rw [hdiff]
  dsimp only
  have hs : signerKeyIDs roleSigned = [] := by simp [signerKeyIDs, hsigs]
  rw [hs, validateChanges_nil_signers env _ _ fuel changes hall]

set_option maxRecDepth 8000 in
/-- Witness of C20: README is protected by keyA, the targets envelope of
state 3 carries no signature, and the diff from state 2 to state 3 reports
README as modified: the transition is accepted. -/
theorem empty_signers_accepted_witness :
    (∀ c ∈ [changeOf "README" "README"], ∀ path ∈ checkedPaths c, ∃ ruleInA,
      getDelegationForTarget verifyEnv policyRepo (policyStateAt 2) 3 path =
        some (.ok ruleInA)) ∧
      VerifyTrustedStates verifyEnv verifyHost 3 "git:main" "2" "3" = some (.ok ()) :=
  have hall : ∀ c ∈ [changeOf "README" "README"], ∀ path ∈ checkedPaths c, ∃ ruleInA,
      getDelegationForTarget verifyEnv policyRepo (policyStateAt 2) 3 path =
        some (.ok ruleInA) := by
    intro c hc path hp
    refine ⟨rule "protect-readme" ["keyA"] ["README"], ?_⟩
    rw [List.mem_singleton] at hc
    subst hc
    have hcp : checkedPaths (changeOf "README" "README") = ["README"] := by decide
    rw [hcp, List.mem_singleton] at hp
    subst hp
    decide
  ⟨hall,
    (empty_signers_accepted verifyEnv verifyHost 3).2 "git:main" "2" "3" "/repo" "targets"
      (policyRepo, policyStateAt 2) (policyRepo, policyStateAt 3)
      [{ Name := "README", Mode := .Regular, Hash := 5 }]
      [{ Name := "README", Mode := .Regular, Hash := 5 }]
      { Targets := [("git:main", 77)]
        Delegations := some { Keys := [], Roles := [rule "protect-readme" ["keyA"] ["README"]] } }
      [0, 9] { Signed := [9], Signatures := [] } [changeOf "README" "README"]
      (by decide) (by decide) (by decide) (by decide) (by decide) (by decide) (by decide)
      (by decide) (by decide) (by decide) rfl (by decide) hall⟩

/-! ## C17: InitializeDBUntilRole -/

theorem addRolesUntil_spec (env : Env) (roleName : String) (roles : List DelegatedRole)
    (db : DB) (toBeChecked : List String) :
    (roleName ∈ roles.map (fun d => d.Name) →
      ∃ dbBefore d queue, d ∈ roles ∧ d.Name = roleName ∧
        addRolesUntil env roleName roles db toBeChecked =
          (addRoleUnchecked env dbBefore d, true, queue)) ∧
    (roleName ∉ roles.map (fun d => d.Name) →
      ∃ db1, addRolesUntil env roleName roles db toBeChecked =
        (db1, false, toBeChecked ++ roles.map (fun d => d.Name))) := by
  induction roles generalizing db toBeChecked with
  | nil => simp [addRolesUntil]
  | cons d rest ih =>
    by_cases hd : d.Name = roleName
    · constructor
      · intro _
        exact ⟨db, d, _, List.mem_cons_self _ _, hd, by rw [addRolesUntil, if_pos hd]⟩
      · intro hnot
        exact absurd (by simp [hd]) hnot
    · obtain ⟨ih1, ih2⟩ := ih (addRoleUnchecked env db d) (toBeChecked ++ [d.Name])
      have hne : ¬ roleName = d.Name := fun e => hd e.symm
      constructor
      · intro hmem
        rw [addRolesUntil, if_neg hd]
        obtain ⟨dbBefore, d1, queue, hd1, hn1, h1⟩ := ih1 (by simpa [hne] using hmem)
        exact ⟨dbBefore, d1, queue, List.mem_cons_of_mem _ hd1, hn1, h1⟩
      · intro hnot
        rw [addRolesUntil, if_neg hd]
        obtain ⟨db1, h1⟩ := ih2 (by simpa [hne] using hnot)
        exact ⟨db1, by rw [h1]; simp⟩

theorem traversalCost_pos (graph : String → Targets) (depth : Nat) (name : String) :
    1 ≤ traversalCost graph depth name := by
  cases depth with
  | zero => simp [traversalCost]
  | succ k => simp [traversalCost]

theorem traversalCost_succ (graph : String → Targets) (rank : String → Nat)
    (hrank : ∀ n, ∀ c ∈ delegatedNames (graph n), rank c < rank n) (depth : Nat) (name : String)
    (h : rank name ≤ depth) :
    traversalCost graph (depth + 1) name = traversalCost graph depth name := by
  induction depth generalizing name with
  | zero =>
    have hnone : delegatedNames (graph name) = [] := by
      cases hc : delegatedNames (graph name) with
      | nil => rfl
      | cons c cs =>
        have := hrank name c (by rw [hc]; exact List.mem_cons_self _ _)
        omega
    simp [traversalCost, hnone]
  | succ k ih =>
    rw [traversalCost, traversalCost]
    congr 2
    apply List.map_congr_left
    intro c hc
    have := hrank name c hc
    exact ih c (by omega)

theorem traversalCost_stable (graph : String → Targets) (rank : String → Nat)
    (hrank : ∀ n, ∀ c ∈ delegatedNames (graph n), rank c < rank n) (extra : Nat) (name : String) :
    traversalCost graph (rank name + extra) name = traversalCost graph (rank name) name := by
  induction extra with
  | zero => rfl
  | succ k ih =>
    rw [← Nat.add_assoc, traversalCost_succ graph rank hrank _ _ (by omega), ih]

/-- Loading a role costs one more than loading what it delegates to. -/
theorem traversalCost_step (graph : String → Targets) (rank : String → Nat)
    (hrank : ∀ n, ∀ c ∈ delegatedNames (graph n), rank c < rank n) (name : String) :
    traversalCost graph (rank name) name =
      1 + ((delegatedNames (graph name)).map (fun c => traversalCost graph (rank c) c)).sum := by
  rw [← traversalCost_succ graph rank hrank _ _ (le_refl _), traversalCost]
  congr 2
  apply List.map_congr_left
  intro c hc
  have hlt := hrank name c hc
  obtain ⟨extra, he⟩ : ∃ extra, rank name = rank c + extra := ⟨rank name - rank c, by omega⟩
  rw [he, traversalCost_stable graph rank hrank]

theorem Delegates.tail (graph : String → Targets) (a b c : String)
    (hab : Delegates graph a b) (hc : c ∈ delegatedNames (graph b)) : Delegates graph a c := by
  induction hab with
  | self a => exact Delegates.step a c c hc (Delegates.self c)
  | step a d b hd _ ih => exact Delegates.step a d c hd (ih hc)

theorem declaredFrom_step (graph : String → Targets) (roleName current : String)
    (rest : List String) (hnot : roleName ∉ delegatedNames (graph current)) :
    DeclaredFrom graph roleName (current :: rest) ↔
      DeclaredFrom graph roleName (rest ++ delegatedNames (graph current)) := by
  constructor
  · rintro ⟨a, ha, n, hd, hn⟩
    rcases List.mem_cons.mp ha with rfl | ha
    · cases hd with
      | self => exact absurd hn hnot
      | step _ c _ hc hcn => exact ⟨c, List.mem_append_right _ hc, n, hcn, hn⟩
    · exact ⟨a, List.mem_append_left _ ha, n, hd, hn⟩
  · rintro ⟨a, ha, n, hd, hn⟩
    rcases List.mem_append.mp ha with ha | ha
    · exact ⟨a, List.mem_cons_of_mem _ ha, n, hd, hn⟩
    · exact ⟨current, List.mem_cons_self _ _, n, Delegates.step current a n ha hd, hn⟩

/-- The loop of InitializeDBUntilRole over an acyclic delegation graph whose
roles load: with fuel for the roles below the queue it returns, with success
when a rule named `roleName` is declared by a role of the queue or below it,
and with the not-found error otherwise. -/
theorem untilRoleLoop_spec (env : Env) (repo : Repository) (state : PolicyState)
    (roleName : String) (graph : String → Targets) (rank : String → Nat)
    (hrank : ∀ n, ∀ c ∈ delegatedNames (graph n), rank c < rank n)
    (hne : roleName.utf8ByteSize ≠ 0)
    (hload : ∀ n, Delegates graph "targets" n →
      ∀ db, env.loadTargets repo state n db = .ok (graph n))
    (w : Nat) (queue : List String) (db : DB) (fuel : Nat)
    (hw : (queue.map (fun n => traversalCost graph (rank n) n)).sum ≤ w)
    (hfuel : w + 1 ≤ fuel)
    (hreach : ∀ a ∈ queue, Delegates graph "targets" a) :
    (DeclaredFrom graph roleName queue →
      ∃ dbBefore d, d.Name = roleName ∧
        untilRoleLoop env repo state roleName fuel db queue =
          some (.ok (addRoleUnchecked env dbBefore d))) ∧
    (¬ DeclaredFrom graph roleName queue →
      untilRoleLoop env repo state roleName fuel db queue =
        some (.error ("role " ++ roleName ++ " not found"))) := by
  induction w generalizing queue db fuel with
  | zero =>
    obtain ⟨f, rfl⟩ : ∃ f, fuel = f + 1 := ⟨fuel - 1, by omega⟩
    cases queue with
    | nil =>
      constructor
      · rintro ⟨a, ha, _⟩
        simp at ha
      · intro _
        rw [untilRoleLoop]
        simp [hne]
    | cons current rest =>
      have := traversalCost_pos graph (rank current) current
      simp only [List.map_cons, List.sum_cons] at hw
      omega
  | succ w ih =>
    obtain ⟨f, rfl⟩ : ∃ f, fuel = f + 1 := ⟨fuel - 1, by omega⟩
    cases queue with
    | nil =>
      constructor
      · rintro ⟨a, ha, _⟩
        simp at ha
      · intro _
        rw [untilRoleLoop]
        simp [hne]
    | cons current rest =>
      have hcur := hreach current (List.mem_cons_self _ _)
      have hcost := traversalCost_step graph rank hrank current
      simp only [List.map_cons, List.sum_cons] at hw
      have hreach1 : ∀ a ∈ rest ++ delegatedNames (graph current),
          Delegates graph "targets" a := by
        intro a ha
        rcases List.mem_append.mp ha with ha | ha
        · exact hreach a (List.mem_cons_of_mem _ ha)
        · exact Delegates.tail graph _ _ _ hcur ha
      have hw1 : ((rest ++ delegatedNames (graph current)).map
          (fun n => traversalCost graph (rank n) n)).sum ≤ w := by
        rw [List.map_append, List.sum_append]
        omega
      rw [untilRoleLoop, hload current hcur db]
      dsimp only
      cases hdel : (graph current).Delegations with
      | none =>
        have hnames : delegatedNames (graph current) = [] := by simp [delegatedNames, hdel]
        have hnot : roleName ∉ delegatedNames (graph current) := by simp [hnames]
        rw [declaredFrom_step graph roleName current rest hnot, hnames, List.append_nil]
        rw [hnames, List.append_nil] at hw1 hreach1
        exact ih rest db f hw1 (by omega) hreach1
      | some delegations =>
        have hnames : delegatedNames (graph current) =
            delegations.Roles.map (fun d => d.Name) := by simp [delegatedNames, hdel]
        obtain ⟨hfound, hmissing⟩ := addRolesUntil_spec env roleName delegations.Roles
          (addKeysUnchecked env delegations.Keys db) rest
        dsimp only
        by_cases hmem : roleName ∈ delegations.Roles.map (fun d => d.Name)
        · obtain ⟨dbBefore, d, queue1, -, hdn, h1⟩ := hfound hmem
          rw [h1]
          constructor
          · intro _
            exact ⟨dbBefore, d, hdn, rfl⟩
          · intro hnone
            exact absurd ⟨current, List.mem_cons_self _ _, current, Delegates.self _,
              by rw [hnames]; exact hmem⟩ hnone
        · obtain ⟨db1, h1⟩ := hmissing hmem
          rw [h1]
          dsimp only
          rw [declaredFrom_step graph roleName current rest (by rw [hnames]; exact hmem)]
          rw [← hnames]
          exact ih _ db1 f hw1 (by omega) hreach1

/-- The function InitializeDBUntilRole over an acyclic delegation graph whose
roles load, for a role name that is not empty and not `targets`: with fuel
for the roles of the graph it returns; it succeeds when some role reached
from `targets` declares a rule of that name, the database returned being
the one the call of AddRole for that rule has left, and it fails with the
not-found error otherwise. -/
theorem InitializeDBUntilRole_finds_reachable (env : Env) (repo : Repository)
    (state : PolicyState) (roleName : String) (graph : String → Targets) (rank : String → Nat)
    (db0 : DB) (fuel : Nat)
    (hrank : ∀ n, ∀ c ∈ delegatedNames (graph n), rank c < rank n)
    (hne : roleName.utf8ByteSize ≠ 0) (hname : roleName ≠ "targets")
    (hload : ∀ n, Delegates graph "targets" n →
      ∀ db, env.loadTargets repo state n db = .ok (graph n))
    (hroot : InitializeTopLevelDB env repo state = .ok db0)
    (hfuel : traversalCost graph (rank "targets") "targets" + 1 ≤ fuel) :
    ((∃ n, Delegates graph "targets" n ∧ roleName ∈ delegatedNames (graph n)) →
      ∃ dbBefore d, d.Name = roleName ∧
        InitializeDBUntilRole env repo state fuel roleName =
          some (.ok (addRoleUnchecked env dbBefore d))) ∧
    (¬ (∃ n, Delegates graph "targets" n ∧ roleName ∈ delegatedNames (graph n)) →
      InitializeDBUntilRole env repo state fuel roleName =
        some (.error ("role " ++ roleName ++ " not found"))) := by
  have hdecl : DeclaredFrom graph roleName ["targets"] ↔
      ∃ n, Delegates graph "targets" n ∧ roleName ∈ delegatedNames (graph n) := by
    constructor
    · rintro ⟨a, ha, n, hd, hn⟩
      rw [List.mem_singleton] at ha
      subst ha
      exact ⟨n, hd, hn⟩
    · rintro ⟨n, hd, hn⟩
      exact ⟨"targets", List.mem_singleton.mpr rfl, n, hd, hn⟩
  obtain ⟨h1, h2⟩ := untilRoleLoop_spec env repo state roleName graph rank hrank hne hload
    (traversalCost graph (rank "targets") "targets") ["targets"] db0 fuel (by simp) hfuel
    (by
      intro a ha
      rw [List.mem_singleton] at ha
      subst ha
      exact Delegates.self _)
  unfold InitializeDBUntilRole
  rw [hroot]
  dsimp only
  rw [if_neg hname, ← hdecl]
  exact ⟨h1, h2⟩

/-- The delegations of `chainGraph` go down in `chainRank`. -/
theorem chainGraph_rank : ∀ n, ∀ c ∈ delegatedNames (chainGraph n),
    chainRank c < chainRank n := by
  intro n c hc
  unfold chainGraph at hc
  split_ifs at hc with h1 h2
  · subst h1
    simp [delegatedNames, roleOf, rule] at hc
    subst hc
    decide
  · subst h2
    simp [delegatedNames, roleOf, rule] at hc
    subst hc
    decide
  · simp [delegatedNames] at hc

/-- The roles reached from a role of the chain are roles of the chain. -/
theorem chainGraph_closed (a n : String) (h : Delegates chainGraph a n) :
    a ∈ ["targets", "team", "dev"] → n ∈ ["targets", "team", "dev"] := by
  induction h with
  | self a => exact id
  | step a c b hc _ ih =>
    intro _
    apply ih
    unfold chainGraph at hc
    split_ifs at hc with h1 h2
    · simp [delegatedNames, roleOf, rule] at hc
      subst hc
      decide
    · simp [delegatedNames, roleOf, rule] at hc
      subst hc
      decide
    · simp [delegatedNames] at hc

/-- Every role reached from `targets` in `chainGraph` loads in `chainEnv`, as
the role the graph gives. -/
theorem chainEnv_loads : ∀ n, Delegates chainGraph "targets" n →
    ∀ db, chainEnv.loadTargets emptyRepo emptyState n db = .ok (chainGraph n) := by
  intro n hn db
  have hmem := chainGraph_closed "targets" n hn (by decide)
  simp only [List.mem_cons, List.mem_singleton, List.not_mem_nil, or_false] at hmem
  rcases hmem with rfl | rfl | rfl <;> rfl

/-- The theorem `InitializeDBUntilRole_finds_reachable` on the chain
targets -> team -> dev: the role `dev`, declared by `team`, is found, and the
name `qa`, declared by no role, gives the not-found error. -/
theorem InitializeDBUntilRole_finds_reachable_chain :
    (∃ dbBefore d, d.Name = "dev" ∧
      InitializeDBUntilRole chainEnv emptyRepo emptyState 4 "dev" =
        some (.ok (addRoleUnchecked chainEnv dbBefore d))) ∧
    (¬ (∃ n, Delegates chainGraph "targets" n ∧ "qa" ∈ delegatedNames (chainGraph n)) →
      InitializeDBUntilRole chainEnv emptyRepo emptyState 4 "qa" =
        some (.error ("role " ++ "qa" ++ " not found"))) :=
  ⟨(InitializeDBUntilRole_finds_reachable chainEnv emptyRepo emptyState "dev" chainGraph
      chainRank sampleTopLevelDB 4 chainGraph_rank (by decide) (by decide) chainEnv_loads
      (by decide) (by decide)).1
      ⟨"team", Delegates.step "targets" "team" "team" (by decide) (Delegates.self _),
        by decide⟩,
   (InitializeDBUntilRole_finds_reachable chainEnv emptyRepo emptyState "qa" chainGraph
      chainRank sampleTopLevelDB 4 chainGraph_rank (by decide) (by decide) chainEnv_loads
      (by decide) (by decide)).2⟩

/-- C17 on the code: InitializeDBUntilRole does not look at what `db.AddRole`
returns.  The role `targets` declares the rule `dev` with threshold 0, which
the database refuses; asked for `dev`, the function returns success, and the
database it returns has no binding for `dev`. -/
theorem InitializeDBUntilRole_returns_without_binding :
    zeroThresholdEnv.loadTargets emptyRepo emptyState "targets" sampleTopLevelDB =
      .ok zeroThresholdTargets ∧
    "dev" ∈ delegatedNames zeroThresholdTargets ∧
    InitializeDBUntilRole zeroThresholdEnv emptyRepo emptyState 2 "dev" =
      some (.ok sampleTopLevelDB) ∧
    sampleTopLevelDB.GetRole "dev" = none := by
  decide

/-! ## The role-map key invariant -/

theorem toList_append (s t : String) : (s ++ t).toList = s.toList ++ t.toList :=
  String.data_append s t

theorem hasSuffix_append (s suffix : String) : hasSuffix (s ++ suffix) suffix = true := by
  unfold hasSuffix
  rw [List.isSuffixOf_iff_suffix, toList_append]
  exact List.suffix_append _ _

theorem trimSuffix_append (s suffix : String) : trimSuffix (s ++ suffix) suffix = s := by
  unfold trimSuffix
  rw [if_pos (hasSuffix_append s suffix), toList_append]
  simp [String.toList]

/-- A name ending in `.pub` does not end in `.json`. -/
theorem hasSuffix_pub_json (k : String) : hasSuffix (k ++ ".pub") ".json" = false := by
  unfold hasSuffix
  rw [Bool.eq_false_iff, Ne, List.isSuffixOf_iff_suffix, toList_append]
  intro h
  obtain ⟨t, ht⟩ := h
  have h1 := congrArg List.getLast? ht
  have e1 : ".json".toList = ['.', 'j', 's', 'o', 'n'] := rfl
  have e2 : ".pub".toList = ['.', 'p', 'u', 'b'] := rfl
  rw [e1, e2] at h1
  simp at h1

theorem getNameWithoutExtension_json (r : String) :
    getNameWithoutExtension (r ++ ".json") = r := by
  unfold getNameWithoutExtension
  rw [if_pos (hasSuffix_append r ".json"), trimSuffix_append]

theorem getNameWithoutExtension_pub (k : String) :
    getNameWithoutExtension (k ++ ".pub") = k := by
  unfold getNameWithoutExtension
  rw [if_neg (by rw [hasSuffix_pub_json]; exact Bool.false_ne_true),
    if_pos (hasSuffix_append k ".pub"), trimSuffix_append]

theorem GoMap.keys_set {V : Type} (m : GoMap V) (k : String) (v : V) :
    GoMap.keys (GoMap.set m k v) = if k ∈ GoMap.keys m then GoMap.keys m else GoMap.keys m ++ [k] := by
  induction m with
  | nil => simp [GoMap.set, GoMap.keys]
  | cons p rest ih =>
    obtain ⟨k1, v1⟩ := p
    unfold GoMap.keys at ih ⊢
    by_cases h : k1 = k
    · subst h
      simp [GoMap.set]
    · have h1 : ¬ k = k1 := fun e => h e.symm
      simp only [GoMap.set, if_neg h, List.map_cons, ih, List.mem_cons, h1, false_or]
      split_ifs <;> simp

theorem GoMap.keys_set_nodup {V : Type} (m : GoMap V) (k : String) (v : V)
    (h : (GoMap.keys m).Nodup) : (GoMap.keys (GoMap.set m k v)).Nodup := by
  rw [GoMap.keys_set]
  split_ifs with hk
  · exact h
  · exact List.Nodup.append h (List.nodup_singleton k) (by simpa using hk)

theorem GoMap.has_iff_mem_keys {V : Type} (m : GoMap V) (k : String) :
    GoMap.has m k = true ↔ k ∈ GoMap.keys m := by
  induction m with
  | nil => simp [GoMap.has, GoMap.get?, GoMap.keys]
  | cons p rest ih =>
    obtain ⟨k1, v1⟩ := p
    unfold GoMap.has GoMap.keys at ih ⊢
    by_cases h : k1 = k
    · simp [GoMap.get?, h]
    · have h1 : ¬ k = k1 := fun e => h e.symm
      simp [GoMap.get?, h, h1, ih]

theorem KeysMatchNames_set (m : GoMap TreeEntry) (k : String) (e : TreeEntry)
    (hm : KeysMatchNames m) (he : getNameWithoutExtension e.Name = k) :
    KeysMatchNames (GoMap.set m k e) := by
  intro p hp
  rcases GoMap.mem_set m k e p hp with h | h
  · exact hm p h
  · rw [h]
    exact he

theorem KeysMatchNames_deleteAll (m : GoMap TreeEntry) (names : List String)
    (hm : KeysMatchNames m) : KeysMatchNames (deleteAll m names) :=
  fun p hp => hm p ((mem_deleteAll m names p).mp hp).1

/-- The maps loadState builds satisfy the invariant and have one binding per
key. -/
theorem identifiersOf_inv (entries : List TreeEntry) :
    KeysMatchNames (identifiersOf entries) ∧ (GoMap.keys (identifiersOf entries)).Nodup := by
  unfold identifiersOf
  have key : ∀ (es : List TreeEntry) (acc : GoMap TreeEntry),
      KeysMatchNames acc ∧ (GoMap.keys acc).Nodup →
      KeysMatchNames
          (es.foldl (fun m entry => GoMap.set m (getNameWithoutExtension entry.Name) entry) acc) ∧
        (GoMap.keys
          (es.foldl (fun m entry => GoMap.set m (getNameWithoutExtension entry.Name) entry)
            acc)).Nodup := by
    intro es
    induction es with
    | nil => exact fun acc h => h
    | cons e rest ih =>
      intro acc h
      rw [List.foldl_cons]
      exact ih _ ⟨KeysMatchNames_set _ _ _ h.1 rfl, GoMap.keys_set_nodup _ _ _ h.2⟩
  exact key entries [] ⟨fun p hp => absurd hp (List.not_mem_nil p), List.nodup_nil⟩

/-- Staging under a list of names keeps one binding per key. -/
theorem keys_foldl_set_nodup {V : Type} (names : List String) (v : V) (m : GoMap V)
    (h : (GoMap.keys m).Nodup) :
    (GoMap.keys (names.foldl (fun m name => GoMap.set m name v) m)).Nodup := by
  induction names generalizing m with
  | nil => exact h
  | cons a rest ih =>
    rw [List.foldl_cons]
    exact ih _ (GoMap.keys_set_nodup _ _ _ h)

/-- What holds of the map of tree entries before the second loop of Commit
and is kept by recording a staged entry holds after the loop, whether or not
a write failed. -/
theorem writeStaged_preserves (env : Env) (ext : String) (P : GoMap TreeEntry → Prop)
    (hP : ∀ m name identifier, P m → P (GoMap.set m name (stagedEntry ext name identifier)))
    (staging : List (String × Bytes)) (repo : Repository) (identifiers : GoMap TreeEntry)
    (entries : List TreeEntry) (h : P identifiers) :
    P (writeStaged env ext staging repo identifiers entries).2.2.1 := by
  induction staging generalizing repo identifiers entries with
  | nil => exact h
  | cons p rest ih =>
    obtain ⟨name, contents⟩ := p
    unfold writeStaged
    cases hw : writeBlob env repo contents with
    | error e => exact h
    | ok r =>
      obtain ⟨identifier, repo1⟩ := r
      exact ih _ _ _ (hP _ _ _ h)

/-- What Commit keeps: a property of the role map kept by recording a `.json`
entry, a property of the key map kept by recording a `.pub` entry, and the
two staging maps, whether or not Commit succeeds. -/
theorem Commit_preserves (env : Env) (repo : Repository) (s : PolicyState)
    (P Q : GoMap TreeEntry → Prop)
    (hP : ∀ m name identifier, P m → P (GoMap.set m name (stagedEntry ".json" name identifier)))
    (hQ : ∀ m name identifier, Q m → Q (GoMap.set m name (stagedEntry ".pub" name identifier)))
    (h1 : P s.metadataIdentifiers) (h2 : Q s.rootKeys) :
    P (s.Commit env repo).2.2.metadataIdentifiers ∧ Q (s.Commit env repo).2.2.rootKeys ∧
      (s.Commit env repo).2.2.metadataStaging = s.metadataStaging ∧
      (s.Commit env repo).2.2.keysStaging = s.keysStaging := by
  unfold PolicyState.Commit
  split_ifs with hw
  · exact ⟨h1, h2, rfl, rfl⟩
  · have hA := writeStaged_preserves env ".json" P hP s.metadataStaging repo
      s.metadataIdentifiers (unstagedEntries s.metadataIdentifiers s.metadataStaging) h1
    rcases hs1 : writeStaged env ".json" s.metadataStaging repo s.metadataIdentifiers
        (unstagedEntries s.metadataIdentifiers s.metadataStaging) with
      ⟨e1, repo1, ids, mdEntries⟩
    rw [hs1] at hA
    cases e1 with
    | some e => exact ⟨hA, h2, rfl, rfl⟩
    | none =>
      dsimp only
      cases ht1 : writeTree env repo1 mdEntries with
      | error e => exact ⟨hA, h2, rfl, rfl⟩
      | ok r1 =>
        obtain ⟨metadataTreeHash, repo2⟩ := r1
        dsimp only
        have hB := writeStaged_preserves env ".pub" Q hQ s.keysStaging repo2 s.rootKeys
          (unstagedEntries s.rootKeys s.keysStaging) h2
        rcases hs2 : writeStaged env ".pub" s.keysStaging repo2 s.rootKeys
            (unstagedEntries s.rootKeys s.keysStaging) with ⟨e2, repo3, keys, keyEntries⟩
        rw [hs2] at hB
        cases e2 with
        | some e => exact ⟨hA, hB, rfl, rfl⟩
        | none =>
          dsimp only
          cases ht2 : writeTree env repo3 keyEntries with
          | error e => exact ⟨hA, hB, rfl, rfl⟩
          | ok r2 =>
            obtain ⟨keysTreeHash, repo4⟩ := r2
            dsimp only
            cases ht3 : writeTree env repo4
                [{ Name := MetadataDir, Mode := .Dir, Hash := metadataTreeHash },
                 { Name := KeysDir, Mode := .Dir, Hash := keysTreeHash }] with
            | error e => exact ⟨hA, hB, rfl, rfl⟩
            | ok r3 =>
              obtain ⟨treeHash, repo5⟩ := r3
              dsimp only
              rcases hc : commit env repo5 s.tip treeHash PolicyStateRef with
                ⟨commitHash, e3, repo6⟩
              cases e3 with
              | some e => exact ⟨hA, hB, rfl, rfl⟩
              | none => exact ⟨hA, hB, rfl, rfl⟩

/-- The maps of a state that loadState returns are built by identifiersOf,
and nothing is staged in it. -/
theorem loadState_ok (repo : Repository) (commitID : Hash) (s : PolicyState)
    (h : loadState repo commitID = .ok s) :
    ∃ metadataTree keysTree,
      s.metadataIdentifiers = identifiersOf metadataTree ∧
      s.rootKeys = identifiersOf keysTree ∧ s.metadataStaging = [] ∧ s.keysStaging = [] := by
  unfold loadState at h
  cases hc : repo.CommitObject commitID with
  | error e => rw [hc] at h; simp at h
  | ok commitObj =>
    rw [hc] at h
    dsimp only at h
    cases ht : repo.TreeObject commitObj.TreeHash with
    | error e => rw [ht] at h; simp at h
    | ok entries =>
      rw [ht] at h
      dsimp only at h
      cases hl : loadSubtrees repo entries none none with
      | error e => rw [hl] at h; simp at h
      | ok r =>
        obtain ⟨mt, kt⟩ := r
        rw [hl] at h
        cases mt with
        | none => simp at h
        | some metadataTree =>
          cases kt with
          | none => simp at h
          | some keysTree =>
            simp only [Result.ok.injEq] at h
            subst h
            exact ⟨metadataTree, keysTree, rfl, rfl, rfl, rfl⟩

/-- A loaded state satisfies the invariant and its maps have one binding per
key. -/
theorem loadState_inv (repo : Repository) (commitID : Hash) (s : PolicyState)
    (h : loadState repo commitID = .ok s) : s.KeyInvariant ∧ s.DistinctKeys := by
  obtain ⟨metadataTree, keysTree, h1, h2, h3, h4⟩ := loadState_ok repo commitID s h
  unfold PolicyState.KeyInvariant PolicyState.DistinctKeys
  rw [h1, h2, h3, h4]
  exact ⟨⟨(identifiersOf_inv _).1, (identifiersOf_inv _).1⟩, (identifiersOf_inv _).2,
    (identifiersOf_inv _).2, List.nodup_nil, List.nodup_nil⟩

/-- Commit keeps the invariant and the one-binding-per-key form of the maps,
whether or not it succeeds. -/
theorem Commit_inv (env : Env) (repo : Repository) (s : PolicyState)
    (h : s.KeyInvariant ∧ s.DistinctKeys) :
    (s.Commit env repo).2.2.KeyInvariant ∧ (s.Commit env repo).2.2.DistinctKeys := by
  obtain ⟨⟨hm, hk⟩, hd1, hd2, hd3, hd4⟩ := h
  obtain ⟨hP, hQ, hs1, hs2⟩ := Commit_preserves env repo s
    (fun m => KeysMatchNames m ∧ (GoMap.keys m).Nodup)
    (fun m => KeysMatchNames m ∧ (GoMap.keys m).Nodup)
    (fun m name identifier h =>
      ⟨KeysMatchNames_set _ _ _ h.1 (getNameWithoutExtension_json name),
        GoMap.keys_set_nodup _ _ _ h.2⟩)
    (fun m name identifier h =>
      ⟨KeysMatchNames_set _ _ _ h.1 (getNameWithoutExtension_pub name),
        GoMap.keys_set_nodup _ _ _ h.2⟩)
    ⟨hm, hd1⟩ ⟨hk, hd2⟩
  unfold PolicyState.KeyInvariant PolicyState.DistinctKeys
  rw [hs1, hs2]
  exact ⟨⟨hP.1, hQ.1⟩, hP.2, hQ.2, hd3, hd4⟩

/-- Every reachable state satisfies the invariant and its maps have one
binding per key. -/
theorem Reachable_inv (env : Env) (s : PolicyState) (h : Reachable env s) :
    s.KeyInvariant ∧ s.DistinctKeys := by
  induction h with
  | loaded repo commitID s h => exact loadState_inv repo commitID s h
  | opened repo s h =>
    unfold LoadState at h
    cases href : repo.Reference PolicyStateRef with
    | error e => rw [href] at h; simp at h
    | ok ref =>
      rw [href] at h
      dsimp only at h
      split_ifs at h with hz
      · simp only [Result.ok.injEq] at h
        subst h
        exact ⟨⟨fun p hp => absurd hp (List.not_mem_nil p),
          fun p hp => absurd hp (List.not_mem_nil p)⟩,
          List.nodup_nil, List.nodup_nil, List.nodup_nil, List.nodup_nil⟩
      · exact loadState_inv repo ref s h
  | staged s roleName contents _ ih =>
    obtain ⟨hi, hd1, hd2, hd3, hd4⟩ := ih
    exact ⟨hi, hd1, hd2, GoMap.keys_set_nodup _ _ _ hd3, hd4⟩
  | stagedKey s key _ ih =>
    obtain ⟨hi, hd1, hd2, hd3, hd4⟩ := ih
    unfold PolicyState.StageKey
    cases hm : env.marshalKey key with
    | error e => exact ⟨hi, hd1, hd2, hd3, hd4⟩
    | ok contents => exact ⟨hi, hd1, hd2, hd3, keys_foldl_set_nodup _ _ _ hd4⟩
  | committed repo s _ ih => exact Commit_inv env repo s ih
  | removedMetadata repo s roleNames _ ih =>
    obtain ⟨⟨hm, hk⟩, hd1, hd2, hd3, hd4⟩ := ih
    unfold PolicyState.RemoveMetadata
    exact Commit_inv env repo _
      ⟨⟨KeysMatchNames_deleteAll _ _ hm, hk⟩, keys_deleteAll_nodup _ _ hd1, hd2,
        keys_deleteAll_nodup _ _ hd3, hd4⟩
  | removedKeys repo s keyIDs _ ih =>
    obtain ⟨⟨hm, hk⟩, hd1, hd2, hd3, hd4⟩ := ih
    unfold PolicyState.RemoveKeys
    exact Commit_inv env repo _
      ⟨⟨hm, KeysMatchNames_deleteAll _ _ hk⟩, hd1, keys_deleteAll_nodup _ _ hd2, hd3,
        keys_deleteAll_nodup _ _ hd4⟩

/-- The keys loadState derives from the entries of a committed subtree are
pairwise distinct. -/
theorem newSubtree_keys_nodup (env : Env) (ext : String) (identifiers : GoMap TreeEntry)
    (staging : GoMap Bytes) (hext : ∀ r : String, getNameWithoutExtension (r ++ ext) = r)
    (hm : KeysMatchNames identifiers) (hd : (GoMap.keys identifiers).Nodup)
    (hs : (GoMap.keys staging).Nodup) :
    ((newSubtree env ext identifiers staging).map
      (fun e => getNameWithoutExtension e.Name)).Nodup := by
  unfold newSubtree
  rw [((sortSlice_perm _).map _).nodup_iff, List.map_append]
  have hA : (unstagedEntries identifiers staging).map
      (fun e => getNameWithoutExtension e.Name) =
      (identifiers.filter (fun p => !GoMap.has staging p.1)).map Prod.fst := by
    unfold unstagedEntries
    rw [List.map_map]
    apply List.map_congr_left
    intro p hp
    exact hm p (List.mem_filter.mp hp).1
  have hB : (stagedEntries env ext staging).map (fun e => getNameWithoutExtension e.Name) =
      GoMap.keys staging := by
    unfold stagedEntries GoMap.keys
    rw [List.map_map]
    apply List.map_congr_left
    intro p _
    exact hext p.1
  rw [hA, hB]
  refine List.Nodup.append (hd.sublist ((List.filter_sublist _).map _)) hs ?_
  intro k hk1 hk2
  obtain ⟨p, hp, rfl⟩ := List.mem_map.mp hk1
  have h1 := (List.mem_filter.mp hp).2
  have h2 := (GoMap.has_iff_mem_keys staging p.1).mpr hk2
  rw [h2] at h1
  exact absurd h1 (by decide)

/-- The names of the entries of a committed subtree are pairwise distinct. -/
theorem newSubtree_names_nodup (env : Env) (ext : String) (identifiers : GoMap TreeEntry)
    (staging : GoMap Bytes) (hext : ∀ r : String, getNameWithoutExtension (r ++ ext) = r)
    (hm : KeysMatchNames identifiers) (hd : (GoMap.keys identifiers).Nodup)
    (hs : (GoMap.keys staging).Nodup) :
    (entryNames (newSubtree env ext identifiers staging)).Nodup := by
  have h := newSubtree_keys_nodup env ext identifiers staging hext hm hd hs
  have e : (newSubtree env ext identifiers staging).map
      (fun e => getNameWithoutExtension e.Name) =
      (entryNames (newSubtree env ext identifiers staging)).map getNameWithoutExtension := by
    unfold entryNames
    rw [List.map_map]
    rfl
  rw [e] at h
  exact List.Nodup.of_map _ h

/-- A key that no entry gives is not bound by the loop of loadState. -/
theorem get?_foldl_identifiers_of_not_mem (entries : List TreeEntry) (acc : GoMap TreeEntry)
    (k : String) (h : ∀ e ∈ entries, getNameWithoutExtension e.Name ≠ k) :
    GoMap.get?
        (entries.foldl (fun m entry => GoMap.set m (getNameWithoutExtension entry.Name) entry)
          acc) k =
      GoMap.get? acc k := by
  induction entries generalizing acc with
  | nil => rfl
  | cons a rest ih =>
    rw [List.foldl_cons, ih _ (fun e he => h e (List.mem_cons_of_mem _ he)), GoMap.get?_set,
      if_neg (h a (List.mem_cons_self _ _))]

/-- When the entries give pairwise distinct keys, the loop of loadState binds
the key of each entry to that entry. -/
theorem get?_foldl_identifiers_of_mem (entries : List TreeEntry) (acc : GoMap TreeEntry)
    (e : TreeEntry)
    (hnd : (entries.map (fun e => getNameWithoutExtension e.Name)).Nodup) (he : e ∈ entries) :
    GoMap.get?
        (entries.foldl (fun m entry => GoMap.set m (getNameWithoutExtension entry.Name) entry)
          acc) (getNameWithoutExtension e.Name) =
      some e := by
  induction entries generalizing acc with
  | nil => exact absurd he (List.not_mem_nil e)
  | cons a rest ih =>
    rw [List.map_cons, List.nodup_cons] at hnd
    rw [List.foldl_cons]
    rcases List.mem_cons.mp he with h | h
    · subst h
      rw [get?_foldl_identifiers_of_not_mem, GoMap.get?_set, if_pos rfl]
      intro e1 he1 heq
      exact hnd.1 (List.mem_map.mpr ⟨e1, he1, heq⟩)
    · exact ih _ hnd.2 h

/-- Reloading a committed subtree gives the map Commit has left in memory:
the two maps bind the same keys to the same entries. -/
theorem get?_identifiersOf_newSubtree (env : Env) (ext : String)
    (identifiers : GoMap TreeEntry) (staging : GoMap Bytes)
    (hext : ∀ r : String, getNameWithoutExtension (r ++ ext) = r)
    (hm : KeysMatchNames identifiers) (hd : (GoMap.keys identifiers).Nodup)
    (hs : (GoMap.keys staging).Nodup) (k : String) :
    GoMap.get? (identifiersOf (newSubtree env ext identifiers staging)) k =
      GoMap.get? (newIdentifiers env ext identifiers staging) k := by
  have hnd := newSubtree_keys_nodup env ext identifiers staging hext hm hd hs
  unfold identifiersOf
  by_cases hk : k ∈ GoMap.keys staging
  · obtain ⟨q, hq, rfl⟩ := List.mem_map.mp hk
    rw [get?_newIdentifiers_of_mem env ext identifiers staging q hs hq]
    have hmem : stagedEntry ext q.1 (env.hashObject (.blob q.2)) ∈
        newSubtree env ext identifiers staging :=
      (mem_newSubtree env ext identifiers staging _).mpr (Or.inr ⟨q.1, q.2, hq, rfl⟩)
    have h := get?_foldl_identifiers_of_mem _ [] _ hnd hmem
    have hname : getNameWithoutExtension (stagedEntry ext q.1 (env.hashObject (.blob q.2))).Name =
        q.1 := hext q.1
    rw [hname] at h
    exact h
  · rw [get?_newIdentifiers_of_not_mem env ext identifiers staging k hk]
    have hnot : GoMap.has staging k = false := by
      rw [← Bool.not_eq_true, GoMap.has_iff_mem_keys]
      exact hk
    cases hget : GoMap.get? identifiers k with
    | some e =>
      have hin := GoMap.mem_of_get? identifiers k e hget
      have hmem : e ∈ newSubtree env ext identifiers staging :=
        (mem_newSubtree env ext identifiers staging _).mpr (Or.inl ⟨k, hin, hnot⟩)
      have h := get?_foldl_identifiers_of_mem _ [] _ hnd hmem
      rw [hm (k, e) hin] at h
      exact h
    | none =>
      rw [get?_foldl_identifiers_of_not_mem]
      · rfl
      · intro e he heq
        rcases (mem_newSubtree env ext identifiers staging e).mp he with
          ⟨name, hin, _⟩ | ⟨name, contents, hin, rfl⟩
        · have h1 : name = k := (hm (name, e) hin).symm.trans heq
          subst h1
          rw [GoMap.get?_of_mem identifiers name e hd hin] at hget
          exact absurd hget (by simp)
        · have h1 : name = k := (hext name).symm.trans heq
          subst h1
          exact hk (List.mem_map.mpr ⟨(name, contents), hin, rfl⟩)

/-- The objects a successful Commit of a dirty state has put in the store:
the commit, the root tree and the two subtrees. -/
theorem Commit_objects_stored (env : Env) (repo repo1 : Repository) (s s1 : PolicyState)
    (hdirty : s.Written = false) (hok : s.Commit env repo = (none, repo1, s1)) :
    ∃ gitConfig,
      (s1.tip, EncodedObject.commit (commitObjectOf env gitConfig s.tip s1.tree)) ∈
        repo1.objects ∧
      (s1.tree,
        EncodedObject.tree
          [{ Name := "keys", Mode := .Dir,
             Hash := env.hashObject (.tree (newSubtree env ".pub" s.rootKeys s.keysStaging)) },
           { Name := "metadata", Mode := .Dir,
             Hash := env.hashObject
               (.tree (newSubtree env ".json" s.metadataIdentifiers s.metadataStaging)) }]) ∈
        repo1.objects ∧
      (env.hashObject (.tree (newSubtree env ".pub" s.rootKeys s.keysStaging)),
        EncodedObject.tree (newSubtree env ".pub" s.rootKeys s.keysStaging)) ∈
          repo1.objects ∧
      (env.hashObject (.tree (newSubtree env ".json" s.metadataIdentifiers s.metadataStaging)),
        EncodedObject.tree (newSubtree env ".json" s.metadataIdentifiers s.metadataStaging)) ∈
          repo1.objects := by
  obtain ⟨r1, r2, r3, r4, r5, metadataTreeHash, keysTreeHash, treeHash, commitHash, h1, h2, h3,
    h4, h5, h6, hs⟩ := Commit_ok_inv _ _ _ _ _ hdirty hok
  obtain ⟨hm, ho2, -⟩ := writeTree_ok _ _ _ _ _ h2
  obtain ⟨-, -, -, hmono3, -⟩ := writeStaged_ok _ _ _ _ _ _ _ _ _ h3
  obtain ⟨hk, ho4, -⟩ := writeTree_ok _ _ _ _ _ h4
  obtain ⟨ht, ho5, -⟩ := writeTree_ok _ _ _ _ _ h5
  obtain ⟨gitConfig, curRef, -, -, hc, ho6, hr6⟩ := commit_ok _ _ _ _ _ _ _ h6
  have m5 : ∀ p, p ∈ r5.objects → p ∈ repo1.objects := fun p hp => by
    rw [ho6]; exact List.mem_cons_of_mem _ hp
  have m4 : ∀ p, p ∈ r4.objects → p ∈ repo1.objects := fun p hp =>
    m5 p (by rw [ho5]; exact List.mem_cons_of_mem _ hp)
  have m3 : ∀ p, p ∈ r3.objects → p ∈ repo1.objects := fun p hp =>
    m4 p (by rw [ho4]; exact List.mem_cons_of_mem _ hp)
  have m2 : ∀ p, p ∈ r2.objects → p ∈ repo1.objects := fun p hp => m3 p (hmono3 p hp)
  have htree : s1.tree = treeHash := by rw [hs]
  have htip : s1.tip = commitHash := by rw [hs]
  refine ⟨gitConfig, ?_, ?_, ?_, ?_⟩
  · rw [ho6, htip, htree]
    exact List.mem_cons_self _ _
  · refine m5 _ ?_
    rw [ho5, htree, sortSlice_topLevel, hm, hk]
    exact List.mem_cons_self _ _
  · refine m4 _ ?_
    rw [ho4, hk]
    exact List.mem_cons_self _ _
  · refine m2 _ ?_
    rw [ho2, hm]
    exact List.mem_cons_self _ _

/-- After a successful Commit of a dirty state, in a store without identifier
collision, loadState at the new tip reads the commit, the root tree and the
two subtrees back and returns the state built from them. -/
theorem loadState_after_Commit (env : Env) (repo repo1 : Repository) (s s1 : PolicyState)
    (hdirty : s.Written = false) (hok : s.Commit env repo = (none, repo1, s1))
    (hstore : StoreConsistent repo1) :
    loadState repo1 s1.tip = .ok (reloaded env s s1) ∧
      repo1.TreeObject
          (env.hashObject
            (.tree (newSubtree env ".json" s.metadataIdentifiers s.metadataStaging))) =
        .ok (newSubtree env ".json" s.metadataIdentifiers s.metadataStaging) ∧
      repo1.TreeObject (env.hashObject (.tree (newSubtree env ".pub" s.rootKeys s.keysStaging))) =
        .ok (newSubtree env ".pub" s.rootKeys s.keysStaging) := by
  obtain ⟨gitConfig, hc, hr, hk, hm⟩ := Commit_objects_stored env repo repo1 s s1 hdirty hok
  have oc := hstore _ hc
  have or := hstore _ hr
  have ok := hstore _ hk
  have om := hstore _ hm
  dsimp only at oc or ok om
  have tk : repo1.TreeObject
      (env.hashObject (.tree (newSubtree env ".pub" s.rootKeys s.keysStaging))) =
      .ok (newSubtree env ".pub" s.rootKeys s.keysStaging) := by
    unfold Repository.TreeObject
    rw [ok]
  have tm : repo1.TreeObject
      (env.hashObject
        (.tree (newSubtree env ".json" s.metadataIdentifiers s.metadataStaging))) =
      .ok (newSubtree env ".json" s.metadataIdentifiers s.metadataStaging) := by
    unfold Repository.TreeObject
    rw [om]
  refine ⟨?_, tm, tk⟩
  have cc : repo1.CommitObject s1.tip = .ok (commitObjectOf env gitConfig s.tip s1.tree) := by
    unfold Repository.CommitObject
    rw [oc]
  have tr : repo1.TreeObject (commitObjectOf env gitConfig s.tip s1.tree).TreeHash =
      .ok [{ Name := "keys", Mode := .Dir,
             Hash := env.hashObject (.tree (newSubtree env ".pub" s.rootKeys s.keysStaging)) },
           { Name := "metadata", Mode := .Dir,
             Hash := env.hashObject
               (.tree (newSubtree env ".json" s.metadataIdentifiers s.metadataStaging)) }] := by
    unfold Repository.TreeObject
    show (match repo1.object? s1.tree with
      | some (.tree entries) => Except.ok entries
      | _ => Except.error "object not found") = _
    rw [or]
  have hkm : ¬ ("keys" = MetadataDir) := by decide
  have hkk : "keys" = KeysDir := rfl
  have hmm : "metadata" = MetadataDir := rfl
  unfold loadState
  rw [cc]
  dsimp only
  rw [tr]
  dsimp only
  rw [loadSubtrees, if_neg hkm, if_pos hkk]
  dsimp only
  rw [tk]
  dsimp only
  rw [loadSubtrees, if_pos hmm]
  dsimp only
  rw [tm]
  dsimp only
  rw [loadSubtrees]
  rfl

/-- C21: the name of a role file without its extension is the role, and the
name of a key file without its extension is the key identifier, for every
string.  In every state reached from a loaded state by StageMetadata,
StageKey, Commit, RemoveMetadata and RemoveKeys, on any repository and
whether or not these calls succeed, each key of the role map is the name of
its entry without the extension, and likewise for the key map; the entries
of the two subtrees a Commit of the state writes have pairwise distinct
names; and after a successful Commit of the state, when dirty, in a store
without identifier collision, the two subtrees are read back as written and
loadState at the new tip returns a state whose role map and key map bind the
same keys to the same entries as the maps Commit has left in memory. -/
theorem role_map_key_invariant (env : Env) :
    (∀ r : String, getNameWithoutExtension (r ++ ".json") = r) ∧
    (∀ k : String, getNameWithoutExtension (k ++ ".pub") = k) ∧
    (∀ s : PolicyState, Reachable env s →
      (∀ p ∈ s.metadataIdentifiers, getNameWithoutExtension p.2.Name = p.1) ∧
      (∀ p ∈ s.rootKeys, getNameWithoutExtension p.2.Name = p.1) ∧
      (entryNames (newSubtree env ".json" s.metadataIdentifiers s.metadataStaging)).Nodup ∧
      (entryNames (newSubtree env ".pub" s.rootKeys s.keysStaging)).Nodup ∧
      (∀ (repo repo1 : Repository) (s1 : PolicyState),
        s.Written = false → s.Commit env repo = (none, repo1, s1) → StoreConsistent repo1 →
        repo1.TreeObject
            (env.hashObject
              (.tree (newSubtree env ".json" s.metadataIdentifiers s.metadataStaging))) =
          .ok (newSubtree env ".json" s.metadataIdentifiers s.metadataStaging) ∧
        repo1.TreeObject
            (env.hashObject (.tree (newSubtree env ".pub" s.rootKeys s.keysStaging))) =
          .ok (newSubtree env ".pub" s.rootKeys s.keysStaging) ∧
        ∃ s2, loadState repo1 s1.tip = .ok s2 ∧
          (∀ k, GoMap.get? s2.metadataIdentifiers k = GoMap.get? s1.metadataIdentifiers k) ∧
          (∀ k, GoMap.get? s2.rootKeys k = GoMap.get? s1.rootKeys k))) := by
  refine ⟨getNameWithoutExtension_json, getNameWithoutExtension_pub, ?_⟩
  intro s hs
  obtain ⟨⟨hm, hk⟩, hd1, hd2, hd3, hd4⟩ := Reachable_inv env s hs
  refine ⟨hm, hk,
    newSubtree_names_nodup env ".json" _ _ getNameWithoutExtension_json hm hd1 hd3,
    newSubtree_names_nodup env ".pub" _ _ getNameWithoutExtension_pub hk hd2 hd4, ?_⟩
  intro repo repo1 s1 hdirty hok hstore
  obtain ⟨hload, tm, tk⟩ := loadState_after_Commit env repo repo1 s s1 hdirty hok hstore
  obtain ⟨-, -, hids, hkeys, -, -⟩ := Commit_ok_state env repo repo1 s s1 hdirty hok
  refine ⟨tm, tk, reloaded env s s1, hload, ?_, ?_⟩
  · intro k
    rw [hids]
    exact get?_identifiersOf_newSubtree env ".json" _ _ getNameWithoutExtension_json hm hd1 hd3 k
  · intro k
    rw [hkeys]
    exact get?_identifiersOf_newSubtree env ".pub" _ _ getNameWithoutExtension_pub hk hd2 hd4 k

set_option maxRecDepth 8000 in
/-- Witness of C21: `targets` is staged and committed on the empty
repository; the state is loaded at the new tip, the role `root` and the key
seven are staged in it and it is committed; reloading at the tip of that
Commit gives the role map and the key map Commit has left. -/
theorem role_map_key_invariant_witness :
    Reachable (sampleEnv []) restaged ∧ restaged.Written = false ∧
      restaged.Commit (sampleEnv []) committedRepo = (none, recommittedRepo, recommittedState) ∧
      StoreConsistent recommittedRepo ∧
      ∃ s2, loadState recommittedRepo recommittedState.tip = .ok s2 ∧
        (∀ k, GoMap.get? s2.metadataIdentifiers k =
          GoMap.get? recommittedState.metadataIdentifiers k) ∧
        (∀ k, GoMap.get? s2.rootKeys k = GoMap.get? recommittedState.rootKeys k) :=
  have hload : loadState committedRepo committedState.tip =
      .ok (reloaded (sampleEnv []) stagedTargets committedState) := by decide!
  have hreach : Reachable (sampleEnv []) restaged :=
    Reachable.stagedKey _ keySeven
      (Reachable.staged _ "root" [2] (Reachable.loaded committedRepo committedState.tip _ hload))
  have hcommit : restaged.Commit (sampleEnv []) committedRepo =
      (none, recommittedRepo, recommittedState) := triple_eta _ none (by decide!)
  have hstore : StoreConsistent recommittedRepo := by decide!
  ⟨hreach, by decide, hcommit, hstore,
    ((((role_map_key_invariant (sampleEnv [])).2.2 restaged hreach).2.2.2.2 committedRepo
      recommittedRepo recommittedState (by decide) hcommit hstore).2.2)⟩

end Gittuf
